import Mathlib

/-!
Shallow embedding of the spindlespace rail-network core: the data model
(core/models.py), cycle detection and network validation (core/validators.py),
rail network generation (generators/railgen.py) and schedule / route
computation (generators/schedgen.py), together with proofs of the
specification properties.

Modeling conventions, used consistently below:
* Timestamps are integers counting hours; a Python timedelta of `d` days is
  `24 * d` hours, `timedelta(hours=1)` is `1`.  The calendar origin is
  irrelevant to every property proved here, so `datetime(2800, 1, 1)` and
  `datetime(3000, 1, 1)` are modeled by fixed integer constants.
* Python floats are modeled as exact rationals; calls to `math.sqrt` are
  modeled by an explicit function parameter `sqrtQ : ℚ → ℚ`, since float
  square roots have no rational closed form.  Every theorem below is
  quantified over `sqrtQ`, so nothing proved depends on its values.
* Python dicts are modeled as insertion-ordered lists (Python dicts preserve
  insertion order); indexing a dict with an absent key (a KeyError in
  Python) is modeled by a default value, and is never exercised by the
  generation pipeline, which looks up only keys of `galaxy.systems`.
  Python sets are modeled as first-occurrence deduplicated lists.
* Draws from `random.Random(seed)` are modeled by streams of values indexed
  by a draw counter (the Mersenne twister is a deterministic function of the
  seed and the draw index); `uuid4()` is modeled by a separate stream that is
  not a function of the seed, matching its process-global entropy source.
* Python `while` loops are modeled by structurally recursive functions with
  an explicit fuel argument; every call site passes fuel that is provably
  larger than the number of iterations the Python loop performs, so the
  embedded function and the loop agree (this is proved where a theorem
  depends on it).
-/

namespace Spindle

/-! Fueled loop combinators for the `while` loops of the source. -/

/-- Python loop `while current < bound: current += step` (fueled). -/
def stepWhileLT (step bound : ℤ) : ℕ → ℤ → ℤ
  | 0, current => current
  | fuel + 1, current =>
    if current < bound then stepWhileLT step bound fuel (current + step) else current

/-- Python loop `while current <= bound: current += step` (fueled). -/
def stepWhileLE (step bound : ℤ) : ℕ → ℤ → ℤ
  | 0, current => current
  | fuel + 1, current =>
    if current ≤ bound then stepWhileLE step bound fuel (current + step) else current

/-- Python loop `for _ in range(count): out.append(current); current += step`. -/
def progList (step : ℤ) : ℕ → ℤ → List ℤ
  | 0, _ => []
  | count + 1, current => current :: progList step count (current + step)

/-- Python loop `while current <= stop: out.append(current); current += step` (fueled). -/
def collectWhileLE (step stop : ℤ) : ℕ → ℤ → List ℤ
  | 0, _ => []
  | fuel + 1, current =>
    if current ≤ stop then current :: collectWhileLE step stop fuel (current + step) else []

/-! Core data model, from core/models.py. -/

/-- RailClass (models.py): the four Krasnikov rail capacity tiers. -/
inductive RailClass
  | rfcA
  | rfcB
  | rfcC
  | rfcD
deriving DecidableEq, Inhabited

/-- Coordinate (models.py): 3D position in light-years. -/
structure Coordinate where
  x : ℚ
  y : ℚ
  z : ℚ
deriving DecidableEq, Inhabited

/-- Squared Euclidean distance; `Coordinate.distance_to` in the source is
`math.sqrt` of this, modeled as `sqrtQ (a.dist2 b)`. -/
def Coordinate.dist2 (a b : Coordinate) : ℚ :=
  (a.x - b.x) ^ 2 + (a.y - b.y) ^ 2 + (a.z - b.z) ^ 2

/-- Planet (models.py), restricted to the fields the embedded functions read:
`population` and the key set of `resources`. -/
structure Planet where
  population : ℕ
  resources : List String
deriving DecidableEq, Inhabited

/-- System (models.py), restricted to the fields the embedded functions read.
`tech_level` is the `.value` of the CivilizationTier enum (0–7). -/
structure System where
  id : String
  name : String
  coord : Coordinate
  population : ℕ
  tech_level : ℕ
  gravitium_deposits : ℚ
  planets : List Planet
deriving DecidableEq, Inhabited

/-- System.total_population (models.py): own population plus planet populations. -/
def System.total_population (s : System) : ℕ :=
  s.population + (s.planets.map Planet.population).sum

/-- Rail (models.py): directed scheduled edge.  Timestamps in hours,
`interval_days` in days as in the source. -/
structure Rail where
  id : String
  from_system : String
  to_system : String
  rail_class : RailClass
  length : ℚ
  construction_date : ℤ
  interval_days : ℕ
  next_fire : ℤ
  gravitium_cost : ℚ
  max_capacity : ℚ
deriving DecidableEq, Inhabited

/-- Rail.next_departures (models.py): `while from_time > current: current +=
interval`, then the next `count` progression points.  The fuel passed to the
fueled loop strictly exceeds the iteration count of the Python loop whenever
`interval_days > 0` (proved in `stepWhileLT_spec` below). -/
def Rail.next_departures (r : Rail) (from_time : ℤ) (count : ℕ := 10) : List ℤ :=
  let step : ℤ := 24 * r.interval_days
  let first := stepWhileLT step from_time ((from_time - r.next_fire).toNat + 1) r.next_fire
  progList step count first

/-- Schedule (models.py): departure list for one rail; transit_time is one hour. -/
structure Schedule where
  rail_id : String
  departures : List ℤ
  transit_time : ℤ
deriving DecidableEq, Inhabited

/-- Galaxy (models.py), restricted to the fields the embedded functions read.
The `systems` and `rails` dicts are modeled as their value lists in insertion
order; the source keys `systems` by `System.id` and `rails` by `Rail.id`. -/
structure Galaxy where
  systems : List System
  rails : List Rail
deriving DecidableEq, Inhabited

/-- Lookup `galaxy.systems[sid]` (first system with matching id). -/
def Galaxy.findSystem (g : Galaxy) (sid : String) : Option System :=
  g.systems.find? (fun s => s.id = sid)

/-- Dict indexing `galaxy.systems[sid]`; an absent key (KeyError in Python)
is modeled by the default System and never exercised by the pipeline. -/
def Galaxy.getSystem (g : Galaxy) (sid : String) : System :=
  (g.findSystem sid).getD default

/-! Cycle detection, from core/validators.py (detect_loops). -/

/-- Edge list of a rail list: the `(from_system, to_system)` pairs, in rail
order.  `detect_loops` reads no other rail field. -/
def railEdges (rails : List Rail) : List (String × String) :=
  rails.map (fun r => (r.from_system, r.to_system))

/-- Adjacency `graph[v]` built by `graph[rail.from_system].append(rail.to_system)`:
successors of `v` in edge order (empty for absent keys, as defaultdict gives). -/
def adjacency (edges : List (String × String)) (v : String) : List String :=
  (edges.filter (fun e => e.1 = v)).map (fun e => e.2)

/-- The node set `all_nodes` of detect_loops: every edge endpoint, as a
first-occurrence deduplicated list (a concrete iteration order for the
Python set). -/
def edgeNodes (edges : List (String × String)) : List String :=
  (edges.flatMap (fun e => [e.1, e.2])).eraseDups

/-- Mutable state of detect_loops: the `index` counter, the explicit `stack`
(top at the end, as Python append/pop), the `indices` and `lowlinks` dicts
(assoc lists; assignment prepends, lookup takes the newest binding), the
`on_stack` set and the accumulated `sccs`. -/
structure TarjanSt where
  index : ℕ
  stack : List String
  indices : List (String × ℕ)
  lowlinks : List (String × ℕ)
  on_stack : List String
  sccs : List (List String)
deriving DecidableEq, Inhabited

/-- Dict read `m[k]` for the indices/lowlinks dicts; the source only reads
keys previously assigned, so the default is never exercised. -/
def lookupD (m : List (String × ℕ)) (k : String) : ℕ :=
  (m.lookup k).getD 0

/-- The `while True` pop loop closing an SCC root `v`: pop the stack until
`v` appears, collecting the popped nodes in pop order.  Returns the collected
SCC and the remaining stack.  Structural recursion on the reversed stack
(whose head is the top). -/
def popUntil (v : String) : List String → List String × List String
  | [] => ([], [])
  | w :: rest =>
    if w = v then ([w], rest)
    else
      let (scc, remaining) := popUntil v rest
      (w :: scc, remaining)

/-- Close the root `v` of an SCC (the `if lowlinks[v] == indices[v]` block):
pop the stack down to `v`, drop the popped nodes from `on_stack`, and record
the component when it has more than one node. -/
def closeRoot (v : String) (st : TarjanSt) : TarjanSt :=
  let (scc, remainingRev) := popUntil v st.stack.reverse
  { st with
    stack := remainingRev.reverse
    on_stack := st.on_stack.filter (fun w => w ∉ scc)
    sccs := if 1 < scc.length then st.sccs ++ [scc] else st.sccs }

/-- Recursive `strongconnect` of detect_loops.  Fuel bounds the nesting depth
of recursive calls; each nested call is made on a node with no index that
immediately receives one, so the depth never exceeds the number of nodes and
the fuel passed by `detect_loops` is never exhausted. -/
def strongconnect (adj : String → List String) : ℕ → String → TarjanSt → TarjanSt
  | 0, _, st => st
  | fuel + 1, v, st0 =>
    let st1 : TarjanSt :=
      { st0 with
        indices := (v, st0.index) :: st0.indices
        lowlinks := (v, st0.index) :: st0.lowlinks
        index := st0.index + 1
        stack := st0.stack ++ [v]
        on_stack := v :: st0.on_stack }
    let st2 := (adj v).foldl
      (fun (st : TarjanSt) w =>
        if (st.indices.lookup w).isNone then
          let st' := strongconnect adj fuel w st
          { st' with
            lowlinks := (v, min (lookupD st'.lowlinks v) (lookupD st'.lowlinks w)) :: st'.lowlinks }
        else if w ∈ st.on_stack then
          { st with
            lowlinks := (v, min (lookupD st.lowlinks v) (lookupD st.indices w)) :: st.lowlinks }
        else st)
      st1
    if lookupD st2.lowlinks v = lookupD st2.indices v then closeRoot v st2 else st2

/-- The whole of detect_loops after the adjacency build: Tarjan's algorithm
run from every unvisited node of an edge list. -/
def detectLoopsEdges (edges : List (String × String)) : List (List String) :=
  let nodes := edgeNodes edges
  (nodes.foldl
    (fun (st : TarjanSt) v =>
      if (st.indices.lookup v).isNone then strongconnect (adjacency edges) (nodes.length + 1) v st
      else st)
    ⟨0, [], [], [], [], []⟩).sccs

/-- detect_loops (validators.py): every non-trivial (size ≥ 2) strongly
connected component of the directed graph of the rails, via Tarjan's
algorithm run from every unvisited node.  Only the `(from_system, to_system)`
pairs of the rails are read. -/
def detect_loops (rails : List Rail) : List (List String) :=
  detectLoopsEdges (railEdges rails)

/-! Network validation, from core/validators.py (validate_rail_network). -/

/-- One finding of validate_rail_network.  The source appends formatted
strings; each constructor carries exactly the data interpolated into the
corresponding message. -/
inductive Finding
  | cycles (loops : List (List String))
  | orphaned (ids : List String)
  | railFromUnknown (railId fromId : String)
  | railToUnknown (railId toId : String)
  | lengthMismatch (railId : String) (railLength dist : ℚ)
  | duplicateRail (fromId toId : String)
  | insufficientGravitium (need avail : ℚ)
deriving DecidableEq, Inhabited

/-- Ids of the systems dict (its key set, in insertion order). -/
def Galaxy.systemIds (g : Galaxy) : List String :=
  g.systems.map System.id

/-- Check 1 of validate_rail_network: one finding when detect_loops is
non-empty. -/
def cycleFindings (g : Galaxy) : List Finding :=
  let loops := detect_loops g.rails
  if loops.isEmpty then [] else [Finding.cycles loops]

/-- Check 2 of validate_rail_network: endpoints mentioned by rails that are
not keys of the systems dict (`rail_systems - set(galaxy.systems.keys())`). -/
def orphanFindings (g : Galaxy) : List Finding :=
  let railSystems := (g.rails.flatMap (fun r => [r.from_system, r.to_system])).eraseDups
  let orphaned := railSystems.filter (fun sid => sid ∉ g.systemIds)
  if orphaned.isEmpty then [] else [Finding.orphaned orphaned]

/-- Check 3 of validate_rail_network, per rail in rail order: unknown
endpoints, then the 1% length-tolerance check when both endpoints exist. -/
def connectionFindings (sqrtQ : ℚ → ℚ) (g : Galaxy) : List Finding :=
  g.rails.flatMap (fun r =>
    (if r.from_system ∉ g.systemIds then [Finding.railFromUnknown r.id r.from_system] else []) ++
    (if r.to_system ∉ g.systemIds then [Finding.railToUnknown r.id r.to_system] else []) ++
    (if r.from_system ∈ g.systemIds ∧ r.to_system ∈ g.systemIds then
      let actual := sqrtQ ((g.getSystem r.from_system).coord.dist2 (g.getSystem r.to_system).coord)
      if r.length * (1 / 100) < |actual - r.length| then
        [Finding.lengthMismatch r.id r.length actual]
      else []
    else []))

/-- Check 4 of validate_rail_network: duplicate (from, to) pairs, carrying
the already-seen connection set through the rail list. -/
def duplicateFindingsAux : List Rail → List (String × String) → List Finding
  | [], _ => []
  | r :: rest, seen =>
    let conn := (r.from_system, r.to_system)
    (if conn ∈ seen then [Finding.duplicateRail r.from_system r.to_system] else []) ++
      duplicateFindingsAux rest (conn :: seen)

/-- Check 4 of validate_rail_network, from an empty seen-set. -/
def duplicateFindings (g : Galaxy) : List Finding :=
  duplicateFindingsAux g.rails []

/-- Total gravitium cost of all rails. -/
def totalGravitiumCost (g : Galaxy) : ℚ :=
  (g.rails.map Rail.gravitium_cost).sum

/-- Total gravitium deposits of all systems. -/
def totalGravitiumAvailable (g : Galaxy) : ℚ :=
  (g.systems.map System.gravitium_deposits).sum

/-- Check 5 of validate_rail_network: the global economic budget. -/
def economicFindings (g : Galaxy) : List Finding :=
  if totalGravitiumAvailable g < totalGravitiumCost g then
    [Finding.insufficientGravitium (totalGravitiumCost g) (totalGravitiumAvailable g)]
  else []

/-- validate_rail_network (validators.py): run all five checks in source
order, appending their findings, and return `(len(errors) == 0, errors)`.
The input galaxy is only read, never written (the embedding is a pure
function of `g`). -/
def validate_rail_network (sqrtQ : ℚ → ℚ) (g : Galaxy) : Bool × List Finding :=
  let errors :=
    cycleFindings g ++ orphanFindings g ++ connectionFindings sqrtQ g ++
      duplicateFindings g ++ economicFindings g
  (errors.isEmpty, errors)

/-! Shortest route search, from core/models.py (Galaxy.get_route). -/

/-- The scan `for rail in self.rails.values(): if rail.from_system == current`
inside get_route, for one dequeued node: on the first rail whose target is
the destination, return the finished route; otherwise mark-and-collect
unvisited targets in rail order.  Returns the found route (if any), the
updated visited set, and the queue entries to append. -/
def scanRails (cur target : String) (path : List String) :
    List Rail → List String → List (String × List String) →
    Option (List String) × List String × List (String × List String)
  | [], visited, adds => (none, visited, adds)
  | r :: rest, visited, adds =>
    if r.from_system = cur then
      let nxt := r.to_system
      if nxt = target then (some (path ++ [nxt]), visited, adds)
      else if nxt ∈ visited then scanRails cur target path rest visited adds
      else scanRails cur target path rest (nxt :: visited) (adds ++ [(nxt, path ++ [nxt])])
    else scanRails cur target path rest visited adds

/-- The `while queue` loop of get_route (fueled): pop the queue head, scan
the rails, and either return the found route, or continue with the updated
visited set and the new entries appended.  `some none` is the loop falling
through (`return None`), the outer `none` is fuel exhaustion, which the fuel
chosen by `Galaxy.get_route` never reaches (proved in `bfsLoop_no_fuel_out`). -/
def bfsLoop (rails : List Rail) (target : String) :
    ℕ → List String → List (String × List String) → Option (Option (List String))
  | 0, _, _ => none
  | _ + 1, _, [] => some none
  | fuel + 1, visited, (cur, path) :: rest =>
    match scanRails cur target path rails visited [] with
    | (some route, _, _) => some (some route)
    | (none, visited', adds) => bfsLoop rails target fuel visited' (rest ++ adds)

/-- Galaxy.get_route (models.py): breadth-first search for a route.  Returns
`[from_system]` when source and destination coincide, otherwise runs the BFS
loop seeded with the source. -/
def Galaxy.get_route (g : Galaxy) (from_system to_system : String) : Option (List String) :=
  if from_system = to_system then some [from_system]
  else
    match bfsLoop g.rails to_system (g.rails.length + 2) [from_system] [(from_system, [from_system])] with
    | some result => result
    | none => none

/-! Model utilities from core/models.py used by the generators. -/

/-- calculate_gravitium_cost (models.py): class base cost times distance squared. -/
def calculate_gravitium_cost (distance : ℚ) (rc : RailClass) : ℚ :=
  let base : ℚ :=
    match rc with
    | .rfcA => 1000
    | .rfcB => 500
    | .rfcC => 100
    | .rfcD => 50
  base * distance ^ 2

/-- rail_class_from_capacity (models.py): quantize annual capacity into the
four thresholds. -/
def rail_class_from_capacity (capacity_per_year : ℚ) : RailClass :=
  if 1000000 ≤ capacity_per_year then .rfcA
  else if 600000 ≤ capacity_per_year then .rfcB
  else if 1800 ≤ capacity_per_year then .rfcC
  else .rfcD

/-- Truncation toward zero, as Python `int()` applied to a float. -/
def truncQ (q : ℚ) : ℤ :=
  q.num.tdiv q.den

/-! Rail network generation, from generators/railgen.py (class RailGenerator). -/

/-- Entropy sources of the generator.  `ints` and `rand` model the draws of
`self.rng = random.Random(seed)`, a deterministic function of the seed and
the draw counter; `uuid` models the process-global `uuid4()` stream used by
`generate_rail_id` (models.py), which is not derived from the seed. -/
structure Streams where
  ints : ℕ → ℕ
  rand : ℕ → ℚ
  uuid : ℕ → String

/-- One `self.rng.randint(a, b)` draw (inclusive bounds): a value in
`[a, b]` read off the integer stream at the current counter. -/
def randint (s : Streams) (a b : ℕ) (k : ℕ) : ℕ × ℕ :=
  (a + s.ints k % (b + 1 - a), k + 1)

/-- generate_rail_id (models.py): `RAIL-` plus eight hex digits of `uuid4()`,
read off the uuid stream. -/
def generate_rail_id (s : Streams) (uk : ℕ) : String :=
  "RAIL-" ++ s.uuid uk

/-- Resource key set of a system: union of planet resource keys (a Python
set, modeled as a first-occurrence deduplicated list; only membership and
difference counts are consumed). -/
def System.resourceKeys (sys : System) : List String :=
  (sys.planets.flatMap Planet.resources).eraseDups

/-- estimate_rail_capacity (railgen.py): geometric-mean trade volume with
resource-dissimilarity and tech-difference bonuses, floored at 100 t/year. -/
def estimate_rail_capacity (sqrtQ : ℚ → ℚ) (fromS toS : System) : ℚ :=
  let trade0 : ℚ := sqrtQ ((fromS.total_population * toS.total_population : ℕ)) / 1000
  let fromR := fromS.resourceKeys
  let toR := toS.resourceKeys
  let unique_resources : ℕ :=
    (fromR.filter (fun x => x ∉ toR)).length + (toR.filter (fun x => x ∉ fromR)).length
  let trade1 := trade0 * (1 + unique_resources * (1 / 10))
  let tech_diff : ℕ := max fromS.tech_level toS.tech_level - min fromS.tech_level toS.tech_level
  let trade2 := trade1 * (1 + tech_diff * (1 / 5))
  max 100 trade2

/-- calculate_rail_cost (railgen.py): gravitium base cost with tech-level and
population modifiers. -/
def calculate_rail_cost (sqrtQ : ℚ → ℚ) (fromS toS : System) (rc : RailClass) : ℚ :=
  let distance := sqrtQ (fromS.coord.dist2 toS.coord)
  let base_cost := calculate_gravitium_cost distance rc
  let tech_modifier : ℚ :=
    (if fromS.tech_level < 5 then 2 else 1) * (if toS.tech_level < 5 then 2 else 1)
  let pop_modifier : ℚ :=
    (if fromS.total_population < 10000 then 3 / 2 else 1) *
      (if toS.total_population < 10000 then 3 / 2 else 1)
  base_cost * tech_modifier * pop_modifier

/-- find_source_vein_systems (railgen.py): insert `x` into a list already
sorted by descending deposits, after every element with key ≥ its own (the
stable order CPython list.sort with reverse=True produces). -/
def insertByDepositsDesc (key : String → ℚ) (x : String) : List String → List String
  | [] => [x]
  | y :: ys => if key y < key x then x :: y :: ys else y :: insertByDepositsDesc key x ys

/-- find_source_vein_systems (railgen.py): systems with deposits at or above
the threshold, sorted by descending deposits (stable). -/
def find_source_vein_systems (g : Galaxy) (min_gravitium : ℚ := 1000) : List String :=
  let candidates := (g.systems.filter (fun sys => min_gravitium ≤ sys.gravitium_deposits)).map System.id
  candidates.foldr (insertByDepositsDesc (fun sid => (g.getSystem sid).gravitium_deposits)) []

/-- The inner double scan of build_minimum_spanning_tree: the cheapest
tree-to-outside edge, scanning tree nodes then all systems in order and
keeping the first strictly-cheapest candidate (`best_cost` starts at
`float('inf')`, modeled by `none`). -/
def bestEdgeScan (sqrtQ : ℚ → ℚ) (g : Galaxy) (in_tree all_systems : List String) :
    Option (String × String × ℚ) :=
  in_tree.foldl
    (fun best from_id =>
      all_systems.foldl
        (fun (best : Option (String × String × ℚ)) to_id =>
          if to_id ∈ in_tree then best
          else
            let fromS := g.getSystem from_id
            let toS := g.getSystem to_id
            let capacity := estimate_rail_capacity sqrtQ fromS toS
            let rc := rail_class_from_capacity capacity
            let cost := calculate_rail_cost sqrtQ fromS toS rc
            match best with
            | none => some (from_id, to_id, cost)
            | some (_, _, bc) => if cost < bc then some (from_id, to_id, cost) else best)
        best)
    none

/-- The `while len(in_tree) < len(all_systems)` loop of
build_minimum_spanning_tree (fueled; each productive iteration grows the
tree by one node, so fuel `all_systems.length + 1` is never exhausted). -/
def mstLoop (sqrtQ : ℚ → ℚ) (g : Galaxy) (all_systems : List String) :
    ℕ → List String → List (String × String × ℚ) → List (String × String × ℚ)
  | 0, _, edges => edges
  | fuel + 1, in_tree, edges =>
    if in_tree.length < all_systems.length then
      match bestEdgeScan sqrtQ g in_tree all_systems with
      | some (f, t, c) => mstLoop sqrtQ g all_systems fuel (in_tree ++ [t]) (edges ++ [(f, t, c)])
      | none => edges
    else edges

/-- build_minimum_spanning_tree (railgen.py): cost-weighted growth from the
source systems. -/
def build_minimum_spanning_tree (sqrtQ : ℚ → ℚ) (g : Galaxy) (source_systems : List String) :
    List (String × String × ℚ) :=
  if source_systems.isEmpty then []
  else mstLoop sqrtQ g g.systemIds (g.systems.length + 1) source_systems []

/-- First element of minimal second component, scanning left to right with a
strict comparison: exactly the head of the stable `nearby_systems.sort(key=
distance)` of add_redundancy_connections, which is all the source consumes. -/
def minByDistance (l : List (String × ℚ)) : Option (String × ℚ) :=
  l.foldl
    (fun (best : Option (String × ℚ)) x =>
      match best with
      | none => some x
      | some b => if x.2 < b.2 then some x else best)
    none

/-- add_redundancy_connections (railgen.py): systems with exactly one MST
connection get, with seeded probability `redundancy_factor`, one extra edge
to the nearest not-yet-linked neighbor within 50 light-years. -/
def add_redundancy_connections (sqrtQ : ℚ → ℚ) (s : Streams) (g : Galaxy)
    (mst_edges : List (String × String × ℚ)) (redundancy_factor : ℚ) (rk : ℕ) :
    List (String × String × ℚ) × ℕ :=
  let endpointSeq := mst_edges.flatMap (fun e => [e.1, e.2.1])
  let bottlenecks := endpointSeq.eraseDups.filter (fun sid => endpointSeq.count sid = 1)
  bottlenecks.foldl
    (fun (acc : List (String × String × ℚ) × ℕ) bottleneck_id =>
      let (edges, k) := acc
      let draw := s.rand k
      if draw < redundancy_factor then
        let bottleneck := g.getSystem bottleneck_id
        let nearby := (g.systems.filterMap (fun other =>
          if other.id ≠ bottleneck_id then
            let distance := sqrtQ (bottleneck.coord.dist2 other.coord)
            if distance < 50 then
              if mst_edges.any (fun e =>
                  (bottleneck_id = e.1 ∧ other.id = e.2.1) ∨
                    (bottleneck_id = e.2.1 ∧ other.id = e.1)) then
                none
              else some (other.id, distance)
            else none
          else none))
        match minByDistance nearby with
        | none => (edges, k + 1)
        | some (target_id, _) =>
          let target := g.getSystem target_id
          let capacity := estimate_rail_capacity sqrtQ bottleneck target
          let rc := rail_class_from_capacity capacity
          let cost := calculate_rail_cost sqrtQ bottleneck target rc
          (edges ++ [(bottleneck_id, target_id, cost)], k + 1)
      else (edges, k + 1))
    ([], rk)

/-- create_rail (railgen.py).  The `interval_map` dict literal evaluates all
four randint calls in source order before the rail class selects one; the
draw counter advances by five (four intervals plus the next-fire offset) and
the uuid counter by one.  Returns the rail and the two advanced counters. -/
def create_rail (sqrtQ : ℚ → ℚ) (s : Streams) (g : Galaxy)
    (from_system_id to_system_id : String) (construction_date : ℤ) (rk uk : ℕ) :
    Rail × ℕ × ℕ :=
  let fromS := g.getSystem from_system_id
  let toS := g.getSystem to_system_id
  let distance := sqrtQ (fromS.coord.dist2 toS.coord)
  let capacity := estimate_rail_capacity sqrtQ fromS toS
  let rc := rail_class_from_capacity capacity
  let gravitium_cost := calculate_gravitium_cost distance rc
  let iA := (randint s 1 7 rk).1
  let rk1 := (randint s 1 7 rk).2
  let iB := (randint s 7 30 rk1).1
  let rk2 := (randint s 7 30 rk1).2
  let iC := (randint s 30 180 rk2).1
  let rk3 := (randint s 30 180 rk2).2
  let iD := (randint s 180 365 rk3).1
  let rk4 := (randint s 180 365 rk3).2
  let interval_days : ℕ :=
    match rc with
    | .rfcA => iA
    | .rfcB => iB
    | .rfcC => iC
    | .rfcD => iD
  let annual_capacity : ℚ :=
    match rc with
    | .rfcA => 1000000
    | .rfcB => 600000
    | .rfcC => 1800
    | .rfcD => 365 / 2
  let max_capacity := annual_capacity / ((1461 / 4) / (interval_days : ℚ))
  let offset := (randint s 1 interval_days rk4).1
  let rk5 := (randint s 1 interval_days rk4).2
  let next_fire := construction_date + 24 * (offset : ℤ)
  (⟨generate_rail_id s uk, from_system_id, to_system_id, rc, distance,
      construction_date, interval_days, next_fire, gravitium_cost, max_capacity⟩,
    rk5, uk + 1)

/-- validate_no_cycles (railgen.py): detect_loops finds nothing. -/
def validate_no_cycles (rails : List Rail) : Bool :=
  (detect_loops rails).isEmpty

/-- Mutable state of the rail-creation loop of generate_rail_network: the
rails dict (as its value list in insertion order; keys are the fresh uuid
ids), the advancing construction date, and the two draw counters. -/
structure GenSt where
  rails : List Rail
  construction_date : ℤ
  rk : ℕ
  uk : ℕ

/-- The `for from_id, to_id, cost in all_edges` acceptance loop of
generate_rail_network: instantiate each candidate edge into a rail, accept it
only when validate_no_cycles holds of the accepted rails plus the candidate,
and advance the construction calendar by `max(1, int(length / 10))` years of
365.25 days (= 8766 hours each); rejected candidates are dropped. -/
def acceptEdges (sqrtQ : ℚ → ℚ) (s : Streams) (g : Galaxy) :
    List (String × String × ℚ) → GenSt → GenSt
  | [], st => st
  | (from_id, to_id, _) :: rest, st =>
    let cr := create_rail sqrtQ s g from_id to_id st.construction_date st.rk st.uk
    if validate_no_cycles (st.rails ++ [cr.1]) then
      let construction_years : ℤ := max 1 (truncQ (cr.1.length / 10))
      acceptEdges sqrtQ s g rest
        ⟨st.rails ++ [cr.1], st.construction_date + construction_years * 8766, cr.2.1, cr.2.2⟩
    else
      acceptEdges sqrtQ s g rest { st with rk := cr.2.1, uk := cr.2.2 }

/-- generate_rail_network (railgen.py): source veins, spanning construction,
redundancy augmentation, then the cycle-gated acceptance loop.  The
`max_systems` truncation applies only when the argument is truthy (Python:
`if max_systems and len(source_systems) > max_systems`). -/
def generate_rail_network (sqrtQ : ℚ → ℚ) (s : Streams) (g : Galaxy)
    (construction_start : ℤ) (max_systems : Option ℕ) : List Rail :=
  let source_systems := find_source_vein_systems g 1000
  if source_systems.isEmpty then []
  else
    let source_systems :=
      match max_systems with
      | some m => if 0 < m ∧ m < source_systems.length then source_systems.take m else source_systems
      | none => source_systems
    let mst_edges := build_minimum_spanning_tree sqrtQ g source_systems
    let redundancy := add_redundancy_connections sqrtQ s g mst_edges (1 / 10) 0
    (acceptEdges sqrtQ s g (mst_edges ++ redundancy.1) ⟨[], construction_start, redundancy.2, 0⟩).rails

/-- The synthetic base epoch `datetime(3000, 1, 1)` of optimize_rail_schedules,
in hours from `datetime(2800, 1, 1)` = 0 (73049 days; the exact calendar
value is irrelevant to every property proved below). -/
def epoch3000 : ℤ :=
  24 * 73049

/-- Append a rail to its origin group (`system_rails` dict building of the
schedule optimizers): groups appear in first-occurrence origin order, rails
within a group in encounter order. -/
def addToGroups (groups : List (String × List Rail)) (r : Rail) : List (String × List Rail) :=
  match groups with
  | [] => [(r.from_system, [r])]
  | (sid, rs) :: rest =>
    if sid = r.from_system then (sid, rs ++ [r]) :: rest else (sid, rs) :: addToGroups rest r

/-- Group rails by origin system, as the `system_rails` dicts of
optimize_rail_schedules and optimize_departure_times. -/
def groupByOrigin (rails : List Rail) : List (String × List Rail) :=
  rails.foldl addToGroups []

/-- Insert a rail into a list already sorted by ascending interval, after
every element with interval ≤ its own (the stable order of
`rails.sort(key=lambda r: r.interval_days)`). -/
def insertByInterval (x : Rail) : List Rail → List Rail
  | [] => [x]
  | y :: ys => if x.interval_days < y.interval_days then x :: y :: ys else y :: insertByInterval x ys

/-- Stable ascending sort by firing interval. -/
def sortByInterval (rs : List Rail) : List Rail :=
  rs.foldr insertByInterval []

/-- The multi-rail branch of optimize_rail_schedules: sort the group by
interval and give the i-th rail the next-fire
`base + (interval_i * i) // n` days from the synthetic epoch. -/
def offsetGroup (rs : List Rail) : List Rail :=
  let n := rs.length
  (sortByInterval rs).enum.map
    (fun p => { p.2 with next_fire := epoch3000 + 24 * ((p.2.interval_days * p.1) / n : ℕ) })

/-- optimize_rail_schedules (railgen.py): per-origin redistribution of
next-fire times; groups of at most one rail pass through unchanged.  Output
in the insertion order of the `optimized_rails` dict. -/
def optimize_rail_schedules (g : Galaxy) : List Rail :=
  (groupByOrigin g.rails).flatMap (fun p => if p.2.length ≤ 1 then p.2 else offsetGroup p.2)

/-! Schedule and route computation, from generators/schedgen.py
(class ScheduleGenerator). -/

/-- generate_rail_schedule (schedgen.py): starting from `start_date`, advance
by the interval while strictly before `next_fire`, then collect departures
while at or before `start_date + duration_days`.  Note the first loop steps
the *window start* forward, so the produced departures lie on the progression
anchored at `start_date`, not at `next_fire` (see claim C4). -/
def generate_rail_schedule (r : Rail) (start_date : ℤ) (duration_days : ℕ := 365) : Schedule :=
  let step : ℤ := 24 * r.interval_days
  let first := stepWhileLT step r.next_fire ((r.next_fire - start_date).toNat + 1) start_date
  let stop := start_date + 24 * (duration_days : ℤ)
  { rail_id := r.id
    departures := collectWhileLE step stop (duration_days + 2) first
    transit_time := 1 }

/-- get_next_departures (schedgen.py): advance from `next_fire` while at or
before `after_date` (so the first departure is strictly after it), then list
the next `count` progression points. -/
def get_next_departures (r : Rail) (after_date : ℤ) (count : ℕ := 10) : List ℤ :=
  let step : ℤ := 24 * r.interval_days
  let first := stepWhileLE step after_date ((after_date - r.next_fire).toNat + 1) r.next_fire
  progList step count first

/-- The `for r in galaxy.rails.values()` search for a rail between two
systems (first match in insertion order). -/
def findRail (g : Galaxy) (a b : String) : Option Rail :=
  g.rails.find? (fun r => r.from_system = a ∧ r.to_system = b)

/-- The per-segment loop of find_route_schedule: for each consecutive pair of
the route, find the rail, take its next departure strictly after the cursor,
and advance the cursor by the departure plus one hour of transit; a missing
rail (or an empty departure list, which `get_next_departures` never returns)
fails the whole walk.  Returns the segments and the final cursor. -/
def walkSegments (g : Galaxy) : List (String × String) → ℤ → Option (List (String × ℤ) × ℤ)
  | [], t => some ([], t)
  | (a, b) :: rest, t =>
    match findRail g a b with
    | none => none
    | some rail =>
      match get_next_departures rail t 1 with
      | [] => none
      | d :: _ =>
        match walkSegments g rest (d + 1) with
        | none => none
        | some (segs, tf) => some ((a, d) :: segs, tf)

/-- find_route_schedule (schedgen.py): route the hop path, then walk it
edge by edge, appending the destination with the final cursor; any failure
yields None rather than a partial list. -/
def find_route_schedule (g : Galaxy) (from_system to_system : String)
    (departure_after : ℤ) : Option (List (String × ℤ)) :=
  match g.get_route from_system to_system with
  | none => none
  | some route =>
    if route.length = 1 then some [(from_system, departure_after)]
    else
      match walkSegments g (route.zip route.tail) departure_after with
      | none => none
      | some (segs, tf) => some (segs ++ [(to_system, tf)])

/-- The cumulative-offset branch of optimize_departure_times: each rail of
the sorted group gets `base + offset` and the offset then grows by
`max(1, interval // n)` days. -/
def spaceGroup (base : ℤ) (n : ℕ) : List Rail → ℕ → List Rail
  | [], _ => []
  | r :: rest, off =>
    { r with next_fire := base + 24 * (off : ℤ) } ::
      spaceGroup base n rest (off + max 1 (r.interval_days / n))

/-- optimize_departure_times (schedgen.py): per-origin redistribution of
next-fire times from a caller-supplied base date, in ascending-interval
order with cumulative `max(1, interval // n)`-day spacing. -/
def optimize_departure_times (g : Galaxy) (base_date : ℤ) : List Rail :=
  (groupByOrigin g.rails).flatMap
    (fun p => if p.2.length ≤ 1 then p.2 else spaceGroup base_date p.2.length (sortByInterval p.2) 0)

/-- One iteration of the minimizing scan of find_optimal_departure_time:
departures past the window end are skipped, and a departure strictly closer
to the preferred time replaces the best seen (`best_diff` starts at
`float('inf')`, modeled by `none`). -/
def bestDepartureStep (preferred end_search : ℤ) (best : Option (ℤ × ℤ)) (d : ℤ) :
    Option (ℤ × ℤ) :=
  if d ≤ end_search then
    match best with
    | none => some (d, |d - preferred|)
    | some (_, bdiff) => if |d - preferred| < bdiff then some (d, |d - preferred|) else best
  else best

/-- The minimizing scan of find_optimal_departure_time over the candidate
departures, returning the best departure found. -/
def bestDeparture (preferred end_search : ℤ) (deps : List ℤ) : Option ℤ :=
  (deps.foldl (bestDepartureStep preferred end_search) none).map Prod.fst

/-- find_optimal_departure_time (schedgen.py): route the pair, find the first
rail of the route, and scan its next 20 departures after the window start for
the one closest to the preferred time, within the window end. -/
def find_optimal_departure_time (g : Galaxy) (from_system to_system : String)
    (preferred_time : ℤ) (flexibility_days : ℕ := 7) : Option ℤ :=
  match g.get_route from_system to_system with
  | none => none
  | some route =>
    match route with
    | a :: b :: _ =>
      match findRail g a b with
      | none => none
      | some first_rail =>
        let start_search := preferred_time - 24 * (flexibility_days : ℤ)
        let end_search := preferred_time + 24 * (flexibility_days : ℤ)
        bestDeparture preferred_time end_search (get_next_departures first_rail start_search 20)
    | _ => none

/-! Concrete instances used by witnesses and counterexamples. -/

/-- A three-system galaxy used to exercise the acceptance loop on the
proposed edges X→Y, Y→Z, Z→X. -/
def galaxyXYZ : Galaxy :=
  { systems :=
      [⟨"X", "X", ⟨0, 0, 0⟩, 0, 5, 2000, []⟩,
       ⟨"Y", "Y", ⟨1, 0, 0⟩, 0, 5, 2000, []⟩,
       ⟨"Z", "Z", ⟨0, 1, 0⟩, 0, 5, 2000, []⟩]
    rails := [] }

/-- Fixed entropy streams for concrete runs. -/
def streams0 : Streams :=
  { ints := fun _ => 0, rand := fun _ => 0, uuid := fun k => toString k }


/-- All fields of a rail except next_fire, for frame statements. -/
def Rail.stableFields (r : Rail) :
    String × String × String × RailClass × ℚ × ℤ × ℕ × ℚ × ℚ :=
  (r.id, r.from_system, r.to_system, r.rail_class, r.length,
    r.construction_date, r.interval_days, r.gravitium_cost, r.max_capacity)

/-- Offset (in days) the cumulative spacing loop of optimize_departure_times
has accumulated before reaching position `i` of the sorted group. -/
def cumulativeOffset (n : ℕ) (rs : List Rail) (i : ℕ) : ℕ :=
  ((rs.take i).map (fun r => max 1 (r.interval_days / n))).sum

/-- Two rails sharing origin A, with intervals 10 and 4 days, for the
schedule-optimizer witness. -/
def railI10 : Rail := ⟨"r10", "A", "C", .rfcD, 0, 0, 10, 0, 0, 0⟩

/-- Second rail of the optimizer witness galaxy. -/
def railI4 : Rail := ⟨"r4", "A", "B", .rfcD, 0, 0, 4, 0, 0, 0⟩

/-- Galaxy whose two rails share the origin system A. -/
def galaxyOpt : Galaxy := { systems := [], rails := [railI10, railI4] }


/-- All fields of a rail except its id: everything reproducible from the
seed stream alone. -/
def Rail.seedFields (r : Rail) :
    String × String × RailClass × ℚ × ℤ × ℕ × ℤ × ℚ × ℚ :=
  (r.from_system, r.to_system, r.rail_class, r.length,
    r.construction_date, r.interval_days, r.next_fire, r.gravitium_cost, r.max_capacity)


/-- Two-system galaxy (one source vein) for the determinism counterexample. -/
def galaxyAB : Galaxy :=
  { systems :=
      [⟨"A", "A", ⟨0, 0, 0⟩, 0, 5, 2000, []⟩,
       ⟨"B", "B", ⟨0, 0, 0⟩, 0, 5, 0, []⟩]
    rails := [] }

/-- Streams with uuid stream `a`, seeded draws equal to those of `streamsB`. -/
def streamsA : Streams := ⟨fun _ => 0, fun _ => 1, fun _ => "a"⟩

/-- Streams with uuid stream `b`, seeded draws equal to those of `streamsA`. -/
def streamsB : Streams := ⟨fun _ => 0, fun _ => 1, fun _ => "b"⟩


/-- A galaxy whose single rail costs more gravitium than all deposits. -/
def galaxyEcon : Galaxy :=
  { systems := [⟨"A", "A", ⟨0, 0, 0⟩, 0, 5, 5, []⟩]
    rails := [⟨"R1", "A", "A", .rfcD, 0, 0, 1, 0, 10, 0⟩] }


/-- The rail of the schedule-advancement example: next_fire = day 10,
interval = 5 days (times in hours). -/
def railC4 : Rail :=
  ⟨"R4", "A", "B", .rfcD, 0, 0, 5, 24 * 10, 0, 0⟩

/-- A timestamp on the firing progression of a rail. -/
def isFiring (r : Rail) (t : ℤ) : Prop :=
  ∃ k : ℕ, t = r.next_fire + 24 * r.interval_days * k

/-- The earliest firing of `r` strictly after `t`. -/
def IsEarliestFiringAfter (r : Rail) (t d : ℤ) : Prop :=
  isFiring r d ∧ t < d ∧ ∀ e, isFiring r e → t < e → d ≤ e

/-- The walk of find_route_schedule as the spec describes it: at each edge
the earliest firing strictly after the cursor, the cursor then advancing to
that firing plus the one-hour transit. -/
inductive TimedWalk (g : Galaxy) : List (String × String) → ℤ → List (String × ℤ) → ℤ → Prop
  | nil (t : ℤ) : TimedWalk g [] t [] t
  | cons (a b : String) (rest : List (String × String)) (t d : ℤ)
      (segs : List (String × ℤ)) (tf : ℤ) (r : Rail)
      (hr : findRail g a b = some r)
      (hd : IsEarliestFiringAfter r t d)
      (htail : TimedWalk g rest (d + 1) segs tf) :
      TimedWalk g ((a, b) :: rest) t ((a, d) :: segs) tf

/-- A rail firing every day from day 0, for the departure-window
counterexample. -/
def railC9 : Rail := ⟨"R9", "A", "B", .rfcD, 0, 0, 1, 0, 0, 0⟩

/-- Galaxy containing only railC9. -/
def galaxyC9 : Galaxy := { systems := [], rails := [railC9] }

/-- A rail A→B firing every 5 days with next_fire at hour 0, for the
at-or-after counterexample. -/
def railC5 : Rail := ⟨"R5", "A", "B", .rfcD, 0, 0, 5, 0, 0, 0⟩

/-- Galaxy containing only railC5. -/
def galaxyC5 : Galaxy := { systems := [], rails := [railC5] }

/-- A directed rail edge between two systems exists. -/
def hasEdge (g : Galaxy) (u v : String) : Prop :=
  ∃ r ∈ g.rails, r.from_system = u ∧ r.to_system = v

/-- A hop path from `a` to `b` over the rail graph: nonempty, starting at
`a`, ending at `b`, with consecutive nodes joined by rails. -/
def ValidRoute (g : Galaxy) (a : String) (p : List String) (b : String) : Prop :=
  p.head? = some a ∧ p.getLast? = some b ∧ List.Chain' (hasEdge g) p

/-- Loop invariant of the BFS of Galaxy.get_route, for source `a` and
destination `b`. -/
structure BfsInv (g : Galaxy) (a b : String) (visited : List String)
    (queue : List (String × List String)) : Prop where
  start_mem : a ∈ visited
  target_notin : b ∉ visited
  queue_vis : ∀ e ∈ queue, e.1 ∈ visited
  path_valid : ∀ e ∈ queue, ValidRoute g a e.2 e.1
  path_min : ∀ e ∈ queue, ∀ q, ValidRoute g a q e.1 → e.2.length ≤ q.length
  len_pairwise : queue.Pairwise (fun e f => e.2.length ≤ f.2.length)
  head_bound : ∀ h tl, queue = h :: tl → ∀ e ∈ queue, e.2.length ≤ h.2.length + 1
  closed : ∀ v ∈ visited, (∀ e ∈ queue, e.1 ≠ v) →
    ∀ r ∈ g.rails, r.from_system = v → r.to_system ≠ b ∧ r.to_system ∈ visited

/-- Termination potential of the BFS loop: queue length plus the number of
rail targets not yet visited.  Each non-final iteration decreases it by one. -/
def bfsPhi (rails : List Rail) (visited : List String)
    (queue : List (String × List String)) : ℕ :=
  queue.length + ((rails.map Rail.to_system).toFinset \ visited.toFinset).card

/-- One directed edge of an edge list. -/
def EdgeIn (edges : List (String × String)) (u w : String) : Prop :=
  (u, w) ∈ edges

/-- Reachability along the edges: reflexive-transitive closure of `EdgeIn`. -/
def ReachIn (edges : List (String × String)) : String → String → Prop :=
  Relation.ReflTransGen (EdgeIn edges)

/-- Mutual reachability (same strongly connected component). -/
def MutReach (edges : List (String × String)) (u w : String) : Prop :=
  ReachIn edges u w ∧ ReachIn edges w u

/-- A node already carries a Tarjan index. -/
def TarjanSt.indexed (st : TarjanSt) (v : String) : Prop :=
  (st.indices.lookup v).isSome

/-- The index of a node (0 for unindexed nodes, never read there). -/
def TarjanSt.idxOf (st : TarjanSt) (v : String) : ℕ :=
  lookupD st.indices v

/-- The current lowlink of a node. -/
def TarjanSt.lowOf (st : TarjanSt) (v : String) : ℕ :=
  lookupD st.lowlinks v

/-- Global invariant of the Tarjan state of detect_loops, relative to the
edge list: well-formed dictionaries, the stack sorted by discovery index and
chained by reachability, lowlink lower-bound witnesses, closedness of
finished nodes, and soundness of the components collected so far. -/
structure TarjanInv (edges : List (String × String)) (st : TarjanSt) : Prop where
  keys_nodup : (st.indices.map Prod.fst).Nodup
  dom_nodes : ∀ v, st.indexed v → v ∈ edgeNodes edges
  low_cover : ∀ v, st.indexed v → (st.lowlinks.lookup v).isSome
  stack_dom : ∀ v ∈ st.stack, st.indexed v
  stack_nodup : st.stack.Nodup
  onstack_iff : ∀ v, v ∈ st.on_stack ↔ v ∈ st.stack
  idx_lt_index : ∀ v, st.indexed v → st.idxOf v < st.index
  index_count : st.index = st.indices.length
  idx_inj : ∀ u v, st.indexed u → st.indexed v → st.idxOf u = st.idxOf v → u = v
  stack_sorted : st.stack.Pairwise (fun a b => st.idxOf a < st.idxOf b)
  stack_reach : st.stack.Pairwise (ReachIn edges)
  low_le : ∀ v ∈ st.stack, st.lowOf v ≤ st.idxOf v
  low_witness : ∀ v ∈ st.stack, ∃ w ∈ st.stack, st.idxOf w = st.lowOf v ∧ ReachIn edges v w
  completed_closed : ∀ u, st.indexed u → u ∉ st.stack → ∀ w, EdgeIn edges u w →
    st.indexed w ∧ w ∉ st.stack
  sccs_elems : ∀ C ∈ st.sccs, C.Nodup ∧ 2 ≤ C.length ∧ ∀ x ∈ C, st.indexed x ∧ x ∉ st.stack
  sccs_classes : ∀ C ∈ st.sccs, ∀ x ∈ C, ∀ y, (y ∈ C ↔ MutReach edges x y)
  completed_covered : ∀ u, st.indexed u → u ∉ st.stack →
    (∃ C ∈ st.sccs, u ∈ C) ∨ ∀ y, MutReach edges u y → y = u
  sccs_disjoint : st.sccs.Pairwise (fun C D => ∀ x ∈ C, x ∉ D)

/-- Postcondition of one completed `strongconnect` call on `v`, from entry
state `st` to result `st'`: the invariant is restored, old dictionary entries
survive, `v` got index `st.index`, and the stack either returned to its entry
value (`v`'s component was closed) or grew by `v` and nodes whose edges
cannot escape below `v` except through `v`'s lowlink. -/
structure SCPost (edges : List (String × String)) (v : String) (st st' : TarjanSt) : Prop where
  inv : TarjanInv edges st'
  idx_pres : ∀ u, st.indexed u → st'.indices.lookup u = st.indices.lookup u
  low_pres : ∀ u, st.indexed u → st'.lowlinks.lookup u = st.lowlinks.lookup u
  v_idx : st'.indices.lookup v = some st.index
  index_gt : st.index < st'.index
  sccs_grew : ∃ new, st'.sccs = st.sccs ++ new
  idx_new_ge : ∀ u, st'.indexed u → ¬ st.indexed u → st.index ≤ st'.idxOf u
  stack_cases :
    (st'.stack = st.stack ∧ v ∉ st'.stack ∧ st'.lowOf v = st'.idxOf v) ∨
    (∃ tail, st'.stack = st.stack ++ v :: tail ∧
      (∀ u ∈ v :: tail, ¬ st.indexed u) ∧
      (∀ u ∈ v :: tail, st'.lowOf u < st'.idxOf u) ∧
      (∀ u ∈ v :: tail, ∀ w, EdgeIn edges u w →
        w ∈ v :: tail ∨ (st'.indexed w ∧ w ∉ st'.stack) ∨
        (w ∈ st.stack ∧ st'.lowOf v ≤ st'.idxOf w)))

/-- Loop invariant of the successor scan inside `strongconnect v`: `st0` is
the state at entry (before `v` was pushed), `tail` the nodes pushed above `v`
and still on the stack, `procd` the successors of `v` already processed. -/
structure FrameInv (edges : List (String × String)) (v : String) (st0 st : TarjanSt)
    (tail : List String) (procd : List String) : Prop where
  inv : TarjanInv edges st
  v_idx : st.indices.lookup v = some st0.index
  idx_pres : ∀ u, st0.indexed u → st.indices.lookup u = st0.indices.lookup u
  low_pres : ∀ u, st0.indexed u → st.lowlinks.lookup u = st0.lowlinks.lookup u
  index_gt : st0.index < st.index
  sccs_grew : ∃ new, st.sccs = st0.sccs ++ new
  idx_new_ge : ∀ u, st.indexed u → ¬ st0.indexed u → st0.index ≤ st.idxOf u
  stack_eq : st.stack = st0.stack ++ v :: tail
  tail_fresh : ∀ u ∈ v :: tail, ¬ st0.indexed u
  tail_low : ∀ u ∈ tail, st.lowOf u < st.idxOf u
  tail_esc : ∀ u ∈ tail, ∀ w, EdgeIn edges u w →
    w ∈ v :: tail ∨ (st.indexed w ∧ w ∉ st.stack) ∨
    (w ∈ st0.stack ∧ st.lowOf v ≤ st.idxOf w)
  done_esc : ∀ w ∈ procd, w ∈ v :: tail ∨ (st.indexed w ∧ w ∉ st.stack) ∨
    (w ∈ st0.stack ∧ st.lowOf v ≤ st.idxOf w)

/-! Theorems.  Each claim theorem is stated over the embedded definitions
above; helper lemmas carry the inductive content. -/

lemma detect_loops_nil : detect_loops [] = [] := rfl

lemma take_concat_singleton {α : Type} (l : List α) (x : α) (k : ℕ) :
    (l ++ [x]).take k = l.take k ∨ (l ++ [x]).take k = l ++ [x] := by
  rcases le_or_lt k l.length with h | h
  · left
    exact List.take_append_of_le_length h
  · right
    apply List.take_of_length_le
    simpa using h

lemma acceptEdges_prefix_acyclic (sqrtQ : ℚ → ℚ) (s : Streams) (g : Galaxy) :
    ∀ (edges : List (String × String × ℚ)) (st : GenSt),
      (∀ k, detect_loops (st.rails.take k) = []) →
      ∀ k, detect_loops ((acceptEdges sqrtQ s g edges st).rails.take k) = [] := by
  intro edges
  induction edges with
  | nil => intro st h k; exact h k
  | cons e rest ih =>
    intro st h k
    obtain ⟨f, t, c⟩ := e
    rw [acceptEdges]
    by_cases hv : validate_no_cycles
      (st.rails ++ [(create_rail sqrtQ s g f t st.construction_date st.rk st.uk).1])
    · rw [if_pos hv]
      apply ih
      intro j
      rcases take_concat_singleton st.rails
          (create_rail sqrtQ s g f t st.construction_date st.rk st.uk).1 j with hj | hj
      · rw [hj]; exact h j
      · rw [hj]
        have h2 := hv
        unfold validate_no_cycles at h2
        exact List.isEmpty_iff.mp (by simpa using h2)
    · rw [if_neg hv]
      apply ih
      intro j
      exact h j

/-- Claim C1: during rail network generation, a candidate rail is accepted
only when the rails accepted so far plus the candidate pass the cycle
detector, and rejected candidates are dropped; hence for every prefix of the
acceptance sequence detect_loops returns no non-trivial strongly connected
component, and on proposed edges X→Y, Y→Z, Z→X the third is rejected and the
final network contains only the first two. -/
theorem claim_C1_acceptance_prefix_acyclic :
    (∀ (sqrtQ : ℚ → ℚ) (s : Streams) (g : Galaxy) (construction_start : ℤ)
        (max_systems : Option ℕ) (k : ℕ),
      detect_loops ((generate_rail_network sqrtQ s g construction_start max_systems).take k) = []) ∧
    railEdges (acceptEdges (fun _ => 0) streams0 galaxyXYZ
        [("X", "Y", 0), ("Y", "Z", 0), ("Z", "X", 0)] ⟨[], 0, 0, 0⟩).rails =
      [("X", "Y"), ("Y", "Z")] := by
  constructor
  · intro sqrtQ s g construction_start max_systems k
    simp only [generate_rail_network]
    by_cases h : (find_source_vein_systems g 1000).isEmpty
    · simp [h, detect_loops_nil]
    · simp only [h, Bool.false_eq_true, if_false]
      exact acceptEdges_prefix_acyclic _ _ _ _ _ (by intro j; simp [detect_loops_nil]) k
  · decide

/-- Claim C10: for every galaxy and system id `s`, `get_route s s = [s]`,
even when `s` occurs nowhere among the systems or rails; a query whose
origin and destination coincide never returns the absent value. -/
theorem claim_C10_get_route_self (g : Galaxy) (sid : String) :
    g.get_route sid sid = some [sid] := by
  simp [Galaxy.get_route]

lemma insertByInterval_perm (x : Rail) :
    ∀ l : List Rail, (insertByInterval x l).Perm (x :: l) := by
  intro l
  induction l with
  | nil => exact List.Perm.refl _
  | cons y ys ih =>
    rw [insertByInterval]
    by_cases h : x.interval_days < y.interval_days
    · rw [if_pos h]
    · rw [if_neg h]
      exact (ih.cons y).trans (List.Perm.swap x y ys)

lemma sortByInterval_perm (rs : List Rail) : (sortByInterval rs).Perm rs := by
  induction rs with
  | nil => exact List.Perm.refl _
  | cons r rest ih => exact (insertByInterval_perm r _).trans (ih.cons r)

lemma sorted_insertByInterval (x : Rail) :
    ∀ l : List Rail, List.Sorted (fun a b : Rail => a.interval_days ≤ b.interval_days) l →
      List.Sorted (fun a b : Rail => a.interval_days ≤ b.interval_days) (insertByInterval x l) := by
  intro l
  induction l with
  | nil => intro _; simp [insertByInterval]
  | cons y ys ih =>
    intro hs
    rw [List.sorted_cons] at hs
    rw [insertByInterval]
    by_cases h : x.interval_days < y.interval_days
    · rw [if_pos h, List.sorted_cons]
      refine ⟨?_, List.sorted_cons.mpr hs⟩
      intro b hb
      rcases List.mem_cons.mp hb with rfl | hb
      · exact Nat.le_of_lt h
      · exact le_trans (Nat.le_of_lt h) (hs.1 b hb)
    · rw [if_neg h, List.sorted_cons]
      refine ⟨?_, ih hs.2⟩
      intro b hb
      rcases List.mem_cons.mp ((insertByInterval_perm x ys).mem_iff.mp hb) with rfl | hb2
      · exact Nat.le_of_not_lt h
      · exact hs.1 b hb2

lemma sortByInterval_sorted (rs : List Rail) :
    List.Sorted (fun a b : Rail => a.interval_days ≤ b.interval_days) (sortByInterval rs) := by
  induction rs with
  | nil => simp [sortByInterval]
  | cons r rest ih => exact sorted_insertByInterval r _ ih

lemma addToGroups_flatMap (r : Rail) :
    ∀ gs : List (String × List Rail),
      ((addToGroups gs r).flatMap Prod.snd).Perm (gs.flatMap Prod.snd ++ [r]) := by
  intro gs
  induction gs with
  | nil => simp [addToGroups]
  | cons p rest ih =>
    obtain ⟨sid, rs⟩ := p
    rw [addToGroups]
    by_cases h : sid = r.from_system
    · rw [if_pos h]
      simp only [List.flatMap_cons]
      have h1 : (rs ++ [r]) ++ rest.flatMap Prod.snd =
          rs ++ ([r] ++ rest.flatMap Prod.snd) := List.append_assoc ..
      have h2 : ([r] ++ rest.flatMap Prod.snd).Perm (rest.flatMap Prod.snd ++ [r]) :=
        List.perm_append_comm
      have h3 : rs ++ (rest.flatMap Prod.snd ++ [r]) =
          (rs ++ rest.flatMap Prod.snd) ++ [r] := (List.append_assoc ..).symm
      rw [h1, ← h3]
      exact List.Perm.append_left rs h2
    · rw [if_neg h]
      simp only [List.flatMap_cons]
      have h3 : rs ++ (rest.flatMap Prod.snd ++ [r]) =
          (rs ++ rest.flatMap Prod.snd) ++ [r] := (List.append_assoc ..).symm
      rw [← h3]
      exact List.Perm.append_left rs ih

lemma foldl_addToGroups_flatMap :
    ∀ (rails : List Rail) (acc : List (String × List Rail)),
      ((rails.foldl addToGroups acc).flatMap Prod.snd).Perm (acc.flatMap Prod.snd ++ rails) := by
  intro rails
  induction rails with
  | nil => intro acc; simp
  | cons r rest ih =>
    intro acc
    simp only [List.foldl_cons]
    have h1 := ih (addToGroups acc r)
    have h2 : ((addToGroups acc r).flatMap Prod.snd ++ rest).Perm
        ((acc.flatMap Prod.snd ++ [r]) ++ rest) :=
      List.Perm.append_right rest (addToGroups_flatMap r acc)
    have h3 : (acc.flatMap Prod.snd ++ [r]) ++ rest = acc.flatMap Prod.snd ++ (r :: rest) := by
      simp
    exact (h1.trans h2).trans (by rw [h3])

lemma groupByOrigin_flatMap_perm (rails : List Rail) :
    ((groupByOrigin rails).flatMap Prod.snd).Perm rails := by
  simpa [groupByOrigin] using foldl_addToGroups_flatMap rails []

lemma flatMap_perm_congr {α β : Type} {l : List α} {f g : α → List β}
    (h : ∀ a ∈ l, (f a).Perm (g a)) : (l.flatMap f).Perm (l.flatMap g) := by
  induction l with
  | nil => exact List.Perm.refl _
  | cons x xs ih =>
    simp only [List.flatMap_cons]
    exact (h x (List.mem_cons_self x xs)).append (ih fun a ha => h a (List.mem_cons_of_mem _ ha))

lemma offsetGroup_stableFields (rs : List Rail) :
    (offsetGroup rs).map Rail.stableFields = (sortByInterval rs).map Rail.stableFields := by
  unfold offsetGroup
  rw [List.map_map]
  have h1 : (Rail.stableFields ∘ fun p : ℕ × Rail =>
      { p.2 with next_fire := epoch3000 + 24 * ((p.2.interval_days * p.1) / rs.length : ℕ) }) =
      Rail.stableFields ∘ Prod.snd := by
    funext p
    rfl
  rw [h1, ← List.map_map, List.enum_map_snd]

lemma spaceGroup_stableFields (base : ℤ) (n : ℕ) :
    ∀ (rs : List Rail) (off : ℕ),
      (spaceGroup base n rs off).map Rail.stableFields = rs.map Rail.stableFields := by
  intro rs
  induction rs with
  | nil => intro off; rfl
  | cons r rest ih =>
    intro off
    simp only [spaceGroup, List.map_cons, ih]
    rfl

lemma optimize_rail_schedules_stable_perm (g : Galaxy) :
    ((optimize_rail_schedules g).map Rail.stableFields).Perm (g.rails.map Rail.stableFields) := by
  unfold optimize_rail_schedules
  rw [List.map_flatMap]
  have h : ∀ p ∈ groupByOrigin g.rails,
      ((if p.2.length ≤ 1 then p.2 else offsetGroup p.2).map Rail.stableFields).Perm
        (p.2.map Rail.stableFields) := by
    intro p _
    by_cases hl : p.2.length ≤ 1
    · rw [if_pos hl]
    · rw [if_neg hl, offsetGroup_stableFields]
      exact (sortByInterval_perm p.2).map Rail.stableFields
  have h4 : ((groupByOrigin g.rails).flatMap
      (fun p => (if p.2.length ≤ 1 then p.2 else offsetGroup p.2).map Rail.stableFields)).Perm
      ((groupByOrigin g.rails).flatMap (fun p => p.2.map Rail.stableFields)) :=
    flatMap_perm_congr h
  have h5 : (groupByOrigin g.rails).flatMap (fun p => p.2.map Rail.stableFields) =
      ((groupByOrigin g.rails).flatMap Prod.snd).map Rail.stableFields :=
    (List.map_flatMap ..).symm
  exact (h4.trans (by rw [h5])).trans ((groupByOrigin_flatMap_perm g.rails).map _)

lemma optimize_departure_times_stable_perm (g : Galaxy) (base_date : ℤ) :
    ((optimize_departure_times g base_date).map Rail.stableFields).Perm
      (g.rails.map Rail.stableFields) := by
  unfold optimize_departure_times
  rw [List.map_flatMap]
  have h : ∀ p ∈ groupByOrigin g.rails,
      ((if p.2.length ≤ 1 then p.2
        else spaceGroup base_date p.2.length (sortByInterval p.2) 0).map Rail.stableFields).Perm
        (p.2.map Rail.stableFields) := by
    intro p _
    by_cases hl : p.2.length ≤ 1
    · rw [if_pos hl]
    · rw [if_neg hl, spaceGroup_stableFields]
      exact (sortByInterval_perm p.2).map Rail.stableFields
  have h4 := flatMap_perm_congr h
  have h5 : (groupByOrigin g.rails).flatMap (fun p => p.2.map Rail.stableFields) =
      ((groupByOrigin g.rails).flatMap Prod.snd).map Rail.stableFields :=
    (List.map_flatMap ..).symm
  exact (h4.trans (by rw [h5])).trans ((groupByOrigin_flatMap_perm g.rails).map _)

lemma offsetGroup_getElem? (rs : List Rail) (i : ℕ) (r : Rail)
    (h : (sortByInterval rs)[i]? = some r) :
    (offsetGroup rs)[i]? =
      some { r with next_fire := epoch3000 + 24 * ((r.interval_days * i) / rs.length : ℕ) } := by
  unfold offsetGroup
  rw [List.getElem?_map, List.getElem?_enum, h]
  rfl

lemma spaceGroup_getElem? (base : ℤ) (n : ℕ) :
    ∀ (rs : List Rail) (off i : ℕ) (r : Rail),
      rs[i]? = some r →
      (spaceGroup base n rs off)[i]? =
        some { r with next_fire := base + 24 * ((off + cumulativeOffset n rs i : ℕ) : ℤ) } := by
  intro rs
  induction rs with
  | nil => intro off i r h; simp at h
  | cons hd tl ih =>
    intro off i r h
    cases i with
    | zero =>
      simp only [List.getElem?_cons_zero, Option.some.injEq] at h
      subst h
      simp [spaceGroup, cumulativeOffset]
    | succ j =>
      simp only [List.getElem?_cons_succ] at h
      have hj := ih (off + max 1 (hd.interval_days / n)) j r h
      simp only [spaceGroup, List.getElem?_cons_succ]
      rw [hj]
      have harith : off + max 1 (hd.interval_days / n) + cumulativeOffset n tl j =
          off + cumulativeOffset n (hd :: tl) (j + 1) := by
        simp only [cumulativeOffset, List.take_succ_cons, List.map_cons, List.sum_cons]
        omega
      rw [harith]

/-- Claim C8: both schedule optimizers return, for every input rail, a rail
identical in every field except possibly next_fire (stated as a permutation
of the non-next_fire field tuples; the embedding is a pure function, so the
input rails are unchanged); and for every origin group of n ≥ 2 rails the
new next-fire values are assigned in ascending-interval order: in
optimize_rail_schedules the i-th sorted rail fires (interval_i * i) // n
days after the synthetic epoch, and in optimize_departure_times the i-th
sorted rail fires at the base date plus the accumulated
max(1, interval_j // n) day spacings over j < i. -/
theorem claim_C8_optimize_frame (g : Galaxy) (base_date : ℤ) :
    ((optimize_rail_schedules g).map Rail.stableFields).Perm
        (g.rails.map Rail.stableFields) ∧
      ((optimize_departure_times g base_date).map Rail.stableFields).Perm
        (g.rails.map Rail.stableFields) ∧
      ∀ p ∈ groupByOrigin g.rails, 2 ≤ p.2.length →
        List.Sorted (fun a b : Rail => a.interval_days ≤ b.interval_days) (sortByInterval p.2) ∧
        (sortByInterval p.2).Perm p.2 ∧
        ∀ (i : ℕ) (r : Rail), (sortByInterval p.2)[i]? = some r →
          (offsetGroup p.2)[i]? =
              some { r with
                next_fire := epoch3000 + 24 * ((r.interval_days * i) / p.2.length : ℕ) } ∧
            (spaceGroup base_date p.2.length (sortByInterval p.2) 0)[i]? =
              some { r with
                next_fire :=
                  base_date + 24 * ((cumulativeOffset p.2.length (sortByInterval p.2) i : ℕ) : ℤ) } := by
  refine ⟨optimize_rail_schedules_stable_perm g,
    optimize_departure_times_stable_perm g base_date, ?_⟩
  intro p hp _
  refine ⟨sortByInterval_sorted p.2, sortByInterval_perm p.2, ?_⟩
  intro i r h
  constructor
  · exact offsetGroup_getElem? p.2 i r h
  · have h6 := spaceGroup_getElem? base_date p.2.length (sortByInterval p.2) 0 i r h
    simpa using h6


theorem claim_C8_optimize_frame_witness :
    (offsetGroup [railI10, railI4])[1]? =
        some { railI10 with
          next_fire := epoch3000 + 24 * ((railI10.interval_days * 1) / 2 : ℕ) } ∧
      (spaceGroup 0 2 (sortByInterval [railI10, railI4]) 0)[1]? =
        some { railI10 with
          next_fire := 0 + 24 * ((cumulativeOffset 2 (sortByInterval [railI10, railI4]) 1 : ℕ) : ℤ) } :=
  ((claim_C8_optimize_frame galaxyOpt 0).2.2 ("A", [railI10, railI4])
    (by decide) (by decide)).2.2 1 railI10 (by decide)

lemma railEdges_of_seedFields {l₁ l₂ : List Rail}
    (h : l₁.map Rail.seedFields = l₂.map Rail.seedFields) : railEdges l₁ = railEdges l₂ := by
  have h1 : ∀ l : List Rail,
      railEdges l = (l.map Rail.seedFields).map (fun t => (t.1, t.2.1)) := by
    intro l
    rw [railEdges, List.map_map]
    rfl
  rw [h1, h1, h]

lemma detect_loops_congr {l₁ l₂ : List Rail} (h : railEdges l₁ = railEdges l₂) :
    detect_loops l₁ = detect_loops l₂ := by
  unfold detect_loops
  rw [h]

lemma create_rail_seedFields (sqrtQ : ℚ → ℚ) (ints : ℕ → ℕ) (rand : ℕ → ℚ)
    (u₁ u₂ : ℕ → String) (g : Galaxy) (f t : String) (d : ℤ) (rk uk : ℕ) :
    (create_rail sqrtQ ⟨ints, rand, u₁⟩ g f t d rk uk).1.seedFields =
      (create_rail sqrtQ ⟨ints, rand, u₂⟩ g f t d rk uk).1.seedFields := rfl

lemma create_rail_counters (sqrtQ : ℚ → ℚ) (ints : ℕ → ℕ) (rand : ℕ → ℚ)
    (u₁ u₂ : ℕ → String) (g : Galaxy) (f t : String) (d : ℤ) (rk uk : ℕ) :
    (create_rail sqrtQ ⟨ints, rand, u₁⟩ g f t d rk uk).2 =
      (create_rail sqrtQ ⟨ints, rand, u₂⟩ g f t d rk uk).2 := rfl

lemma acceptEdges_seed_determined (sqrtQ : ℚ → ℚ) (ints : ℕ → ℕ) (rand : ℕ → ℚ)
    (u₁ u₂ : ℕ → String) (g : Galaxy) :
    ∀ (edges : List (String × String × ℚ)) (st₁ st₂ : GenSt),
      st₁.rails.map Rail.seedFields = st₂.rails.map Rail.seedFields →
      st₁.construction_date = st₂.construction_date →
      st₁.rk = st₂.rk → st₁.uk = st₂.uk →
      (acceptEdges sqrtQ ⟨ints, rand, u₁⟩ g edges st₁).rails.map Rail.seedFields =
        (acceptEdges sqrtQ ⟨ints, rand, u₂⟩ g edges st₂).rails.map Rail.seedFields := by
  intro edges
  induction edges with
  | nil => intro st₁ st₂ hr hd hk hu; simpa [acceptEdges] using hr
  | cons e rest ih =>
    intro st₁ st₂ hr hd hk hu
    obtain ⟨f, t, c⟩ := e
    obtain ⟨rails₁, d₁, rk₁, uk₁⟩ := st₁
    obtain ⟨rails₂, d₂, rk₂, uk₂⟩ := st₂
    simp only at hr hd hk hu
    subst hd hk hu
    rw [acceptEdges, acceptEdges]
    have hsf := create_rail_seedFields sqrtQ ints rand u₁ u₂ g f t d₁ rk₁ uk₁
    have hct := create_rail_counters sqrtQ ints rand u₁ u₂ g f t d₁ rk₁ uk₁
    have hmap : (rails₁ ++ [(create_rail sqrtQ ⟨ints, rand, u₁⟩ g f t d₁ rk₁ uk₁).1]).map
        Rail.seedFields =
        (rails₂ ++ [(create_rail sqrtQ ⟨ints, rand, u₂⟩ g f t d₁ rk₁ uk₁).1]).map
        Rail.seedFields := by
      simp only [List.map_append, List.map_cons, List.map_nil, hr, hsf]
    have hguard : validate_no_cycles
        (rails₁ ++ [(create_rail sqrtQ ⟨ints, rand, u₁⟩ g f t d₁ rk₁ uk₁).1]) =
        validate_no_cycles
        (rails₂ ++ [(create_rail sqrtQ ⟨ints, rand, u₂⟩ g f t d₁ rk₁ uk₁).1]) := by
      unfold validate_no_cycles
      rw [detect_loops_congr (railEdges_of_seedFields hmap)]
    have hlen : (create_rail sqrtQ ⟨ints, rand, u₁⟩ g f t d₁ rk₁ uk₁).1.length =
        (create_rail sqrtQ ⟨ints, rand, u₂⟩ g f t d₁ rk₁ uk₁).1.length := by
      have h9 := congrArg (fun p => p.2.2.2.1) hsf
      simpa [Rail.seedFields] using h9
    by_cases hv : validate_no_cycles
        (rails₁ ++ [(create_rail sqrtQ ⟨ints, rand, u₁⟩ g f t d₁ rk₁ uk₁).1])
    · rw [if_pos hv, if_pos (hguard ▸ hv)]
      exact ih _ _ hmap (by simp only [hlen]) (by rw [hct]) (by rw [hct])
    · rw [if_neg hv, if_neg (fun hx => hv (hguard ▸ hx))]
      exact ih _ _ hr rfl (by rw [hct]) (by rw [hct])

/-- Claim C3 (amended): with the identifier stream factored out, generation
is a function of the seed stream and the galaxy alone — two runs with the
same seeded draws but different uuid4 draws agree on every rail field except
the uuid-backed id. -/
theorem claim_C3_seed_determinism_mod_ids (sqrtQ : ℚ → ℚ) (ints : ℕ → ℕ) (rand : ℕ → ℚ)
    (u₁ u₂ : ℕ → String) (g : Galaxy) (construction_start : ℤ) (max_systems : Option ℕ) :
    (generate_rail_network sqrtQ ⟨ints, rand, u₁⟩ g construction_start max_systems).map
        Rail.seedFields =
      (generate_rail_network sqrtQ ⟨ints, rand, u₂⟩ g construction_start max_systems).map
        Rail.seedFields := by
  simp only [generate_rail_network]
  by_cases h : (find_source_vein_systems g 1000).isEmpty
  · simp [h]
  · simp only [h, Bool.false_eq_true, if_false]
    exact acceptEdges_seed_determined sqrtQ ints rand u₁ u₂ g _ _ _ rfl rfl rfl rfl

lemma galaxyAB_sources : find_source_vein_systems galaxyAB 1000 = ["A"] := by decide

lemma galaxyAB_mst :
    ∃ c, build_minimum_spanning_tree (fun _ => 0) galaxyAB ["A"] = [("A", "B", c)] :=
  ⟨_, rfl⟩

lemma galaxyAB_redundancy (s : Streams) (hs : s.rand = fun _ => 1) (c : ℚ) :
    add_redundancy_connections (fun _ => 0) s galaxyAB [("A", "B", c)] (1 / 10) 0 = ([], 2) := by
  simp only [add_redundancy_connections, hs]
  norm_num
  decide

lemma galaxyAB_accept2 (s : Streams) (c : ℚ) :
    ((acceptEdges (fun _ => 0) s galaxyAB [("A", "B", c)] ⟨[], 0, 2, 0⟩).rails).map Rail.id =
      ["RAIL-" ++ s.uuid 0] := by
  rw [acceptEdges]
  have h5 : validate_no_cycles
      (([] : List Rail) ++ [(create_rail (fun _ => 0) s galaxyAB "A" "B" 0 2 0).1]) = true := by
    have he : railEdges
        (([] : List Rail) ++ [(create_rail (fun _ => 0) s galaxyAB "A" "B" 0 2 0).1]) =
        [("A", "B")] := rfl
    rw [validate_no_cycles, detect_loops, he]
    decide
  rw [if_pos h5]
  rw [acceptEdges]
  rfl

lemma galaxyAB_run_map_id (s : Streams) (hs : s.rand = fun _ => 1) :
    (generate_rail_network (fun _ => 0) s galaxyAB 0 none).map Rail.id =
      ["RAIL-" ++ s.uuid 0] := by
  obtain ⟨c, hc⟩ := galaxyAB_mst
  simp only [generate_rail_network, galaxyAB_sources, List.isEmpty_cons, Bool.false_eq_true,
    if_false, hc, galaxyAB_redundancy s hs c, List.append_nil]
  exact galaxyAB_accept2 s c

/-- Claim C3 (counterexample): two generation runs over the same galaxy with
the same seeded draw streams, differing only in the process-global uuid4
stream that generate_rail_id consumes, produce different outputs — the rail
ids are not reproduced, so output is not identical bit-for-bit. -/
theorem claim_C3_uuid_nondeterminism :
    generate_rail_network (fun _ => 0) streamsA galaxyAB 0 none ≠
      generate_rail_network (fun _ => 0) streamsB galaxyAB 0 none := by
  intro h
  have hA := galaxyAB_run_map_id streamsA rfl
  have hB := galaxyAB_run_map_id streamsB rfl
  rw [h, hB] at hA
  simp [streamsA, streamsB] at hA


/-- Claim C7: validate_rail_network runs all five checks independently of
earlier outcomes and returns pass/fail with the concatenated finding list;
a galaxy whose total rail gravitium cost exceeds total deposits fails with a
finding carrying the shortfall amounts.  The embedding is a pure function of
the galaxy, which is only read. -/
theorem claim_C7_validate_all_checks (sqrtQ : ℚ → ℚ) (g : Galaxy)
    (h : totalGravitiumAvailable g < totalGravitiumCost g) :
    (validate_rail_network sqrtQ g).2 =
        cycleFindings g ++ orphanFindings g ++ connectionFindings sqrtQ g ++
          duplicateFindings g ++ economicFindings g ∧
      ((validate_rail_network sqrtQ g).1 = true ↔ (validate_rail_network sqrtQ g).2 = []) ∧
      (validate_rail_network sqrtQ g).1 = false ∧
      Finding.insufficientGravitium (totalGravitiumCost g) (totalGravitiumAvailable g) ∈
        (validate_rail_network sqrtQ g).2 := by
  have hmem : Finding.insufficientGravitium (totalGravitiumCost g) (totalGravitiumAvailable g) ∈
      (validate_rail_network sqrtQ g).2 := by
    simp only [validate_rail_network, economicFindings, if_pos h]
    simp
  refine ⟨rfl, ?_, ?_, hmem⟩
  · simp [validate_rail_network, List.isEmpty_iff]
  · have hne : (validate_rail_network sqrtQ g).2 ≠ [] := by
      intro he
      rw [he] at hmem
      exact absurd hmem (List.not_mem_nil _)
    simp only [validate_rail_network] at hne ⊢
    simpa [List.isEmpty_iff] using hne

theorem claim_C7_witness :
    totalGravitiumAvailable galaxyEcon < totalGravitiumCost galaxyEcon ∧
      ((validate_rail_network (fun q => q) galaxyEcon).2 =
        cycleFindings galaxyEcon ++ orphanFindings galaxyEcon ++
          connectionFindings (fun q => q) galaxyEcon ++
          duplicateFindings galaxyEcon ++ economicFindings galaxyEcon ∧
      ((validate_rail_network (fun q => q) galaxyEcon).1 = true ↔
        (validate_rail_network (fun q => q) galaxyEcon).2 = []) ∧
      (validate_rail_network (fun q => q) galaxyEcon).1 = false ∧
      Finding.insufficientGravitium (totalGravitiumCost galaxyEcon)
          (totalGravitiumAvailable galaxyEcon) ∈
        (validate_rail_network (fun q => q) galaxyEcon).2) :=
  ⟨by norm_num [totalGravitiumAvailable, totalGravitiumCost, galaxyEcon],
   claim_C7_validate_all_checks (fun q => q) galaxyEcon
     (by norm_num [totalGravitiumAvailable, totalGravitiumCost, galaxyEcon])⟩

/-- Claim C4 (code bug): queried from day 12, generate_rail_schedule yields
days 12, 17, 22, …, anchored at the window start instead of the rail's
next_fire — no produced departure lies on the rail's firing progression —
whereas Rail.next_departures (models.py) yields days 15, 20, 25, … as the
claim and spec state (and both agree on the aligned query from day 0). -/
theorem claim_C4_schedule_window_anchor_bug :
    (generate_rail_schedule railC4 (24 * 12) 365).departures.take 3 =
        [24 * 12, 24 * 17, 24 * 22] ∧
      (∀ t ∈ (generate_rail_schedule railC4 (24 * 12) 365).departures,
        ¬ ((24 * 5 : ℤ) ∣ (t - railC4.next_fire))) ∧
      (railC4.next_departures (24 * 12) 10).take 3 = [24 * 15, 24 * 20, 24 * 25] ∧
      (generate_rail_schedule railC4 0 365).departures.take 3 = [24 * 10, 24 * 15, 24 * 20] := by
  refine ⟨by decide, ?_, by decide, by decide⟩
  decide



lemma fuel_reaches (step a b : ℤ) (hs : 1 ≤ step) :
    a < b + step * (((a - b).toNat : ℤ) + 1) := by
  have h1 : (a - b : ℤ) ≤ ((a - b).toNat : ℤ) := Int.self_le_toNat _
  have h2 : (0 : ℤ) ≤ ((a - b).toNat : ℤ) := Int.natCast_nonneg _
  have h3 : ((a - b).toNat : ℤ) + 1 ≤ step * (((a - b).toNat : ℤ) + 1) :=
    le_mul_of_one_le_left (by omega) hs
  omega

lemma stepWhileLE_least (step bound : ℤ) :
    ∀ (fuel : ℕ) (current : ℤ), bound < current + step * fuel →
      ∃ k : ℕ, stepWhileLE step bound fuel current = current + step * k ∧
        bound < current + step * k ∧ ∀ j : ℕ, j < k → current + step * j ≤ bound := by
  intro fuel
  induction fuel with
  | zero =>
    intro current h
    exact ⟨0, by simp [stepWhileLE], by simpa using h, by omega⟩
  | succ n ih =>
    intro current h
    rw [stepWhileLE]
    by_cases hc : current ≤ bound
    · rw [if_pos hc]
      have hexp : step * ((n : ℤ) + 1) = step * n + step := by ring
      have h2 : bound < current + step + step * n := by
        push_cast at h
        omega
      obtain ⟨k, hk1, hk2, hk3⟩ := ih (current + step) (by omega)
      have hexpk : step * ((k : ℤ) + 1) = step * k + step := by ring
      refine ⟨k + 1, ?_, ?_, ?_⟩
      · rw [hk1]
        push_cast
        ring
      · push_cast
        omega
      · intro j hj
        cases j with
        | zero => simpa using hc
        | succ i =>
          have hi := hk3 i (by omega)
          have hexpi : step * ((i : ℤ) + 1) = step * i + step := by ring
          push_cast
          omega
    · rw [if_neg hc]
      exact ⟨0, by simp, by simpa using hc, by omega⟩

lemma stepWhileLT_least (step bound : ℤ) :
    ∀ (fuel : ℕ) (current : ℤ), bound ≤ current + step * fuel →
      ∃ k : ℕ, stepWhileLT step bound fuel current = current + step * k ∧
        bound ≤ current + step * k ∧ ∀ j : ℕ, j < k → current + step * j < bound := by
  intro fuel
  induction fuel with
  | zero =>
    intro current h
    exact ⟨0, by simp [stepWhileLT], by simpa using h, by omega⟩
  | succ n ih =>
    intro current h
    rw [stepWhileLT]
    by_cases hc : current < bound
    · rw [if_pos hc]
      have hexp : step * ((n : ℤ) + 1) = step * n + step := by ring
      have h2 : bound ≤ current + step + step * n := by
        push_cast at h
        omega
      obtain ⟨k, hk1, hk2, hk3⟩ := ih (current + step) (by omega)
      have hexpk : step * ((k : ℤ) + 1) = step * k + step := by ring
      refine ⟨k + 1, ?_, ?_, ?_⟩
      · rw [hk1]
        push_cast
        ring
      · push_cast
        omega
      · intro j hj
        cases j with
        | zero => simpa using hc
        | succ i =>
          have hi := hk3 i (by omega)
          have hexpi : step * ((i : ℤ) + 1) = step * i + step := by ring
          push_cast
          omega
    · rw [if_neg hc]
      exact ⟨0, by simp, by simpa using hc, by omega⟩

/-- With a positive interval, the head of get_next_departures is the earliest
firing strictly after the query time, and the list is the firing progression
from it. -/
lemma get_next_departures_spec (r : Rail) (after : ℤ) (count : ℕ)
    (hpos : 0 < r.interval_days) :
    ∃ d0, IsEarliestFiringAfter r after d0 ∧
      get_next_departures r after count = progList (24 * r.interval_days) count d0 := by
  have hstep : (0 : ℤ) < 24 * r.interval_days := by positivity
  have hfuel : after < r.next_fire +
      (24 * r.interval_days) * ((((after - r.next_fire).toNat : ℤ)) + 1) :=
    fuel_reaches (24 * r.interval_days) after r.next_fire (by omega)
  obtain ⟨k, hk1, hk2, hk3⟩ := stepWhileLE_least (24 * r.interval_days) after
    ((after - r.next_fire).toNat + 1) r.next_fire (by push_cast; omega)
  refine ⟨r.next_fire + 24 * r.interval_days * k, ⟨⟨k, rfl⟩, hk2, ?_⟩, ?_⟩
  · rintro e ⟨j, rfl⟩ he
    rcases le_or_lt k j with h | h
    · have hmono : (24 * r.interval_days : ℤ) * k ≤ 24 * r.interval_days * j := by
        apply mul_le_mul_of_nonneg_left _ (le_of_lt hstep)
        exact_mod_cast h
      omega
    · have := hk3 j h
      omega
  · rw [get_next_departures, hk1]


lemma findRail_mem {g : Galaxy} {a b : String} {r : Rail} (h : findRail g a b = some r) :
    r ∈ g.rails :=
  List.mem_of_find?_eq_some h

lemma get_next_departures_one (r : Rail) (t : ℤ) :
    get_next_departures r t 1 =
      [stepWhileLE (24 * (r.interval_days : ℤ)) t ((t - r.next_fire).toNat + 1) r.next_fire] :=
  rfl

lemma walkSegments_none_iff (g : Galaxy) :
    ∀ (pairs : List (String × String)) (t : ℤ),
      walkSegments g pairs t = none ↔ ∃ p ∈ pairs, findRail g p.1 p.2 = none := by
  intro pairs
  induction pairs with
  | nil => intro t; simp [walkSegments]
  | cons pr rest ih =>
    intro t
    obtain ⟨a, b⟩ := pr
    rw [walkSegments]
    cases hfr : findRail g a b with
    | none =>
      simp only [hfr]
      constructor
      · intro _
        exact ⟨(a, b), List.mem_cons_self _ _, hfr⟩
      · intro _
        trivial
    | some rail =>
      simp only [hfr, get_next_departures_one]
      cases hw : walkSegments g rest
          (stepWhileLE (24 * (rail.interval_days : ℤ)) t ((t - rail.next_fire).toNat + 1)
            rail.next_fire + 1) with
      | none =>
        simp only [hw]
        constructor
        · intro _
          obtain ⟨p, hp, hmiss⟩ := (ih _).mp hw
          exact ⟨p, List.mem_cons_of_mem _ hp, hmiss⟩
        · intro _
          trivial
      | some v =>
        obtain ⟨segs, tf⟩ := v
        simp only [hw]
        constructor
        · intro hcon
          exact Option.noConfusion hcon
        · intro hcon
          obtain ⟨p, hp, hmiss⟩ := hcon
          rcases List.mem_cons.mp hp with rfl | hp2
          · rw [hfr] at hmiss
            exact Option.noConfusion hmiss
          · rw [(ih _).mpr ⟨p, hp2, hmiss⟩] at hw
            exact Option.noConfusion hw

lemma walkSegments_some_spec (g : Galaxy)
    (hpos : ∀ r ∈ g.rails, 0 < r.interval_days) :
    ∀ (pairs : List (String × String)) (t : ℤ) (segs : List (String × ℤ)) (tf : ℤ),
      walkSegments g pairs t = some (segs, tf) →
      TimedWalk g pairs t segs tf ∧ segs.length = pairs.length := by
  intro pairs
  induction pairs with
  | nil =>
    intro t segs tf h
    rw [walkSegments] at h
    have h4 : some (([] : List (String × ℤ)), t) = some (segs, tf) := h
    injection h4 with h5
    obtain ⟨rfl, rfl⟩ := Prod.mk.injEq .. ▸ And.intro (congrArg Prod.fst h5) (congrArg Prod.snd h5)
    exact ⟨TimedWalk.nil t, rfl⟩
  | cons pr rest ih =>
    intro t segs tf h
    obtain ⟨a, b⟩ := pr
    rw [walkSegments] at h
    cases hfr : findRail g a b with
    | none =>
      simp only [hfr] at h
      exact Option.noConfusion h
    | some rail =>
      simp only [hfr] at h
      obtain ⟨d0, hd0, hprog⟩ :=
        get_next_departures_spec rail t 1 (hpos rail (findRail_mem hfr))
      have hprog1 : get_next_departures rail t 1 = [d0] := by
        rw [hprog]
        rfl
      simp only [hprog1] at h
      cases hw : walkSegments g rest (d0 + 1) with
      | none =>
        simp only [hw] at h
        exact Option.noConfusion h
      | some v =>
        obtain ⟨segs2, tf2⟩ := v
        simp only [hw] at h
        have h4 : some ((a, d0) :: segs2, tf2) = some (segs, tf) := h
        injection h4 with h5
        have h6 : (a, d0) :: segs2 = segs := congrArg Prod.fst h5
        have h7 : tf2 = tf := congrArg Prod.snd h5
        subst h6 h7
        obtain ⟨hwalk, hlen⟩ := ih (d0 + 1) segs2 tf2 hw
        exact ⟨TimedWalk.cons a b rest t d0 segs2 tf2 rail hfr hd0 hwalk, by simpa using hlen⟩


lemma scanRails_found_ne_nil (cur target : String) (path : List String) :
    ∀ (rails : List Rail) (visited : List String) (adds : List (String × List String))
      (p : List String),
      (scanRails cur target path rails visited adds).1 = some p → p ≠ [] := by
  intro rails
  induction rails with
  | nil => intro visited adds p h; exact absurd h (by simp [scanRails])
  | cons r rest ih =>
    intro visited adds p h
    rw [scanRails] at h
    by_cases h1 : r.from_system = cur
    · rw [if_pos h1] at h
      by_cases h2 : r.to_system = target
      · rw [if_pos h2] at h
        have h3 : some (path ++ [r.to_system]) = some p := h
        injection h3 with h4
        subst h4
        simp
      · rw [if_neg h2] at h
        by_cases h3 : r.to_system ∈ visited
        · rw [if_pos h3] at h
          exact ih _ _ _ h
        · rw [if_neg h3] at h
          exact ih _ _ _ h
    · rw [if_neg h1] at h
      exact ih _ _ _ h

lemma bfsLoop_some_ne_nil (rails : List Rail) (target : String) :
    ∀ (fuel : ℕ) (visited : List String) (queue : List (String × List String))
      (p : List String),
      bfsLoop rails target fuel visited queue = some (some p) → p ≠ [] := by
  intro fuel
  induction fuel with
  | zero => intro visited queue p h; exact absurd h (by simp [bfsLoop])
  | succ n ih =>
    intro visited queue p h
    cases queue with
    | nil =>
      rw [bfsLoop] at h
      have h3 : (some (none : Option (List String))) = some (some p) := h
      injection h3 with h4
      exact Option.noConfusion h4
    | cons e rest =>
      obtain ⟨cur, path⟩ := e
      rw [bfsLoop] at h
      cases hscan : scanRails cur target path rails visited [] with
      | mk found va =>
        obtain ⟨visited2, adds⟩ := va
        rw [hscan] at h
        cases found with
        | some route =>
          have h3 : some (some route) = some (some p) := h
          injection h3 with h4
          injection h4 with h5
          subst h5
          exact scanRails_found_ne_nil cur target path rails visited [] _
            (by rw [hscan])
        | none => exact ih _ _ _ h

lemma get_route_some_ne_nil {g : Galaxy} {a b : String} {route : List String}
    (h : g.get_route a b = some route) : route ≠ [] := by
  rw [Galaxy.get_route] at h
  by_cases hab : a = b
  · rw [if_pos hab] at h
    injection h with h2
    subst h2
    simp
  · rw [if_neg hab] at h
    cases hb : bfsLoop g.rails b (g.rails.length + 2) [a] [(a, [a])] with
    | none => rw [hb] at h; exact Option.noConfusion h
    | some r =>
      rw [hb] at h
      subst h
      exact bfsLoop_some_ne_nil g.rails b _ _ _ route hb

lemma length_one_zip_tail {route : List String} (h : route.length = 1) :
    route.zip route.tail = [] := by
  match route, h with
  | [x], _ => rfl

/-- Claim C5 (amended): the timed-route walk selects at each edge the
earliest firing strictly after the cursor (not at-or-after) and advances the
cursor by that firing plus one hour of transit; a query fails with the
absent value exactly when the hop path is absent or some edge of it has no
rail (with positive intervals a future firing always exists), and a
successful query always covers the whole path, never a partial segment
list. -/
theorem claim_C5_timed_route_walk (g : Galaxy) (a b : String) (t0 : ℤ)
    (hpos : ∀ r ∈ g.rails, 0 < r.interval_days) :
    (find_route_schedule g a b t0 = none ↔
      g.get_route a b = none ∨
        ∃ route, g.get_route a b = some route ∧
          ∃ p ∈ route.zip route.tail, findRail g p.1 p.2 = none) ∧
    ∀ segs, find_route_schedule g a b t0 = some segs →
      ∃ route, g.get_route a b = some route ∧
        ((route.length = 1 ∧ segs = [(a, t0)]) ∨
          ∃ walk tf, TimedWalk g (route.zip route.tail) t0 walk tf ∧
            segs = walk ++ [(b, tf)] ∧ segs.length = route.length) := by
  cases hr : g.get_route a b with
  | none =>
    simp only [find_route_schedule, hr]
    refine ⟨⟨fun _ => Or.inl trivial, fun _ => trivial⟩, ?_⟩
    intro segs h
    exact Option.noConfusion h
  | some route =>
    have hne := get_route_some_ne_nil hr
    simp only [find_route_schedule, hr]
    by_cases hlen : route.length = 1
    · rw [if_pos hlen]
      constructor
      · constructor
        · intro h
          exact Option.noConfusion h
        · rintro (h | ⟨route2, hroute2, p, hp, _⟩)
          · exact Option.noConfusion h
          · injection hroute2 with h3
            subst h3
            rw [length_one_zip_tail hlen] at hp
            exact absurd hp (List.not_mem_nil p)
      · intro segs h
        have h3 : some [(a, t0)] = some segs := h
        injection h3 with h4
        exact ⟨route, rfl, Or.inl ⟨hlen, h4.symm⟩⟩
    · rw [if_neg hlen]
      cases hw : walkSegments g (route.zip route.tail) t0 with
      | none =>
        refine ⟨⟨fun _ => ?_, fun _ => rfl⟩, ?_⟩
        · exact Or.inr ⟨route, rfl, (walkSegments_none_iff g _ t0).mp hw⟩
        · intro segs h
          exact Option.noConfusion h
      | some v =>
        obtain ⟨segs2, tf2⟩ := v
        constructor
        · constructor
          · intro h
            exact Option.noConfusion h
          · rintro (h | ⟨route2, hroute2, p, hp, hmiss⟩)
            · exact Option.noConfusion h
            · injection hroute2 with h3
              subst h3
              rw [(walkSegments_none_iff g _ t0).mpr ⟨p, hp, hmiss⟩] at hw
              exact Option.noConfusion hw
        · intro segs h
          have h3 : some (segs2 ++ [(b, tf2)]) = some segs := h
          injection h3 with h4
          subst h4
          obtain ⟨hwalk, hlen2⟩ := walkSegments_some_spec g hpos _ t0 segs2 tf2 hw
          refine ⟨route, rfl, Or.inr ⟨segs2, tf2, hwalk, rfl, ?_⟩⟩
          have hlenpos : 0 < route.length := List.length_pos.mpr hne
          have hzip : (route.zip route.tail).length = route.length - 1 := by
            rw [List.length_zip, List.length_tail]
            omega
          rw [List.length_append, hlen2, hzip]
          simp only [List.length_cons, List.length_nil]
          omega


lemma bestDepartureStep_skip {preferred endS d : ℤ} (best : Option (ℤ × ℤ))
    (h : ¬ d ≤ endS) : bestDepartureStep preferred endS best d = best := by
  simp only [bestDepartureStep, if_neg h]

lemma bestDepartureStep_first {preferred endS d : ℤ} (h : d ≤ endS) :
    bestDepartureStep preferred endS none d = some (d, |d - preferred|) := by
  simp only [bestDepartureStep, if_pos h]

lemma bestDepartureStep_improve {preferred endS d b bdiff : ℤ} (h : d ≤ endS)
    (h2 : |d - preferred| < bdiff) :
    bestDepartureStep preferred endS (some (b, bdiff)) d = some (d, |d - preferred|) := by
  simp only [bestDepartureStep, if_pos h]
  exact if_pos h2

lemma bestDepartureStep_keep {preferred endS d b bdiff : ℤ} (h : d ≤ endS)
    (h2 : ¬ |d - preferred| < bdiff) :
    bestDepartureStep preferred endS (some (b, bdiff)) d = some (b, bdiff) := by
  simp only [bestDepartureStep, if_pos h]
  exact if_neg h2

lemma bestDepartureAux_spec (preferred endS : ℤ) :
    ∀ (deps : List ℤ) (acc : Option (ℤ × ℤ)),
      (∀ a da, acc = some (a, da) → da = |a - preferred|) →
      (deps.foldl (bestDepartureStep preferred endS) acc = none →
        acc = none ∧ ∀ d ∈ deps, ¬ d ≤ endS) ∧
      (∀ d diff, deps.foldl (bestDepartureStep preferred endS) acc = some (d, diff) →
        diff = |d - preferred| ∧
        (acc = some (d, diff) ∨ (d ∈ deps ∧ d ≤ endS)) ∧
        (∀ e ∈ deps, e ≤ endS → diff ≤ |e - preferred|) ∧
        (∀ a da, acc = some (a, da) → diff ≤ da)) := by
  intro deps
  induction deps with
  | nil =>
    intro acc hacc
    refine ⟨fun h => ⟨h, by simp⟩, ?_⟩
    intro d diff h
    simp only [List.foldl_nil] at h
    refine ⟨hacc d diff h, Or.inl h, by simp, ?_⟩
    intro a da ha
    rw [ha] at h
    injection h with h2
    injection h2 with h3 h4
    subst h3 h4
    exact le_refl _
  | cons x rest ih =>
    intro acc hacc
    simp only [List.foldl_cons]
    have hstepinv : ∀ a da, bestDepartureStep preferred endS acc x = some (a, da) →
        da = |a - preferred| := by
      intro a da h
      by_cases hx : x ≤ endS
      · cases hc : acc with
        | none =>
          rw [hc, bestDepartureStep_first hx] at h
          injection h with h2
          injection h2 with h3 h4
          subst h3 h4
          rfl
        | some p =>
          obtain ⟨b, bdiff⟩ := p
          by_cases hcmp : |x - preferred| < bdiff
          · rw [hc, bestDepartureStep_improve hx hcmp] at h
            injection h with h2
            injection h2 with h3 h4
            subst h3 h4
            rfl
          · rw [hc, bestDepartureStep_keep hx hcmp] at h
            exact hacc a da (hc.trans h)
      · rw [bestDepartureStep_skip acc hx] at h
        exact hacc a da h
    obtain ⟨hnone, hsome⟩ := ih (bestDepartureStep preferred endS acc x) hstepinv
    constructor
    · intro h
      obtain ⟨hstepnone, hrest⟩ := hnone h
      by_cases hx : x ≤ endS
      · exfalso
        cases hc : acc with
        | none =>
          rw [hc, bestDepartureStep_first hx] at hstepnone
          exact Option.noConfusion hstepnone
        | some p =>
          obtain ⟨b, bdiff⟩ := p
          by_cases hcmp : |x - preferred| < bdiff
          · rw [hc, bestDepartureStep_improve hx hcmp] at hstepnone
            exact Option.noConfusion hstepnone
          · rw [hc, bestDepartureStep_keep hx hcmp] at hstepnone
            exact Option.noConfusion hstepnone
      · rw [bestDepartureStep_skip acc hx] at hstepnone
        refine ⟨hstepnone, ?_⟩
        intro d hd
        rcases List.mem_cons.mp hd with rfl | hd2
        · exact hx
        · exact hrest d hd2
    · intro d diff h
      obtain ⟨hdiff, hsrc, hmin, hbetter⟩ := hsome d diff h
      refine ⟨hdiff, ?_, ?_, ?_⟩
      · rcases hsrc with hs | ⟨hmem, hle⟩
        · by_cases hx : x ≤ endS
          · cases hc : acc with
            | none =>
              rw [hc, bestDepartureStep_first hx] at hs
              injection hs with h2
              injection h2 with h3 h4
              exact Or.inr ⟨h3 ▸ List.mem_cons_self x rest, h3 ▸ hx⟩
            | some p =>
              obtain ⟨b, bdiff⟩ := p
              by_cases hcmp : |x - preferred| < bdiff
              · rw [hc, bestDepartureStep_improve hx hcmp] at hs
                injection hs with h2
                injection h2 with h3 h4
                exact Or.inr ⟨h3 ▸ List.mem_cons_self x rest, h3 ▸ hx⟩
              · rw [hc, bestDepartureStep_keep hx hcmp] at hs
                exact Or.inl hs
          · rw [bestDepartureStep_skip acc hx] at hs
            exact Or.inl hs
        · exact Or.inr ⟨List.mem_cons_of_mem x hmem, hle⟩
      · intro e he hele
        rcases List.mem_cons.mp he with rfl | he2
        · by_cases hx : e ≤ endS
          · cases hc : acc with
            | none =>
              exact hbetter e |e - preferred| (by rw [hc, bestDepartureStep_first hx])
            | some p =>
              obtain ⟨b, bdiff⟩ := p
              by_cases hcmp : |e - preferred| < bdiff
              · exact hbetter e |e - preferred|
                  (by rw [hc, bestDepartureStep_improve hx hcmp])
              · have hb := hbetter b bdiff (by rw [hc, bestDepartureStep_keep hx hcmp])
                omega
          · exact absurd hele hx
        · exact hmin e he2 hele
      · intro a da ha
        by_cases hx : x ≤ endS
        · by_cases hcmp : |x - preferred| < da
          · have h9 := hbetter x |x - preferred|
              (by rw [ha, bestDepartureStep_improve hx hcmp])
            omega
          · exact hbetter a da (by rw [ha, bestDepartureStep_keep hx hcmp])
        · exact hbetter a da (by rw [ha, bestDepartureStep_skip _ hx])

lemma bestDeparture_spec (preferred endS : ℤ) (deps : List ℤ) :
    (bestDeparture preferred endS deps = none ↔ ∀ d ∈ deps, ¬ d ≤ endS) ∧
    ∀ d, bestDeparture preferred endS deps = some d →
      d ∈ deps ∧ d ≤ endS ∧ ∀ e ∈ deps, e ≤ endS → |d - preferred| ≤ |e - preferred| := by
  obtain ⟨hnone, hsome⟩ := bestDepartureAux_spec preferred endS deps none (by simp)
  constructor
  · constructor
    · intro h
      rw [bestDeparture] at h
      cases hf : deps.foldl (bestDepartureStep preferred endS) none with
      | none => exact (hnone hf).2
      | some p =>
        rw [hf] at h
        obtain ⟨d2, diff⟩ := p
        have h3 : some d2 = none := h
        exact Option.noConfusion h3
    · intro h
      rw [bestDeparture]
      cases hf : deps.foldl (bestDepartureStep preferred endS) none with
      | none => rfl
      | some p =>
        obtain ⟨d2, diff⟩ := p
        obtain ⟨_, hsrc, _, _⟩ := hsome d2 diff hf
        rcases hsrc with hs | ⟨hmem, hle⟩
        · exact Option.noConfusion hs
        · exact absurd hle (h d2 hmem)
  · intro d h
    rw [bestDeparture] at h
    cases hf : deps.foldl (bestDepartureStep preferred endS) none with
    | none => rw [hf] at h; exact Option.noConfusion h
    | some p =>
      obtain ⟨d2, diff⟩ := p
      rw [hf] at h
      have h3 : some d2 = some d := h
      injection h3 with h4
      subst h4
      obtain ⟨hdiff, hsrc, hmin, _⟩ := hsome d2 diff hf
      rcases hsrc with hs | ⟨hmem, hle⟩
      · exact Option.noConfusion hs
      · exact ⟨hmem, hle, fun e he hele => hdiff ▸ hmin e he hele⟩


/-- Claim C9 (amended): find_optimal_departure_time minimizes the absolute
distance to the preferred time over the *first 20* firings strictly after
the window start that lie at or before the window end — not over all firings
inside the window — and returns the absent value exactly when none of those
20 firings lies at or before the window end. -/
theorem claim_C9_optimal_departure_scan (g : Galaxy) (a b : String) (preferred : ℤ)
    (flex : ℕ) (hpos : ∀ r ∈ g.rails, 0 < r.interval_days) :
    (∀ d, find_optimal_departure_time g a b preferred flex = some d →
      ∃ x y rmore first_rail d0,
        g.get_route a b = some (x :: y :: rmore) ∧
        findRail g x y = some first_rail ∧
        IsEarliestFiringAfter first_rail (preferred - 24 * flex) d0 ∧
        d ∈ progList (24 * first_rail.interval_days) 20 d0 ∧
        d ≤ preferred + 24 * flex ∧
        ∀ e ∈ progList (24 * first_rail.interval_days) 20 d0,
          e ≤ preferred + 24 * flex → |d - preferred| ≤ |e - preferred|) ∧
    ∀ x y rmore first_rail, g.get_route a b = some (x :: y :: rmore) →
      findRail g x y = some first_rail →
      (find_optimal_departure_time g a b preferred flex = none ↔
        ∀ e ∈ get_next_departures first_rail (preferred - 24 * flex) 20,
          ¬ e ≤ preferred + 24 * flex) := by
  constructor
  · intro d h
    cases hr : g.get_route a b with
    | none =>
      simp only [find_optimal_departure_time, hr] at h
      exact Option.noConfusion h
    | some route =>
      simp only [find_optimal_departure_time, hr] at h
      match route, h with
      | [], h => exact Option.noConfusion h
      | [x], h => exact Option.noConfusion h
      | x :: y :: rmore, h =>
        cases hfr : findRail g x y with
        | none =>
          simp only [hfr] at h
          exact Option.noConfusion h
        | some rail =>
          simp only [hfr] at h
          obtain ⟨d0, hd0, hprog⟩ := get_next_departures_spec rail (preferred - 24 * flex) 20
            (hpos rail (findRail_mem hfr))
          rw [hprog] at h
          obtain ⟨hmem, hle, hmin⟩ := (bestDeparture_spec preferred (preferred + 24 * flex)
            (progList (24 * rail.interval_days) 20 d0)).2 d h
          exact ⟨x, y, rmore, rail, d0, rfl, hfr, hd0, hmem, hle, hmin⟩
  · intro x y rmore rail hr hfr
    simp only [find_optimal_departure_time, hr, hfr]
    exact (bestDeparture_spec preferred (preferred + 24 * flex)
      (get_next_departures rail (preferred - 24 * flex) 20)).1

/-- Claim C9 (counterexample): with a firing every day from day 0, a
preferred time of day 30 and a 30-day window, the scan caps at the first 20
firings after the window start and returns day 20, although day 30 itself is
a firing strictly inside the window at distance zero from the preferred
time. -/
theorem claim_C9_scan_cap_cex :
    find_optimal_departure_time galaxyC9 "A" "B" (24 * 30) 30 = some (24 * 20) ∧
      isFiring railC9 (24 * 30) ∧
      (24 * 30 : ℤ) - 24 * 30 < 24 * 30 ∧ (24 * 30 : ℤ) ≤ 24 * 30 + 24 * 30 ∧
      |(24 * 30 : ℤ) - 24 * 30| < |(24 * 20 : ℤ) - 24 * 30| := by
  refine ⟨by decide, ⟨30, by decide⟩, by decide, by decide, by decide⟩


/-- Claim C5 (counterexample): querying a route A→B with the cursor exactly
on a firing (time 0 = railC5.next_fire) selects the firing one interval
later (hour 120), not the firing at the cursor — the walk uses strictly
after, not at-or-after. -/
theorem claim_C5_strictly_after_cex :
    find_route_schedule galaxyC5 "A" "B" 0 =
        some [("A", 24 * 5), ("B", 24 * 5 + 1)] ∧
      railC5.next_fire = 0 ∧ isFiring railC5 0 ∧ (0 : ℤ) ≤ 0 := by
  exact ⟨by decide, rfl, ⟨0, by decide⟩, le_refl 0⟩

theorem claim_C5_timed_route_walk_witness :
    (∀ r ∈ galaxyC5.rails, 0 < r.interval_days) ∧
      (find_route_schedule galaxyC5 "B" "A" 0 = none ↔
        galaxyC5.get_route "B" "A" = none ∨
          ∃ route, galaxyC5.get_route "B" "A" = some route ∧
            ∃ p ∈ route.zip route.tail, findRail galaxyC5 p.1 p.2 = none) :=
  ⟨by decide, (claim_C5_timed_route_walk galaxyC5 "B" "A" 0 (by decide)).1⟩

theorem claim_C9_optimal_departure_scan_witness :
    (∀ r ∈ galaxyC9.rails, 0 < r.interval_days) ∧
      (find_optimal_departure_time galaxyC9 "A" "B" 0 7 = none ↔
        ∀ e ∈ get_next_departures railC9 (0 - 24 * 7) 20, ¬ e ≤ 0 + 24 * 7) :=
  ⟨by decide, (claim_C9_optimal_departure_scan galaxyC9 "A" "B" 0 7 (by decide)).2
    "A" "B" [] railC9 (by decide) (by decide)⟩



lemma validRoute_self (g : Galaxy) (a : String) : ValidRoute g a [a] a :=
  ⟨rfl, rfl, List.chain'_singleton a⟩

lemma validRoute_ne_nil {g : Galaxy} {a b : String} {q : List String}
    (h : ValidRoute g a q b) : q ≠ [] := by
  intro he
  rw [he] at h
  exact Option.noConfusion h.1

lemma validRoute_length_pos {g : Galaxy} {a b : String} {q : List String}
    (h : ValidRoute g a q b) : 0 < q.length :=
  List.length_pos.mpr (validRoute_ne_nil h)

lemma validRoute_concat {g : Galaxy} {a v w : String} {p : List String}
    (h : ValidRoute g a p v) (he : hasEdge g v w) : ValidRoute g a (p ++ [w]) w := by
  obtain ⟨h1, h2, h3⟩ := h
  refine ⟨?_, ?_, ?_⟩
  · cases p with
    | nil => exact Option.noConfusion h1
    | cons x xs => simpa using h1
  · simp [List.getLast?_concat]
  · rw [List.chain'_append]
    refine ⟨h3, List.chain'_singleton w, ?_⟩
    intro x hx y hy
    simp only [List.head?_cons, Option.mem_def, Option.some.injEq] at hy
    rw [h2] at hx
    simp only [Option.mem_def, Option.some.injEq] at hx
    subst hx hy
    exact he

lemma validRoute_one {g : Galaxy} {a m : String} {q : List String}
    (h : ValidRoute g a q m) (hlen : q.length = 1) : m = a := by
  obtain ⟨x, rfl⟩ : ∃ x, q = [x] := by
    cases q with
    | nil => simp at hlen
    | cons x xs =>
      cases xs with
      | nil => exact ⟨x, rfl⟩
      | cons y ys => simp at hlen
  obtain ⟨h1, h2, _⟩ := h
  simp only [List.head?_cons, Option.some.injEq] at h1
  simp only [List.getLast?_singleton, Option.some.injEq] at h2
  exact h2.symm.trans h1

lemma head?_dropLast_of_two_le {q : List String} (h : 2 ≤ q.length) :
    q.dropLast.head? = q.head? := by
  match q, h with
  | x :: y :: ys, _ => simp

lemma validRoute_decomp {g : Galaxy} {a m : String} {q : List String}
    (h : ValidRoute g a q m) (hlen : 2 ≤ q.length) :
    ∃ q' v, q = q' ++ [m] ∧ ValidRoute g a q' v ∧ hasEdge g v m := by
  obtain ⟨h1, h2, h3⟩ := h
  have hne : q ≠ [] := by
    intro he
    rw [he] at h1
    exact Option.noConfusion h1
  have hq : q = q.dropLast ++ [q.getLast hne] := (List.dropLast_append_getLast hne).symm
  have hm : q.getLast hne = m := by
    have := List.getLast?_eq_getLast q hne
    rw [h2] at this
    exact (Option.some.injEq .. ▸ this).symm
  have hdne : q.dropLast ≠ [] := by
    intro he
    have := congrArg List.length hq
    rw [he] at this
    simp at this
    omega
  refine ⟨q.dropLast, q.dropLast.getLast hdne, by rw [← hm]; exact hq, ⟨?_, ?_, ?_⟩, ?_⟩
  · rw [head?_dropLast_of_two_le hlen]
    exact h1
  · exact List.getLast?_eq_getLast _ hdne
  · -- chain on the prefix
    rw [hq] at h3
    exact (List.chain'_append.mp h3).1
  · -- the final edge
    rw [hq] at h3
    obtain ⟨_, _, hrel⟩ := List.chain'_append.mp h3
    have := hrel (q.dropLast.getLast hdne) (List.getLast?_eq_getLast _ hdne) (q.getLast hne)
      (by simp)
    rw [hm] at this
    exact this

lemma scanRails_found_spec (cur target : String) (path : List String) :
    ∀ (rails : List Rail) (visited : List String) (adds : List (String × List String))
      (p : List String),
      (scanRails cur target path rails visited adds).1 = some p →
      p = path ++ [target] ∧ ∃ r ∈ rails, r.from_system = cur ∧ r.to_system = target := by
  intro rails
  induction rails with
  | nil => intro visited adds p h; exact absurd h (by simp [scanRails])
  | cons r rest ih =>
    intro visited adds p h
    rw [scanRails] at h
    by_cases h1 : r.from_system = cur
    · rw [if_pos h1] at h
      by_cases h2 : r.to_system = target
      · rw [if_pos h2] at h
        have h3 : some (path ++ [r.to_system]) = some p := h
        injection h3 with h4
        rw [← h4, h2]
        exact ⟨rfl, r, List.mem_cons_self r rest, h1, h2⟩
      · rw [if_neg h2] at h
        by_cases h3 : r.to_system ∈ visited
        · rw [if_pos h3] at h
          obtain ⟨hp, r2, hr2, hf, ht⟩ := ih _ _ _ h
          exact ⟨hp, r2, List.mem_cons_of_mem r hr2, hf, ht⟩
        · rw [if_neg h3] at h
          obtain ⟨hp, r2, hr2, hf, ht⟩ := ih _ _ _ h
          exact ⟨hp, r2, List.mem_cons_of_mem r hr2, hf, ht⟩
    · rw [if_neg h1] at h
      obtain ⟨hp, r2, hr2, hf, ht⟩ := ih _ _ _ h
      exact ⟨hp, r2, List.mem_cons_of_mem r hr2, hf, ht⟩

lemma scanRails_none_decomp (cur target : String) (path : List String) :
    ∀ (rails : List Rail) (visited : List String) (adds : List (String × List String)),
      (scanRails cur target path rails visited adds).1 = none →
      ∃ news : List String,
        (scanRails cur target path rails visited adds).2.2 =
            adds ++ news.map (fun w => (w, path ++ [w])) ∧
        (∀ x, x ∈ (scanRails cur target path rails visited adds).2.1 ↔
          x ∈ news ∨ x ∈ visited) ∧
        news.Nodup ∧
        (∀ w ∈ news, w ∉ visited ∧ w ≠ target ∧
          ∃ r ∈ rails, r.from_system = cur ∧ r.to_system = w) ∧
        (∀ r ∈ rails, r.from_system = cur →
          r.to_system ≠ target ∧ (r.to_system ∈ visited ∨ r.to_system ∈ news)) := by
  intro rails
  induction rails with
  | nil =>
    intro visited adds _
    refine ⟨[], by simp [scanRails], by simp [scanRails], List.nodup_nil, by simp, by simp⟩
  | cons r rest ih =>
    intro visited adds h
    rw [scanRails] at h
    rw [scanRails]
    by_cases h1 : r.from_system = cur
    · rw [if_pos h1] at h ⊢
      by_cases h2 : r.to_system = target
      · rw [if_pos h2] at h
        exact absurd h (by simp)
      · rw [if_neg h2] at h ⊢
        by_cases h3 : r.to_system ∈ visited
        · rw [if_pos h3] at h ⊢
          obtain ⟨news, ha, hv, hn, hw, hr⟩ := ih visited adds h
          refine ⟨news, ha, hv, hn, ?_, ?_⟩
          · intro w hmem
            obtain ⟨hnv, hnt, r2, hr2, hf2, ht2⟩ := hw w hmem
            exact ⟨hnv, hnt, r2, List.mem_cons_of_mem r hr2, hf2, ht2⟩
          intro r2 hr2 hf
          rcases List.mem_cons.mp hr2 with rfl | hr3
          · exact ⟨h2, Or.inl h3⟩
          · exact hr r2 hr3 hf
        · rw [if_neg h3] at h ⊢
          obtain ⟨news, ha, hv, hn, hw, hr⟩ :=
            ih (r.to_system :: visited) (adds ++ [(r.to_system, path ++ [r.to_system])]) h
          refine ⟨r.to_system :: news, ?_, ?_, ?_, ?_, ?_⟩
          · rw [ha]
            simp
          · intro x
            rw [hv x]
            simp only [List.mem_cons]
            tauto
          · refine List.nodup_cons.mpr ⟨?_, hn⟩
            intro hmem
            exact (hw _ hmem).1 (List.mem_cons_self _ _)
          · intro w hmem
            rcases List.mem_cons.mp hmem with rfl | hmem2
            · exact ⟨h3, h2, r, List.mem_cons_self r rest, h1, rfl⟩
            · obtain ⟨hnv, hnt, r2, hr2, hf, ht⟩ := hw w hmem2
              exact ⟨fun hc => hnv (List.mem_cons_of_mem _ hc), hnt,
                r2, List.mem_cons_of_mem r hr2, hf, ht⟩
          · intro r2 hr2 hf
            rcases List.mem_cons.mp hr2 with rfl | hr3
            · exact ⟨h2, Or.inr (List.mem_cons_self _ _)⟩
            · obtain ⟨hnt, hor⟩ := hr r2 hr3 hf
              refine ⟨hnt, ?_⟩
              rcases hor with hor | hor
              · rcases List.mem_cons.mp hor with heq | hor2
                · exact Or.inr (by rw [heq]; exact List.mem_cons_self _ _)
                · exact Or.inl hor2
              · exact Or.inr (List.mem_cons_of_mem _ hor)
    · rw [if_neg h1] at h ⊢
      obtain ⟨news, ha, hv, hn, hw, hr⟩ := ih visited adds h
      refine ⟨news, ha, hv, hn, ?_, ?_⟩
      · intro w hmem
        obtain ⟨hnv, hnt, r2, hr2, hf, ht⟩ := hw w hmem
        exact ⟨hnv, hnt, r2, List.mem_cons_of_mem r hr2, hf, ht⟩
      · intro r2 hr2 hf
        rcases List.mem_cons.mp hr2 with rfl | hr3
        · exact absurd hf h1
        · exact hr r2 hr3 hf

lemma bfs_cut {g : Galaxy} {a b : String} {visited : List String}
    {queue : List (String × List String)} (inv : BfsInv g a b visited queue) :
    ∀ (n : ℕ) (q : List String) (m : String), q.length ≤ n →
      ValidRoute g a q m → m ∉ visited →
      ∀ h t, queue = h :: t → h.2.length + 1 ≤ q.length := by
  intro n
  induction n with
  | zero =>
    intro q m hlen hq _ _ _ _
    have := validRoute_length_pos hq
    omega
  | succ n ih =>
    intro q m hlen hq hm h t hqueue
    by_cases hone : q.length = 1
    · exfalso
      have := validRoute_one hq hone
      rw [this] at hm
      exact hm inv.start_mem
    · have hlen2 : 2 ≤ q.length := by
        have := validRoute_length_pos hq
        omega
      obtain ⟨q', v, hdec, hq', hedge⟩ := validRoute_decomp hq hlen2
      have hqlen : q.length = q'.length + 1 := by rw [hdec]; simp
      by_cases hv : v ∈ visited
      · by_cases hvq : ∃ e ∈ queue, e.1 = v
        · obtain ⟨e, he, hev⟩ := hvq
          have h5 := inv.path_min e he q' (hev ▸ hq')
          have h6 : h.2.length ≤ e.2.length := by
            rw [hqueue] at he
            rcases List.mem_cons.mp he with rfl | he2
            · exact le_refl _
            · have := inv.len_pairwise
              rw [hqueue] at this
              exact (List.pairwise_cons.mp this).1 e he2
          omega
        · obtain ⟨r, hr, hf, ht2⟩ := hedge
          have := (inv.closed v hv (fun e he => by
            intro hev
            exact hvq ⟨e, he, hev⟩) r hr hf).2
          rw [ht2] at this
          exact absurd this hm
      · have := ih q' v (by omega) hq' hv h t hqueue
        omega

lemma bfs_exhausted {g : Galaxy} {a b : String} {visited : List String}
    (hab : a ≠ b) (inv : BfsInv g a b visited []) :
    ¬ ∃ q, ValidRoute g a q b := by
  have hall : ∀ (n : ℕ) (q : List String) (m : String), q.length ≤ n →
      ValidRoute g a q m → m ∈ visited ∧ m ≠ b := by
    intro n
    induction n with
    | zero =>
      intro q m hlen hq
      have := validRoute_length_pos hq
      omega
    | succ n ih =>
      intro q m hlen hq
      by_cases hone : q.length = 1
      · rw [validRoute_one hq hone]
        exact ⟨inv.start_mem, hab⟩
      · have hlen2 : 2 ≤ q.length := by
          have := validRoute_length_pos hq
          omega
        obtain ⟨q', v, hdec, hq', hedge⟩ := validRoute_decomp hq hlen2
        have hqlen : q.length = q'.length + 1 := by rw [hdec]; simp
        obtain ⟨hvvis, _⟩ := ih q' v (by omega) hq'
        obtain ⟨r, hr, hf, ht2⟩ := hedge
        have h7 := inv.closed v hvvis (by simp) r hr hf
        rw [ht2] at h7
        exact ⟨h7.2, h7.1⟩
  rintro ⟨q, hq⟩
  exact (hall q.length q b (le_refl _) hq).2 rfl

lemma bfsInv_step {g : Galaxy} {a b cur : String} {path : List String}
    {visited visited2 : List String} {rest adds : List (String × List String)}
    (inv : BfsInv g a b visited ((cur, path) :: rest))
    (hscan : scanRails cur b path g.rails visited [] = (none, visited2, adds)) :
    BfsInv g a b visited2 (rest ++ adds) := by
  have h1 : (scanRails cur b path g.rails visited []).1 = none := by rw [hscan]
  obtain ⟨news, ha, hv, hn, hw, hcl⟩ := scanRails_none_decomp cur b path g.rails visited [] h1
  rw [hscan] at ha hv
  simp only [List.nil_append] at ha
  simp only at hv
  have hpv : ValidRoute g a path cur := inv.path_valid (cur, path) (List.mem_cons_self _ _)
  have hplen : ∀ e ∈ adds, e.2.length = path.length + 1 ∧ e.1 ∈ news := by
    intro e he
    rw [ha] at he
    obtain ⟨w, hwn, he2⟩ := List.mem_map.mp he
    rw [← he2]
    exact ⟨by simp, hwn⟩
  have hcut : ∀ w ∈ news, ∀ q, ValidRoute g a q w → path.length + 1 ≤ q.length := by
    intro w hwn q hq
    have h2 := bfs_cut inv q.length q w (le_refl _) hq (hw w hwn).1 (cur, path) rest rfl
    exact h2
  refine ⟨?_, ?_, ?_, ?_, ?_, ?_, ?_, ?_⟩
  · exact (hv a).mpr (Or.inr inv.start_mem)
  · intro hb
    rcases (hv b).mp hb with hb2 | hb2
    · exact (hw b hb2).2.1 rfl
    · exact inv.target_notin hb2
  · intro e he
    rcases List.mem_append.mp he with he2 | he2
    · exact (hv e.1).mpr (Or.inr (inv.queue_vis e (List.mem_cons_of_mem _ he2)))
    · exact (hv e.1).mpr (Or.inl (hplen e he2).2)
  · intro e he
    rcases List.mem_append.mp he with he2 | he2
    · exact inv.path_valid e (List.mem_cons_of_mem _ he2)
    · rw [ha] at he2
      obtain ⟨w, hwn, he3⟩ := List.mem_map.mp he2
      rw [← he3]
      obtain ⟨hw1, hw2, r, hr, hf, ht⟩ := hw w hwn
      exact validRoute_concat hpv ⟨r, hr, hf, ht⟩
  · intro e he q hq
    rcases List.mem_append.mp he with he2 | he2
    · exact inv.path_min e (List.mem_cons_of_mem _ he2) q hq
    · rw [ha] at he2
      obtain ⟨w, hwn, he3⟩ := List.mem_map.mp he2
      rw [← he3] at hq ⊢
      have h2 := hcut w hwn q hq
      simpa using h2
  · rw [List.pairwise_append]
    refine ⟨List.Pairwise.of_cons inv.len_pairwise, ?_, ?_⟩
    · rw [ha]
      refine List.pairwise_map.mpr ?_
      exact hn.imp (fun _ => by simp)
    · intro e he f hf
      have h2 : e.2.length ≤ path.length + 1 :=
        inv.head_bound (cur, path) rest rfl e (List.mem_cons_of_mem _ he)
      have h3 := (hplen f hf).1
      omega
  · intro h tl hq e he
    cases hrest : rest with
    | nil =>
      subst hrest
      simp only [List.nil_append] at hq he
      have hh : h ∈ adds := by rw [hq]; exact List.mem_cons_self _ _
      have h2 := (hplen e he).1
      have h3 := (hplen h hh).1
      omega
    | cons h2 t2 =>
      subst hrest
      simp only [List.cons_append, List.cons.injEq] at hq
      obtain ⟨hh, -⟩ := hq
      rw [← hh]
      have hple : path.length ≤ h2.2.length :=
        (List.pairwise_cons.mp inv.len_pairwise).1 h2 (List.mem_cons_self _ _)
      rcases List.mem_append.mp he with he2 | he2
      · have h4 : e.2.length ≤ path.length + 1 :=
          inv.head_bound (cur, path) (h2 :: t2) rfl e (List.mem_cons_of_mem _ he2)
        omega
      · have h4 := (hplen e he2).1
        omega
  · intro v hvv hnot r hr hf
    rcases (hv v).mp hvv with hvn | hvo
    · exfalso
      have hmem : (v, path ++ [v]) ∈ adds := by
        rw [ha]; exact List.mem_map.mpr ⟨v, hvn, rfl⟩
      exact hnot (v, path ++ [v]) (List.mem_append.mpr (Or.inr hmem)) rfl
    · by_cases hvc : v = cur
      · subst hvc
        obtain ⟨hnt, hor⟩ := hcl r hr hf
        refine ⟨hnt, ?_⟩
        rcases hor with h | h
        · exact (hv _).mpr (Or.inr h)
        · exact (hv _).mpr (Or.inl h)
      · have hhyp : ∀ e ∈ (cur, path) :: rest, e.1 ≠ v := by
          intro e he
          rcases List.mem_cons.mp he with he2 | he2
          · rw [he2]; exact fun hc => hvc hc.symm
          · exact hnot e (List.mem_append.mpr (Or.inl he2))
        have h5 := inv.closed v hvo hhyp r hr hf
        exact ⟨h5.1, (hv _).mpr (Or.inr h5.2)⟩

lemma bfsInv_found {g : Galaxy} {a b cur : String} {path route : List String}
    {visited : List String} {rest : List (String × List String)}
    (inv : BfsInv g a b visited ((cur, path) :: rest))
    (hscan : (scanRails cur b path g.rails visited []).1 = some route) :
    ValidRoute g a route b ∧ ∀ q, ValidRoute g a q b → route.length ≤ q.length := by
  obtain ⟨hroute, r, hr, hf, ht⟩ := scanRails_found_spec cur b path g.rails visited [] route hscan
  have hpv : ValidRoute g a path cur := inv.path_valid (cur, path) (List.mem_cons_self _ _)
  subst hroute
  constructor
  · exact validRoute_concat hpv ⟨r, hr, hf, ht⟩
  · intro q hq
    have h2 : path.length + 1 ≤ q.length :=
      bfs_cut inv q.length q b (le_refl _) hq inv.target_notin (cur, path) rest rfl
    simpa using h2

lemma bfsLoop_spec {g : Galaxy} {a b : String} :
    ∀ (fuel : ℕ) (visited : List String) (queue : List (String × List String)),
      BfsInv g a b visited queue →
      (∀ p, bfsLoop g.rails b fuel visited queue = some (some p) →
        ValidRoute g a p b ∧ ∀ q, ValidRoute g a q b → p.length ≤ q.length) ∧
      (bfsLoop g.rails b fuel visited queue = some none →
        ¬ ∃ q, ValidRoute g a q b) := by
  intro fuel
  induction fuel with
  | zero =>
    intro visited queue _
    constructor
    · intro p h; exact absurd h (by simp [bfsLoop])
    · intro h; exact absurd h (by simp [bfsLoop])
  | succ n ih =>
    intro visited queue inv
    cases queue with
    | nil =>
      constructor
      · intro p h
        rw [bfsLoop] at h
        have h3 : (some (none : Option (List String))) = some (some p) := h
        injection h3 with h4
        exact Option.noConfusion h4
      · intro _
        have hab : a ≠ b := fun he => inv.target_notin (he ▸ inv.start_mem)
        exact bfs_exhausted hab inv
    | cons e rest =>
      obtain ⟨cur, path⟩ := e
      constructor
      · intro p h
        rw [bfsLoop] at h
        cases hscan : scanRails cur b path g.rails visited [] with
        | mk found va =>
          obtain ⟨visited2, adds⟩ := va
          rw [hscan] at h
          cases found with
          | some route =>
            have h3 : some (some route) = some (some p) := h
            injection h3 with h4
            injection h4 with h5
            subst h5
            exact bfsInv_found inv (by rw [hscan])
          | none =>
            exact (ih visited2 (rest ++ adds) (bfsInv_step inv hscan)).1 p h
      · intro h
        rw [bfsLoop] at h
        cases hscan : scanRails cur b path g.rails visited [] with
        | mk found va =>
          obtain ⟨visited2, adds⟩ := va
          rw [hscan] at h
          cases found with
          | some route =>
            have h3 : some (some route) = some (none : Option (List String)) := h
            injection h3 with h4
            exact Option.noConfusion h4
          | none =>
            exact (ih visited2 (rest ++ adds) (bfsInv_step inv hscan)).2 h

lemma sdiff_card_step {T : Finset String} {news visited visited2 : List String}
    (hnd : news.Nodup)
    (hsub : ∀ w ∈ news, w ∈ T ∧ w ∉ visited)
    (hv : ∀ x, x ∈ visited2 ↔ x ∈ news ∨ x ∈ visited) :
    news.length + (T \ visited2.toFinset).card = (T \ visited.toFinset).card := by
  have hNV : visited2.toFinset = news.toFinset ∪ visited.toFinset := by
    ext x
    simp only [List.mem_toFinset, Finset.mem_union]
    exact hv x
  have hsd : T \ visited2.toFinset = (T \ visited.toFinset) \ news.toFinset := by
    rw [hNV]
    ext x
    simp only [Finset.mem_sdiff, Finset.mem_union]
    tauto
  have hsubN : news.toFinset ⊆ T \ visited.toFinset := by
    intro x hx
    rw [List.mem_toFinset] at hx
    refine Finset.mem_sdiff.mpr ⟨(hsub x hx).1, ?_⟩
    rw [List.mem_toFinset]
    exact (hsub x hx).2
  have hcard := Finset.card_sdiff_add_card_eq_card hsubN
  have hlen : news.toFinset.card = news.length := List.toFinset_card_of_nodup hnd
  rw [hsd]
  omega

lemma bfsLoop_no_fuel_out (rails : List Rail) (target : String) :
    ∀ (fuel : ℕ) (visited : List String) (queue : List (String × List String)),
      bfsPhi rails visited queue < fuel →
      bfsLoop rails target fuel visited queue ≠ none := by
  intro fuel
  induction fuel with
  | zero =>
    intro visited queue h
    exact absurd h (Nat.not_lt_zero _)
  | succ n ih =>
    intro visited queue hphi
    cases queue with
    | nil =>
      rw [bfsLoop]
      exact fun h => Option.noConfusion h
    | cons e rest =>
      obtain ⟨cur, path⟩ := e
      rw [bfsLoop]
      cases hscan : scanRails cur target path rails visited [] with
      | mk found va =>
        obtain ⟨visited2, adds⟩ := va
        cases found with
        | some route => exact fun h => Option.noConfusion h
        | none =>
          show bfsLoop rails target n visited2 (rest ++ adds) ≠ none
          apply ih
          have h1 : (scanRails cur target path rails visited []).1 = none := by
            rw [hscan]
          obtain ⟨news, ha, hvv, hn, hw, hcl⟩ :=
            scanRails_none_decomp cur target path rails visited [] h1
          rw [hscan] at ha hvv
          simp only [List.nil_append] at ha
          simp only at hvv
          have hsub : ∀ w ∈ news,
              w ∈ (rails.map Rail.to_system).toFinset ∧ w ∉ visited := by
            intro w hwn
            obtain ⟨hnv, hnt, r, hr, hf, ht⟩ := hw w hwn
            exact ⟨List.mem_toFinset.mpr (List.mem_map.mpr ⟨r, hr, ht⟩), hnv⟩
          have hcard := sdiff_card_step hn hsub hvv
          have hlen : adds.length = news.length := by rw [ha]; simp
          simp only [bfsPhi, List.length_cons, List.length_append] at hphi ⊢
          omega

lemma bfsInv_init {g : Galaxy} {a b : String} (hab : a ≠ b) :
    BfsInv g a b [a] [(a, [a])] := by
  refine ⟨List.mem_singleton.mpr rfl, ?_, ?_, ?_, ?_, ?_, ?_, ?_⟩
  · intro hb
    exact hab (List.mem_singleton.mp hb).symm
  · intro e he
    rw [List.mem_singleton.mp he]
    exact List.mem_singleton.mpr rfl
  · intro e he
    rw [List.mem_singleton.mp he]
    exact validRoute_self g a
  · intro e he q hq
    rw [List.mem_singleton.mp he]
    show 1 ≤ q.length
    exact validRoute_length_pos hq
  · simp
  · intro h tl hq e he
    have hh : (a, [a]) = h := ((List.cons.injEq _ _ _ _).mp hq).1
    rw [List.mem_singleton.mp he, ← hh]
    simp
  · intro v hvv hnot r hr hf
    exfalso
    rw [List.mem_singleton.mp hvv] at hnot
    exact hnot (a, [a]) (List.mem_singleton.mpr rfl) rfl

/-- Claim C6: Galaxy.get_route is a correct breadth-first shortest-route
search: every returned route is a valid directed hop path from source to
destination of minimal length among all such paths, and the absent value is
returned exactly when no valid hop path exists. -/
theorem claim_C6_get_route_bfs (g : Galaxy) (a b : String) :
    (∀ p, g.get_route a b = some p →
      ValidRoute g a p b ∧ ∀ q, ValidRoute g a q b → p.length ≤ q.length) ∧
    (g.get_route a b = none ↔ ¬ ∃ q, ValidRoute g a q b) := by
  by_cases hab : a = b
  · subst hab
    constructor
    · intro p hp
      rw [Galaxy.get_route, if_pos rfl] at hp
      injection hp with h2
      subst h2
      refine ⟨validRoute_self g a, ?_⟩
      intro q hq
      show 1 ≤ q.length
      exact validRoute_length_pos hq
    · constructor
      · intro h
        rw [Galaxy.get_route, if_pos rfl] at h
        exact Option.noConfusion h
      · intro h
        exact absurd ⟨[a], validRoute_self g a⟩ h
  · have hfuel : bfsLoop g.rails b (g.rails.length + 2) [a] [(a, [a])] ≠ none := by
      apply bfsLoop_no_fuel_out
      have h1 : ((g.rails.map Rail.to_system).toFinset \ [a].toFinset).card ≤
          (g.rails.map Rail.to_system).toFinset.card :=
        Finset.card_le_card (by intro x hx; exact (Finset.mem_sdiff.mp hx).1)
      have h2 : (g.rails.map Rail.to_system).toFinset.card ≤
          (g.rails.map Rail.to_system).length :=
        List.toFinset_card_le _
      simp only [List.length_map] at h2
      simp only [bfsPhi, List.length_singleton]
      omega
    have hinv : BfsInv g a b [a] [(a, [a])] := bfsInv_init hab
    have hspec := bfsLoop_spec (g.rails.length + 2) [a] [(a, [a])] hinv
    constructor
    · intro p hp
      rw [Galaxy.get_route, if_neg hab] at hp
      cases hb : bfsLoop g.rails b (g.rails.length + 2) [a] [(a, [a])] with
      | none => exact absurd hb hfuel
      | some r =>
        rw [hb] at hp
        have hp2 : r = some p := hp
        rw [hp2] at hb
        exact hspec.1 p hb
    · constructor
      · intro h
        rw [Galaxy.get_route, if_neg hab] at h
        cases hb : bfsLoop g.rails b (g.rails.length + 2) [a] [(a, [a])] with
        | none => exact absurd hb hfuel
        | some r =>
          rw [hb] at h
          have h2 : r = none := h
          rw [h2] at hb
          exact hspec.2 hb
      · intro hno
        rw [Galaxy.get_route, if_neg hab]
        cases hb : bfsLoop g.rails b (g.rails.length + 2) [a] [(a, [a])] with
        | none => exact absurd hb hfuel
        | some r =>
          cases r with
          | none => rfl
          | some p =>
            exact absurd ⟨p, (hspec.1 p hb).1⟩ hno

lemma lookup_cons_self (k : String) (n : ℕ) (m : List (String × ℕ)) :
    ((k, n) :: m).lookup k = some n := by
  simp [List.lookup]

lemma lookup_cons_ne {k2 k : String} (n : ℕ) (m : List (String × ℕ)) (h : k2 ≠ k) :
    ((k, n) :: m).lookup k2 = m.lookup k2 := by
  simp [List.lookup, beq_false_of_ne h]

lemma lookup_isSome_mem (m : List (String × ℕ)) (k : String) :
    (m.lookup k).isSome ↔ k ∈ m.map Prod.fst := by
  induction m with
  | nil => simp [List.lookup]
  | cons e rest ih =>
    obtain ⟨k2, n⟩ := e
    by_cases h : k = k2
    · subst h
      simp [lookup_cons_self]
    · rw [lookup_cons_ne n rest h]
      simp only [List.map_cons, List.mem_cons]
      rw [ih]
      constructor
      · exact Or.inr
      · intro h2
        rcases h2 with h2 | h2
        · exact absurd h2 h
        · exact h2

lemma eraseDups_loop_mem (l : List String) :
    ∀ (acc : List String) (x : String),
      x ∈ List.eraseDups.loop l acc ↔ x ∈ l ∨ x ∈ acc := by
  induction l with
  | nil =>
    intro acc x
    simp [List.eraseDups.loop]
  | cons a as ih =>
    intro acc x
    rw [List.eraseDups.loop]
    cases h : acc.elem a with
    | true =>
      simp only []
      rw [ih]
      have ha : a ∈ acc := List.elem_iff.mp h
      simp only [List.mem_cons]
      constructor
      · intro h2
        rcases h2 with h2 | h2
        · exact Or.inl (Or.inr h2)
        · exact Or.inr h2
      · intro h2
        rcases h2 with (h2 | h2) | h2
        · exact Or.inr (h2 ▸ ha)
        · exact Or.inl h2
        · exact Or.inr h2
    | false =>
      simp only []
      rw [ih]
      simp only [List.mem_cons]
      tauto

lemma eraseDups_loop_nodup (l : List String) :
    ∀ (acc : List String), acc.Nodup → (List.eraseDups.loop l acc).Nodup := by
  induction l with
  | nil =>
    intro acc hacc
    rw [List.eraseDups.loop]
    exact List.nodup_reverse.mpr hacc
  | cons a as ih =>
    intro acc hacc
    rw [List.eraseDups.loop]
    cases h : acc.elem a with
    | true => exact ih acc hacc
    | false =>
      refine ih (a :: acc) (List.nodup_cons.mpr ⟨?_, hacc⟩)
      intro hmem
      rw [← List.elem_iff] at hmem
      rw [h] at hmem
      exact Bool.noConfusion hmem

lemma mem_eraseDups {l : List String} {x : String} : x ∈ l.eraseDups ↔ x ∈ l := by
  rw [List.eraseDups, eraseDups_loop_mem]
  simp

lemma nodup_eraseDups (l : List String) : l.eraseDups.Nodup := by
  rw [List.eraseDups]
  exact eraseDups_loop_nodup l [] List.nodup_nil

lemma reachIn_refl (edges : List (String × String)) (u : String) : ReachIn edges u u :=
  Relation.ReflTransGen.refl

lemma reachIn_single {edges : List (String × String)} {u w : String}
    (h : EdgeIn edges u w) : ReachIn edges u w :=
  Relation.ReflTransGen.single h

lemma reachIn_trans {edges : List (String × String)} {u w z : String}
    (h1 : ReachIn edges u w) (h2 : ReachIn edges w z) : ReachIn edges u z :=
  Relation.ReflTransGen.trans h1 h2

lemma mutReach_refl (edges : List (String × String)) (u : String) : MutReach edges u u :=
  ⟨reachIn_refl edges u, reachIn_refl edges u⟩

lemma mutReach_symm {edges : List (String × String)} {u w : String}
    (h : MutReach edges u w) : MutReach edges w u :=
  ⟨h.2, h.1⟩

lemma mutReach_trans {edges : List (String × String)} {u w z : String}
    (h1 : MutReach edges u w) (h2 : MutReach edges w z) : MutReach edges u z :=
  ⟨reachIn_trans h1.1 h2.1, reachIn_trans h2.2 h1.2⟩

lemma adjacency_mem {edges : List (String × String)} {v w : String} :
    w ∈ adjacency edges v ↔ EdgeIn edges v w := by
  simp only [adjacency, List.mem_map, List.mem_filter, EdgeIn]
  constructor
  · rintro ⟨⟨a, b⟩, ⟨hmem, hfst⟩, hsnd⟩
    simp only [decide_eq_true_eq] at hfst
    rw [← hsnd]
    rw [hfst] at hmem
    exact hmem
  · intro h
    exact ⟨(v, w), ⟨h, by simp⟩, rfl⟩

lemma edge_fst_mem {edges : List (String × String)} {u w : String}
    (h : EdgeIn edges u w) : u ∈ edgeNodes edges := by
  rw [edgeNodes, mem_eraseDups]
  exact List.mem_flatMap.mpr ⟨(u, w), h, by simp⟩

lemma edge_snd_mem {edges : List (String × String)} {u w : String}
    (h : EdgeIn edges u w) : w ∈ edgeNodes edges := by
  rw [edgeNodes, mem_eraseDups]
  exact List.mem_flatMap.mpr ⟨(u, w), h, by simp⟩

lemma edgeNodes_nodup (edges : List (String × String)) : (edgeNodes edges).Nodup :=
  nodup_eraseDups _

lemma TarjanInv.index_le_nodes {edges : List (String × String)} {st : TarjanSt}
    (inv : TarjanInv edges st) : st.index ≤ (edgeNodes edges).length := by
  rw [inv.index_count, ← List.length_map st.indices Prod.fst]
  calc (st.indices.map Prod.fst).length
      = (st.indices.map Prod.fst).toFinset.card :=
        (List.toFinset_card_of_nodup inv.keys_nodup).symm
    _ ≤ (edgeNodes edges).toFinset.card := by
        refine Finset.card_le_card ?_
        intro x hx
        rw [List.mem_toFinset] at hx ⊢
        exact inv.dom_nodes x ((lookup_isSome_mem _ _).mpr hx)
    _ ≤ (edgeNodes edges).length := List.toFinset_card_le _

lemma tail_reaches_v {edges : List (String × String)} {st : TarjanSt}
    {base tail : List String} {v : String}
    (inv : TarjanInv edges st) (hdec : st.stack = base ++ v :: tail)
    (hlow : ∀ u ∈ tail, st.lowOf u < st.idxOf u) :
    ∀ u ∈ tail, ReachIn edges u v := by
  have main : ∀ n u, u ∈ tail → st.idxOf u = n → ReachIn edges u v := by
    intro n
    induction n using Nat.strong_induction_on with
    | _ n ih =>
      intro u hu hn
      obtain ⟨w, hw, hwidx, hwreach⟩ := inv.low_witness u
        (by rw [hdec]; exact List.mem_append.mpr (Or.inr (List.mem_cons_of_mem _ hu)))
      have hlowu := hlow u hu
      rw [hdec] at hw
      rcases List.mem_append.mp hw with hwb | hwvt
      · have hreach : ReachIn edges w v := by
          have hp := inv.stack_reach
          rw [hdec] at hp
          exact (List.pairwise_append.mp hp).2.2 w hwb v (List.mem_cons_self _ _)
        exact reachIn_trans hwreach hreach
      · rcases List.mem_cons.mp hwvt with rfl | hwt
        · exact hwreach
        · have h2 : st.idxOf w < n := by rw [hwidx, ← hn]; exact hlowu
          exact reachIn_trans hwreach (ih _ h2 w hwt rfl)
  intro u hu
  exact main (st.idxOf u) u hu rfl

lemma reach_stays {edges : List (String × String)} {T C : String → Prop}
    (hT : ∀ u, T u → ∀ w, EdgeIn edges u w → T w ∨ C w)
    (hC : ∀ u, C u → ∀ w, EdgeIn edges u w → C w)
    {x y : String} (hx : T x ∨ C x) (hreach : ReachIn edges x y) : T y ∨ C y := by
  induction hreach with
  | refl => exact hx
  | tail hr he ih =>
    rcases ih with h | h
    · exact hT _ h _ he
    · exact Or.inr (hC _ h _ he)

lemma popUntil_spec (v : String) :
    ∀ (l rest : List String), v ∉ l →
      popUntil v (l ++ v :: rest) = (l ++ [v], rest) := by
  intro l
  induction l with
  | nil => intro rest _; simp [popUntil]
  | cons a as ih =>
    intro rest hv
    have ha : ¬ (a = v) := fun h => hv (h ▸ List.mem_cons_self _ _)
    rw [List.cons_append, popUntil, if_neg ha, ih rest (fun h => hv (List.mem_cons_of_mem _ h))]
    rfl

lemma closeRoot_eq {v : String} {st : TarjanSt} {base tail : List String}
    (hdec : st.stack = base ++ v :: tail) (hv : v ∉ tail) :
    closeRoot v st = { st with
      stack := base
      on_stack := st.on_stack.filter (fun w => w ∉ tail.reverse ++ [v])
      sccs := if 1 < (tail.reverse ++ [v]).length then st.sccs ++ [tail.reverse ++ [v]]
        else st.sccs } := by
  rw [closeRoot, hdec]
  have h1 : (base ++ v :: tail).reverse = tail.reverse ++ v :: base.reverse := by
    simp
  rw [h1, popUntil_spec v tail.reverse base.reverse (by simpa using hv)]
  simp

lemma mem_scc_iff {v : String} {tail : List String} {x : String} :
    x ∈ tail.reverse ++ [v] ↔ x ∈ v :: tail := by
  simp [List.mem_cons, or_comm]

lemma lookupD_cons_self (k : String) (n : ℕ) (m : List (String × ℕ)) :
    lookupD ((k, n) :: m) k = n := by
  simp [lookupD, lookup_cons_self]

lemma lookupD_cons_ne {k2 k : String} (n : ℕ) (m : List (String × ℕ)) (h : k2 ≠ k) :
    lookupD ((k, n) :: m) k2 = lookupD m k2 := by
  simp [lookupD, lookup_cons_ne n m h]

lemma indexed_of_lookup {st : TarjanSt} {u : String} {n : ℕ}
    (h : st.indices.lookup u = some n) : st.indexed u := by
  simp [TarjanSt.indexed, h]

lemma idxOf_eq_of_lookup {st : TarjanSt} {u : String} {n : ℕ}
    (h : st.indices.lookup u = some n) : st.idxOf u = n := by
  simp [TarjanSt.idxOf, lookupD, h]

lemma lowOf_eq_of_lookup {st : TarjanSt} {u : String} {n : ℕ}
    (h : st.lowlinks.lookup u = some n) : st.lowOf u = n := by
  simp [TarjanSt.lowOf, lookupD, h]

lemma push_frame {edges : List (String × String)} {v : String} {st0 : TarjanSt}
    (inv0 : TarjanInv edges st0) (hfresh : ¬ st0.indexed v)
    (hnode : v ∈ edgeNodes edges) (hreach : ∀ u ∈ st0.stack, ReachIn edges u v) :
    FrameInv edges v st0
      { st0 with
        indices := (v, st0.index) :: st0.indices
        lowlinks := (v, st0.index) :: st0.lowlinks
        index := st0.index + 1
        stack := st0.stack ++ [v]
        on_stack := v :: st0.on_stack }
      [] [] := by
  set st1 : TarjanSt :=
    { st0 with
      indices := (v, st0.index) :: st0.indices
      lowlinks := (v, st0.index) :: st0.lowlinks
      index := st0.index + 1
      stack := st0.stack ++ [v]
      on_stack := v :: st0.on_stack } with hst1
  have hvstack : v ∉ st0.stack := fun h => hfresh (inv0.stack_dom v h)
  have hkeys : v ∉ st0.indices.map Prod.fst :=
    fun h => hfresh ((lookup_isSome_mem _ _).mpr h)
  have hidx1 : ∀ u, st1.indexed u ↔ u = v ∨ st0.indexed u := by
    intro u
    by_cases h : u = v
    · subst h
      simp [TarjanSt.indexed, hst1, lookup_cons_self]
    · simp only [TarjanSt.indexed, hst1]
      rw [lookup_cons_ne _ _ h]
      simp [TarjanSt.indexed, h]
  have hidxv : st1.idxOf v = st0.index := by
    simp [TarjanSt.idxOf, hst1, lookupD, lookup_cons_self]
  have hlowv : st1.lowOf v = st0.index := by
    simp [TarjanSt.lowOf, hst1, lookupD, lookup_cons_self]
  have hidxold : ∀ u, u ≠ v → st1.idxOf u = st0.idxOf u := by
    intro u h
    simp only [TarjanSt.idxOf, hst1]
    rw [lookupD_cons_ne _ _ h]
  have hlowold : ∀ u, u ≠ v → st1.lowOf u = st0.lowOf u := by
    intro u h
    simp only [TarjanSt.lowOf, hst1]
    rw [lookupD_cons_ne _ _ h]
  have hne_of_idx : ∀ u, st0.indexed u → u ≠ v := fun u hu he => hfresh (he ▸ hu)
  have hstack1 : st1.stack = st0.stack ++ [v] := rfl
  refine ⟨?_, ?_, ?_, ?_, ?_, ?_, ?_, ?_, ?_, ?_, ?_, ?_⟩
  · -- TarjanInv st1
    refine ⟨?_, ?_, ?_, ?_, ?_, ?_, ?_, ?_, ?_, ?_, ?_, ?_, ?_, ?_, ?_, ?_, ?_, ?_⟩
    · simp only [hst1]
      exact List.nodup_cons.mpr ⟨hkeys, inv0.keys_nodup⟩
    · intro u hu
      rcases (hidx1 u).mp hu with rfl | hu2
      · exact hnode
      · exact inv0.dom_nodes u hu2
    · intro u hu
      rcases (hidx1 u).mp hu with rfl | hu2
      · simp [hst1, lookup_cons_self]
      · have h2 := inv0.low_cover u hu2
        by_cases h : u = v
        · subst h; simp [hst1, lookup_cons_self]
        · simp only [hst1]
          rw [lookup_cons_ne _ _ h]
          exact h2
    · intro u hu
      rw [hstack1] at hu
      rcases List.mem_append.mp hu with h | h
      · exact (hidx1 u).mpr (Or.inr (inv0.stack_dom u h))
      · rw [List.mem_singleton.mp h]
        exact (hidx1 v).mpr (Or.inl rfl)
    · rw [hstack1]
      exact List.nodup_append.mpr ⟨inv0.stack_nodup, List.nodup_singleton v,
        fun a ha hb => (List.mem_singleton.mp hb ▸ hvstack) ha⟩
    · intro u
      show u ∈ v :: st0.on_stack ↔ u ∈ st0.stack ++ [v]
      rw [List.mem_cons, List.mem_append, List.mem_singleton, inv0.onstack_iff]
      tauto
    · intro u hu
      rcases (hidx1 u).mp hu with rfl | hu2
      · rw [hidxv]
        show st0.index < st0.index + 1
        omega
      · rw [hidxold u (hne_of_idx u hu2)]
        have := inv0.idx_lt_index u hu2
        show st0.idxOf u < st0.index + 1
        omega
    · show st0.index + 1 = ((v, st0.index) :: st0.indices).length
      rw [List.length_cons, inv0.index_count]
    · intro u w hu hw he
      rcases (hidx1 u).mp hu with rfl | hu2 <;> rcases (hidx1 w).mp hw with rfl | hw2
      · rfl
      · rw [hidxv, hidxold w (hne_of_idx w hw2)] at he
        exact absurd he.symm (Nat.ne_of_lt (inv0.idx_lt_index w hw2))
      · rw [hidxv, hidxold u (hne_of_idx u hu2)] at he
        exact absurd he (Nat.ne_of_lt (inv0.idx_lt_index u hu2))
      · rw [hidxold u (hne_of_idx u hu2), hidxold w (hne_of_idx w hw2)] at he
        exact inv0.idx_inj u w hu2 hw2 he
    · rw [hstack1, List.pairwise_append]
      refine ⟨?_, List.pairwise_singleton _ _, ?_⟩
      · refine inv0.stack_sorted.imp_of_mem ?_
        intro a b ha hb hr
        rw [hidxold a (hne_of_idx a (inv0.stack_dom a ha)),
          hidxold b (hne_of_idx b (inv0.stack_dom b hb))]
        exact hr
      · intro a ha b hb
        rw [List.mem_singleton.mp hb, hidxv,
          hidxold a (hne_of_idx a (inv0.stack_dom a ha))]
        exact inv0.idx_lt_index a (inv0.stack_dom a ha)
    · rw [hstack1, List.pairwise_append]
      exact ⟨inv0.stack_reach, List.pairwise_singleton _ _,
        fun a ha b hb => List.mem_singleton.mp hb ▸ hreach a ha⟩
    · intro u hu
      rw [hstack1] at hu
      rcases List.mem_append.mp hu with h | h
      · have hne := hne_of_idx u (inv0.stack_dom u h)
        rw [hidxold u hne, hlowold u hne]
        exact inv0.low_le u h
      · rw [List.mem_singleton.mp h, hidxv, hlowv]
    · intro u hu
      rw [hstack1] at hu
      rcases List.mem_append.mp hu with h | h
      · obtain ⟨w, hw, hwidx, hwreach⟩ := inv0.low_witness u h
        have hnw := hne_of_idx w (inv0.stack_dom w hw)
        have hnu := hne_of_idx u (inv0.stack_dom u h)
        exact ⟨w, by rw [hstack1]; exact List.mem_append.mpr (Or.inl hw),
          by rw [hidxold w hnw, hlowold u hnu]; exact hwidx, hwreach⟩
      · rw [List.mem_singleton.mp h]
        exact ⟨v, by rw [hstack1]; simp, by rw [hidxv, hlowv], reachIn_refl edges v⟩
    · intro u hu hustack w hew
      have hune : u ≠ v := by
        intro he
        subst he
        exact hustack (by rw [hstack1]; simp)
      have hu0 : st0.indexed u := by
        rcases (hidx1 u).mp hu with he | h
        · exact absurd he hune
        · exact h
      have hu0stack : u ∉ st0.stack := by
        intro h
        exact hustack (by rw [hstack1]; exact List.mem_append.mpr (Or.inl h))
      obtain ⟨hw1, hw2⟩ := inv0.completed_closed u hu0 hu0stack w hew
      refine ⟨(hidx1 w).mpr (Or.inr hw1), ?_⟩
      rw [hstack1]
      intro h
      rcases List.mem_append.mp h with h | h
      · exact hw2 h
      · exact hfresh (List.mem_singleton.mp h ▸ hw1)
    · intro C hC
      obtain ⟨h1, h2, h3⟩ := inv0.sccs_elems C hC
      refine ⟨h1, h2, ?_⟩
      intro x hx
      obtain ⟨hx1, hx2⟩ := h3 x hx
      refine ⟨(hidx1 x).mpr (Or.inr hx1), ?_⟩
      rw [hstack1]
      intro h
      rcases List.mem_append.mp h with h | h
      · exact hx2 h
      · exact hfresh (List.mem_singleton.mp h ▸ hx1)
    · exact inv0.sccs_classes
    · intro u hu hustack
      have hune : u ≠ v := by
        intro he
        subst he
        exact hustack (by rw [hstack1]; simp)
      have hu0 : st0.indexed u := by
        rcases (hidx1 u).mp hu with he | h
        · exact absurd he hune
        · exact h
      have hu0stack : u ∉ st0.stack := by
        intro h
        exact hustack (by rw [hstack1]; exact List.mem_append.mpr (Or.inl h))
      exact inv0.completed_covered u hu0 hu0stack
    · exact inv0.sccs_disjoint
  · show ((v, st0.index) :: st0.indices).lookup v = some st0.index
    exact lookup_cons_self v st0.index st0.indices
  · intro u hu
    show ((v, st0.index) :: st0.indices).lookup u = st0.indices.lookup u
    exact lookup_cons_ne _ _ (hne_of_idx u hu)
  · intro u hu
    show ((v, st0.index) :: st0.lowlinks).lookup u = st0.lowlinks.lookup u
    exact lookup_cons_ne _ _ (hne_of_idx u hu)
  · show st0.index < st0.index + 1
    omega
  · exact ⟨[], by simp [hst1]⟩
  · intro u hu hu0
    rcases (hidx1 u).mp hu with rfl | h
    · rw [hidxv]
    · exact absurd h hu0
  · show st0.stack ++ [v] = st0.stack ++ v :: []
    rfl
  · intro u hu
    have h2 : u = v := List.mem_singleton.mp hu
    rw [h2]
    exact hfresh
  · intro u hu
    exact absurd hu (List.not_mem_nil u)
  · intro u hu
    exact absurd hu (List.not_mem_nil u)
  · intro w hw
    exact absurd hw (List.not_mem_nil w)

lemma FrameInv.v_not_tail {edges : List (String × String)} {v : String}
    {st0 st : TarjanSt} {tail procd : List String}
    (F : FrameInv edges v st0 st tail procd) : v ∉ tail := by
  have h := F.inv.stack_nodup
  rw [F.stack_eq] at h
  exact (List.nodup_cons.mp (List.nodup_append.mp h).2.1).1

lemma FrameInv.v_mem_stack {edges : List (String × String)} {v : String}
    {st0 st : TarjanSt} {tail procd : List String}
    (F : FrameInv edges v st0 st tail procd) : v ∈ st.stack := by
  rw [F.stack_eq]
  exact List.mem_append.mpr (Or.inr (List.mem_cons_self _ _))

lemma FrameInv.v_fresh {edges : List (String × String)} {v : String}
    {st0 st : TarjanSt} {tail procd : List String}
    (F : FrameInv edges v st0 st tail procd) : ¬ st0.indexed v :=
  F.tail_fresh v (List.mem_cons_self _ _)

lemma frame_step_onstack {edges : List (String × String)} {v : String}
    {st0 st : TarjanSt} {tail procd : List String} {w : String}
    (F : FrameInv edges v st0 st tail procd)
    (hw_on : w ∈ st.on_stack) (hedge : EdgeIn edges v w) :
    FrameInv edges v st0
      { st with lowlinks :=
          (v, min (lookupD st.lowlinks v) (lookupD st.indices w)) :: st.lowlinks }
      tail (procd ++ [w]) := by
  set st2 : TarjanSt :=
    { st with lowlinks :=
        (v, min (lookupD st.lowlinks v) (lookupD st.indices w)) :: st.lowlinks } with hst2
  have hwstack : w ∈ st.stack := (F.inv.onstack_iff w).mp hw_on
  have hlow2v : st2.lowOf v = min (st.lowOf v) (st.idxOf w) := by
    simp only [TarjanSt.lowOf, hst2]
    rw [lookupD_cons_self]
    rfl
  have hlow2old : ∀ u, u ≠ v → st2.lowOf u = st.lowOf u := by
    intro u h
    simp only [TarjanSt.lowOf, hst2]
    rw [lookupD_cons_ne _ _ h]
  have hvtail : v ∉ tail := F.v_not_tail
  have hvmem : v ∈ st.stack := F.v_mem_stack
  have hlow2v_le : st2.lowOf v ≤ st.lowOf v := by
    rw [hlow2v]; exact min_le_left _ _
  refine ⟨?_, F.v_idx, F.idx_pres, ?_, F.index_gt, F.sccs_grew, F.idx_new_ge,
    F.stack_eq, F.tail_fresh, ?_, ?_, ?_⟩
  · -- TarjanInv st2
    refine ⟨F.inv.keys_nodup, F.inv.dom_nodes, ?_, F.inv.stack_dom, F.inv.stack_nodup,
      F.inv.onstack_iff, F.inv.idx_lt_index, F.inv.index_count, F.inv.idx_inj,
      F.inv.stack_sorted, F.inv.stack_reach, ?_, ?_, F.inv.completed_closed,
      F.inv.sccs_elems, F.inv.sccs_classes, F.inv.completed_covered, F.inv.sccs_disjoint⟩
    · intro u hu
      by_cases h : u = v
      · subst h; simp [hst2, lookup_cons_self]
      · show (((v, _) :: st.lowlinks).lookup u).isSome
        rw [lookup_cons_ne _ _ h]
        exact F.inv.low_cover u hu
    · intro u hu
      by_cases h : u = v
      · subst h
        rw [hlow2v]
        exact le_trans (min_le_left _ _) (F.inv.low_le u hvmem)
      · rw [hlow2old u h]
        exact F.inv.low_le u hu
    · intro u hu
      by_cases h : u = v
      · subst h
        rcases le_total (st.lowOf u) (st.idxOf w) with hc | hc
        · obtain ⟨z, hz, hzidx, hzreach⟩ := F.inv.low_witness u hu
          refine ⟨z, hz, ?_, hzreach⟩
          rw [hlow2v, min_eq_left hc]
          exact hzidx
        · refine ⟨w, hwstack, ?_, reachIn_single hedge⟩
          rw [hlow2v, min_eq_right hc]
          rfl
      · obtain ⟨z, hz, hzidx, hzreach⟩ := F.inv.low_witness u hu
        rw [hlow2old u h]
        exact ⟨z, hz, hzidx, hzreach⟩
  · intro u hu
    have hne : u ≠ v := fun he => F.v_fresh (he ▸ hu)
    show ((v, _) :: st.lowlinks).lookup u = st0.lowlinks.lookup u
    rw [lookup_cons_ne _ _ hne]
    exact F.low_pres u hu
  · intro u hu
    have hne : u ≠ v := fun he => hvtail (he ▸ hu)
    rw [hlow2old u hne]
    exact F.tail_low u hu
  · intro u hu z hz
    rcases F.tail_esc u hu z hz with h | h | h
    · exact Or.inl h
    · exact Or.inr (Or.inl h)
    · exact Or.inr (Or.inr ⟨h.1, le_trans hlow2v_le h.2⟩)
  · intro z hz
    rcases List.mem_append.mp hz with h | h
    · rcases F.done_esc z h with h2 | h2 | h2
      · exact Or.inl h2
      · exact Or.inr (Or.inl h2)
      · exact Or.inr (Or.inr ⟨h2.1, le_trans hlow2v_le h2.2⟩)
    · rw [List.mem_singleton.mp h]
      have hw2 : w ∈ st0.stack ++ v :: tail := by rw [← F.stack_eq]; exact hwstack
      rcases List.mem_append.mp hw2 with h2 | h2
      · refine Or.inr (Or.inr ⟨h2, ?_⟩)
        rw [hlow2v]
        exact min_le_right _ _
      · exact Or.inl h2

lemma frame_step_done {edges : List (String × String)} {v : String}
    {st0 st : TarjanSt} {tail procd : List String} {w : String}
    (F : FrameInv edges v st0 st tail procd)
    (hw_idx : st.indexed w) (hw_off : w ∉ st.on_stack) :
    FrameInv edges v st0 st tail (procd ++ [w]) := by
  refine ⟨F.inv, F.v_idx, F.idx_pres, F.low_pres, F.index_gt, F.sccs_grew,
    F.idx_new_ge, F.stack_eq, F.tail_fresh, F.tail_low, F.tail_esc, ?_⟩
  intro z hz
  rcases List.mem_append.mp hz with h | h
  · exact F.done_esc z h
  · rw [List.mem_singleton.mp h]
    exact Or.inr (Or.inl ⟨hw_idx, fun hc => hw_off ((F.inv.onstack_iff w).mpr hc)⟩)

lemma tarjanInv_cons_low {edges : List (String × String)} {st : TarjanSt}
    {v : String} {m : ℕ}
    (inv : TarjanInv edges st) (hv : v ∈ st.stack)
    (hwit : ∃ z ∈ st.stack, st.idxOf z = m ∧ ReachIn edges v z)
    (hle : m ≤ st.idxOf v) :
    TarjanInv edges { st with lowlinks := (v, m) :: st.lowlinks } := by
  set st2 : TarjanSt := { st with lowlinks := (v, m) :: st.lowlinks } with hst2
  have hlow2v : st2.lowOf v = m := by
    simp only [TarjanSt.lowOf, hst2]
    rw [lookupD_cons_self]
  have hlow2old : ∀ u, u ≠ v → st2.lowOf u = st.lowOf u := by
    intro u h
    simp only [TarjanSt.lowOf, hst2]
    rw [lookupD_cons_ne _ _ h]
  refine ⟨inv.keys_nodup, inv.dom_nodes, ?_, inv.stack_dom, inv.stack_nodup,
    inv.onstack_iff, inv.idx_lt_index, inv.index_count, inv.idx_inj,
    inv.stack_sorted, inv.stack_reach, ?_, ?_, inv.completed_closed,
    inv.sccs_elems, inv.sccs_classes, inv.completed_covered, inv.sccs_disjoint⟩
  · intro u hu
    by_cases h : u = v
    · subst h; simp [hst2, lookup_cons_self]
    · show (((v, m) :: st.lowlinks).lookup u).isSome
      rw [lookup_cons_ne _ _ h]
      exact inv.low_cover u hu
  · intro u hu
    by_cases h : u = v
    · subst h
      rw [hlow2v]
      exact hle
    · rw [hlow2old u h]
      exact inv.low_le u hu
  · intro u hu
    by_cases h : u = v
    · subst h
      obtain ⟨z, hz, hzidx, hzreach⟩ := hwit
      refine ⟨z, hz, ?_, hzreach⟩
      rw [hlow2v]
      exact hzidx
    · obtain ⟨z, hz, hzidx, hzreach⟩ := inv.low_witness u hu
      rw [hlow2old u h]
      exact ⟨z, hz, hzidx, hzreach⟩

lemma SCPost.indexed_mono {edges : List (String × String)} {v : String}
    {st st' : TarjanSt} (P : SCPost edges v st st') :
    ∀ u, st.indexed u → st'.indexed u := by
  intro u hu
  show (st'.indices.lookup u).isSome
  rw [P.idx_pres u hu]
  exact hu

lemma SCPost.idxOf_pres {edges : List (String × String)} {v : String}
    {st st' : TarjanSt} (P : SCPost edges v st st') :
    ∀ u, st.indexed u → st'.idxOf u = st.idxOf u := by
  intro u hu
  simp only [TarjanSt.idxOf, lookupD, P.idx_pres u hu]

lemma SCPost.lowOf_pres {edges : List (String × String)} {v : String}
    {st st' : TarjanSt} (P : SCPost edges v st st') :
    ∀ u, st.indexed u → st'.lowOf u = st.lowOf u := by
  intro u hu
  simp only [TarjanSt.lowOf, lookupD, P.low_pres u hu]

lemma frame_step_rec {edges : List (String × String)} {v : String}
    {st0 st st' : TarjanSt} {tail procd : List String} {w : String}
    (F : FrameInv edges v st0 st tail procd)
    (hwfresh : ¬ st.indexed w) (hedge : EdgeIn edges v w)
    (P : SCPost edges w st st') :
    ∃ tail2, FrameInv edges v st0
      { st' with lowlinks :=
          (v, min (lookupD st'.lowlinks v) (lookupD st'.lowlinks w)) :: st'.lowlinks }
      tail2 (procd ++ [w]) := by
  set stA : TarjanSt :=
    { st' with lowlinks :=
        (v, min (lookupD st'.lowlinks v) (lookupD st'.lowlinks w)) :: st'.lowlinks } with hstA
  have hvidx_st : st.indexed v := indexed_of_lookup F.v_idx
  have hwv : w ≠ v := fun he => hwfresh (he ▸ hvidx_st)
  have hvne : ∀ u, ¬ st0.indexed u → st0.indexed v → u ≠ v := fun u hu hv he => hu (he ▸ hv)
  have hlowv_pres : st'.lowOf v = st.lowOf v := P.lowOf_pres v hvidx_st
  have hidxv_pres : st'.idxOf v = st.idxOf v := P.idxOf_pres v hvidx_st
  have hidxv_val : st.idxOf v = st0.index := idxOf_eq_of_lookup F.v_idx
  have hlowle_v : st.lowOf v ≤ st.idxOf v := F.inv.low_le v F.v_mem_stack
  have hm : stA.lowOf v = min (st'.lowOf v) (st'.lowOf w) := by
    simp only [TarjanSt.lowOf, hstA]
    rw [lookupD_cons_self]
  have hlowAold : ∀ u, u ≠ v → stA.lowOf u = st'.lowOf u := by
    intro u h
    simp only [TarjanSt.lowOf, hstA]
    rw [lookupD_cons_ne _ _ h]
  have hidxA : ∀ u, stA.idxOf u = st'.idxOf u := fun u => rfl
  have hidxedA : ∀ u, stA.indexed u ↔ st'.indexed u := fun u => Iff.rfl
  have hmle : stA.lowOf v ≤ st.lowOf v := by
    rw [hm, hlowv_pres]
    exact min_le_left _ _
  have hidxw : st'.idxOf w = st.index := idxOf_eq_of_lookup P.v_idx
  have hvfresh0 : ¬ st0.indexed v := F.v_fresh
  have hvtail : v ∉ tail := F.v_not_tail
  -- facts shared by both stack cases
  have hfi_idx_pres : ∀ u, st0.indexed u → stA.indices.lookup u = st0.indices.lookup u := by
    intro u hu
    show st'.indices.lookup u = st0.indices.lookup u
    have hu1 : st.indexed u := by
      show (st.indices.lookup u).isSome
      rw [F.idx_pres u hu]
      exact hu
    rw [P.idx_pres u hu1]
    exact F.idx_pres u hu
  have hfi_low_pres : ∀ u, st0.indexed u → stA.lowlinks.lookup u = st0.lowlinks.lookup u := by
    intro u hu
    have hune : u ≠ v := fun he => hvfresh0 (he ▸ hu)
    have hu1 : st.indexed u := by
      show (st.indices.lookup u).isSome
      rw [F.idx_pres u hu]
      exact hu
    show (((v, _) :: st'.lowlinks).lookup u) = st0.lowlinks.lookup u
    rw [lookup_cons_ne _ _ hune, P.low_pres u hu1]
    exact F.low_pres u hu
  have hfi_v_idx : stA.indices.lookup v = some st0.index := by
    show st'.indices.lookup v = some st0.index
    rw [P.idx_pres v hvidx_st]
    exact F.v_idx
  have hfi_index_gt : st0.index < stA.index := by
    have h1 := F.index_gt
    have h2 := P.index_gt
    show st0.index < st'.index
    omega
  have hfi_sccs : ∃ new, stA.sccs = st0.sccs ++ new := by
    obtain ⟨n1, h1⟩ := F.sccs_grew
    obtain ⟨n2, h2⟩ := P.sccs_grew
    refine ⟨n1 ++ n2, ?_⟩
    show st'.sccs = st0.sccs ++ (n1 ++ n2)
    rw [h2, h1, List.append_assoc]
  have hfi_idx_new : ∀ u, stA.indexed u → ¬ st0.indexed u → st0.index ≤ stA.idxOf u := by
    intro u hu hu0
    rw [hidxA]
    by_cases h : st.indexed u
    · rw [P.idxOf_pres u h]
      exact F.idx_new_ge u h hu0
    · have := P.idx_new_ge u ((hidxedA u).mp hu) h
      have h2 := F.index_gt
      omega
  have htail_idxed : ∀ u ∈ tail, st.indexed u := by
    intro u hu
    refine F.inv.stack_dom u ?_
    rw [F.stack_eq]
    exact List.mem_append.mpr (Or.inr (List.mem_cons_of_mem _ hu))
  have htail_ne_v : ∀ u ∈ tail, u ≠ v := fun u hu he => hvtail (he ▸ hu)
  have htail_lowA : ∀ u ∈ tail, stA.lowOf u = st.lowOf u := by
    intro u hu
    rw [hlowAold u (htail_ne_v u hu)]
    exact P.lowOf_pres u (htail_idxed u hu)
  have htail_idxA : ∀ u ∈ tail, stA.idxOf u = st.idxOf u := by
    intro u hu
    rw [hidxA]
    exact P.idxOf_pres u (htail_idxed u hu)
  rcases P.stack_cases with ⟨hstk, hwoff, hwroot⟩ | ⟨tailw, hstk, hfreshw, hloww, hescw⟩
  · -- the nested call closed the component of w: stack unchanged
    have hminfold2 : min (lookupD st'.lowlinks v) (lookupD st'.lowlinks w) = st.lowOf v := by
      show min (st'.lowOf v) (st'.lowOf w) = st.lowOf v
      rw [hlowv_pres, hwroot, hidxw]
      refine min_eq_left ?_
      have h2 := F.index_gt
      rw [hidxv_val] at hlowle_v
      omega
    have hminfold : stA.lowOf v = st.lowOf v := by
      rw [hm, ← hminfold2]
      rfl
    have hstA_stack : stA.stack = st.stack := hstk
    refine ⟨tail, ?_, hfi_v_idx, hfi_idx_pres, hfi_low_pres, hfi_index_gt, hfi_sccs,
      hfi_idx_new, ?_, F.tail_fresh, ?_, ?_, ?_⟩
    · -- TarjanInv stA
      refine tarjanInv_cons_low P.inv ?_ ?_ ?_
      · rw [hstk]; exact F.v_mem_stack
      · obtain ⟨z, hz, hzidx, hzreach⟩ := P.inv.low_witness v (by rw [hstk]; exact F.v_mem_stack)
        refine ⟨z, hz, ?_, hzreach⟩
        rw [hminfold2, hzidx]
        exact hlowv_pres
      · rw [hminfold2, hidxv_pres]
        exact hlowle_v
    · show stA.stack = st0.stack ++ v :: tail
      rw [hstA_stack, F.stack_eq]
    · intro u hu
      rw [htail_lowA u hu, htail_idxA u hu]
      exact F.tail_low u hu
    · intro u hu z hz
      rcases F.tail_esc u hu z hz with h | h | h
      · exact Or.inl h
      · refine Or.inr (Or.inl ⟨(hidxedA z).mpr (P.indexed_mono z h.1), ?_⟩)
        rw [show stA.stack = st.stack from hstA_stack]
        exact h.2
      · refine Or.inr (Or.inr ⟨h.1, ?_⟩)
        have hzidxed : st.indexed z := by
          have : z ∈ st0.stack ++ v :: tail := List.mem_append.mpr (Or.inl h.1)
          rw [← F.stack_eq] at this
          exact F.inv.stack_dom z this
        rw [hidxA, P.idxOf_pres z hzidxed]
        exact le_trans hmle h.2
    · intro z hz
      rcases List.mem_append.mp hz with h | h
      · rcases F.done_esc z h with h2 | h2 | h2
        · exact Or.inl h2
        · refine Or.inr (Or.inl ⟨(hidxedA z).mpr (P.indexed_mono z h2.1), ?_⟩)
          rw [show stA.stack = st.stack from hstA_stack]
          exact h2.2
        · refine Or.inr (Or.inr ⟨h2.1, ?_⟩)
          have hzidxed : st.indexed z := by
            have : z ∈ st0.stack ++ v :: tail := List.mem_append.mpr (Or.inl h2.1)
            rw [← F.stack_eq] at this
            exact F.inv.stack_dom z this
          rw [hidxA, P.idxOf_pres z hzidxed]
          exact le_trans hmle h2.2
      · rw [List.mem_singleton.mp h]
        refine Or.inr (Or.inl ⟨(hidxedA w).mpr (indexed_of_lookup P.v_idx), ?_⟩)
        rw [show stA.stack = st.stack from hstA_stack]
        rw [← hstk]
        exact hwoff
  · -- the nested call left w (and tailw) on the stack
    refine ⟨tail ++ w :: tailw, ?_, hfi_v_idx, hfi_idx_pres, hfi_low_pres, hfi_index_gt,
      hfi_sccs, hfi_idx_new, ?_, ?_, ?_, ?_, ?_⟩
    · -- TarjanInv stA
      have hvstk' : v ∈ st'.stack := by
        rw [hstk]
        exact List.mem_append.mpr (Or.inl F.v_mem_stack)
      refine tarjanInv_cons_low P.inv hvstk' ?_ ?_
      · rcases le_total (st'.lowOf v) (st'.lowOf w) with hc | hc
        · obtain ⟨z, hz, hzidx, hzreach⟩ := P.inv.low_witness v hvstk'
          refine ⟨z, hz, ?_, hzreach⟩
          rw [hzidx]
          exact (min_eq_left hc).symm
        · have hwstk' : w ∈ st'.stack := by
            rw [hstk]
            exact List.mem_append.mpr (Or.inr (List.mem_cons_self _ _))
          obtain ⟨z, hz, hzidx, hzreach⟩ := P.inv.low_witness w hwstk'
          refine ⟨z, hz, ?_, reachIn_trans (reachIn_single hedge) hzreach⟩
          rw [hzidx]
          exact (min_eq_right hc).symm
      · refine le_trans (min_le_left _ _) ?_
        show st'.lowOf v ≤ st'.idxOf v
        rw [hlowv_pres, hidxv_pres]
        exact hlowle_v
    · show stA.stack = st0.stack ++ v :: (tail ++ w :: tailw)
      show st'.stack = st0.stack ++ v :: (tail ++ w :: tailw)
      rw [hstk, F.stack_eq]
      simp
    · intro u hu
      rcases List.mem_cons.mp hu with rfl | hu2
      · exact hvfresh0
      rcases List.mem_append.mp hu2 with h | h
      · exact F.tail_fresh u (List.mem_cons_of_mem _ h)
      · intro hc
        refine hfreshw u h ?_
        show (st.indices.lookup u).isSome
        rw [F.idx_pres u hc]
        exact hc
    · intro u hu
      rcases List.mem_append.mp hu with h | h
      · rw [htail_lowA u h, htail_idxA u h]
        exact F.tail_low u h
      · have hune : u ≠ v := by
          intro he
          exact hfreshw u h (he ▸ hvidx_st)
        rw [hlowAold u hune, hidxA]
        exact hloww u h
    · intro u hu z hz
      rcases List.mem_append.mp hu with h | h
      · rcases F.tail_esc u h z hz with h2 | h2 | h2
        · rcases List.mem_cons.mp h2 with rfl | h3
          · exact Or.inl (List.mem_cons_self _ _)
          · exact Or.inl (List.mem_cons_of_mem _ (List.mem_append.mpr (Or.inl h3)))
        · refine Or.inr (Or.inl ⟨(hidxedA z).mpr (P.indexed_mono z h2.1), ?_⟩)
          show z ∉ st'.stack
          rw [hstk]
          intro hc
          rcases List.mem_append.mp hc with hc2 | hc2
          · exact h2.2 hc2
          · exact hfreshw z hc2 h2.1
        · refine Or.inr (Or.inr ⟨h2.1, ?_⟩)
          have hzidxed : st.indexed z := by
            have h3 : z ∈ st0.stack ++ v :: tail := List.mem_append.mpr (Or.inl h2.1)
            rw [← F.stack_eq] at h3
            exact F.inv.stack_dom z h3
          rw [hidxA, P.idxOf_pres z hzidxed]
          exact le_trans hmle h2.2
      · rcases hescw u h z hz with h2 | h2 | h2
        · exact Or.inl (List.mem_cons_of_mem _ (List.mem_append.mpr (Or.inr h2)))
        · exact Or.inr (Or.inl ⟨(hidxedA z).mpr h2.1, h2.2⟩)
        · have h3 : z ∈ st0.stack ++ v :: tail := by rw [← F.stack_eq]; exact h2.1
          rcases List.mem_append.mp h3 with h4 | h4
          · refine Or.inr (Or.inr ⟨h4, ?_⟩)
            rw [hidxA]
            refine le_trans ?_ h2.2
            rw [hm]
            exact min_le_right _ _
          · rcases List.mem_cons.mp h4 with rfl | h5
            · exact Or.inl (List.mem_cons_self _ _)
            · exact Or.inl (List.mem_cons_of_mem _ (List.mem_append.mpr (Or.inl h5)))
    · intro z hz
      rcases List.mem_append.mp hz with h | h
      · rcases F.done_esc z h with h2 | h2 | h2
        · rcases List.mem_cons.mp h2 with rfl | h3
          · exact Or.inl (List.mem_cons_self _ _)
          · exact Or.inl (List.mem_cons_of_mem _ (List.mem_append.mpr (Or.inl h3)))
        · refine Or.inr (Or.inl ⟨(hidxedA z).mpr (P.indexed_mono z h2.1), ?_⟩)
          show z ∉ st'.stack
          rw [hstk]
          intro hc
          rcases List.mem_append.mp hc with hc2 | hc2
          · exact h2.2 hc2
          · exact hfreshw z hc2 h2.1
        · refine Or.inr (Or.inr ⟨h2.1, ?_⟩)
          have hzidxed : st.indexed z := by
            have h3 : z ∈ st0.stack ++ v :: tail := List.mem_append.mpr (Or.inl h2.1)
            rw [← F.stack_eq] at h3
            exact F.inv.stack_dom z h3
          rw [hidxA, P.idxOf_pres z hzidxed]
          exact le_trans hmle h2.2
      · rw [List.mem_singleton.mp h]
        exact Or.inl (List.mem_cons_of_mem _ (List.mem_append.mpr (Or.inr (List.mem_cons_self _ _))))

lemma frame_finish {edges : List (String × String)} {v : String}
    {st0 st : TarjanSt} {tail : List String}
    (F : FrameInv edges v st0 st tail (adjacency edges v)) :
    SCPost edges v st0
      (if lookupD st.lowlinks v = lookupD st.indices v then closeRoot v st else st) := by
  have hvidx : st.idxOf v = st0.index := idxOf_eq_of_lookup F.v_idx
  have hnodup := F.inv.stack_nodup
  rw [F.stack_eq] at hnodup
  have hdisj := (List.nodup_append.mp hnodup).2.2
  have hTnodup : (v :: tail).Nodup := (List.nodup_append.mp hnodup).2.1
  have hbase_nodup : st0.stack.Nodup := (List.nodup_append.mp hnodup).1
  have hvbase : v ∉ st0.stack := fun h => hdisj h (List.mem_cons_self _ _)
  have hsorted := F.inv.stack_sorted
  rw [F.stack_eq] at hsorted
  have hidx_lt_v : ∀ z ∈ st0.stack, st.idxOf z < st.idxOf v :=
    fun z hz => (List.pairwise_append.mp hsorted).2.2 z hz v (List.mem_cons_self _ _)
  have hT_stack : ∀ z ∈ v :: tail, z ∈ st.stack := by
    intro z hz
    rw [F.stack_eq]
    exact List.mem_append.mpr (Or.inr hz)
  have hbase_stack : ∀ z ∈ st0.stack, z ∈ st.stack := by
    intro z hz
    rw [F.stack_eq]
    exact List.mem_append.mpr (Or.inl hz)
  have hTidx_ge : ∀ z ∈ v :: tail, st0.index ≤ st.idxOf z := by
    intro z hz
    exact F.idx_new_ge z (F.inv.stack_dom z (hT_stack z hz)) (F.tail_fresh z hz)
  have hesc_all : ∀ u ∈ v :: tail, ∀ z, EdgeIn edges u z →
      z ∈ v :: tail ∨ (st.indexed z ∧ z ∉ st.stack) ∨
      (z ∈ st0.stack ∧ st.lowOf v ≤ st.idxOf z) := by
    intro u hu z hz
    rcases List.mem_cons.mp hu with rfl | hu2
    · exact F.done_esc z (adjacency_mem.mpr hz)
    · exact F.tail_esc u hu2 z hz
  by_cases hroot : lookupD st.lowlinks v = lookupD st.indices v
  · rw [if_pos hroot]
    have hroot2 : st.lowOf v = st.idxOf v := hroot
    -- with the root condition, no edge out of the group leads back into the stack
    have hesc_kill : ∀ u ∈ v :: tail, ∀ z, EdgeIn edges u z →
        z ∈ v :: tail ∨ (st.indexed z ∧ z ∉ st.stack) := by
      intro u hu z hz
      rcases hesc_all u hu z hz with h | h | h
      · exact Or.inl h
      · exact Or.inr h
      · exfalso
        have h1 := hidx_lt_v z h.1
        have h2 := h.2
        rw [hroot2, hvidx] at h2
        rw [hvidx] at h1
        omega
    have hcompl_closed : ∀ x, (st.indexed x ∧ x ∉ st.stack) → ∀ z, EdgeIn edges x z →
        st.indexed z ∧ z ∉ st.stack :=
      fun x hx z hz => F.inv.completed_closed x hx.1 hx.2 z hz
    have hreach_within : ∀ x, x ∈ v :: tail → ∀ y, ReachIn edges x y →
        y ∈ v :: tail ∨ (st.indexed y ∧ y ∉ st.stack) := by
      intro x hx y hy
      exact reach_stays (T := fun a => a ∈ v :: tail) (C := fun a => st.indexed a ∧ a ∉ st.stack)
        (fun u hu w hw => hesc_kill u hu w hw)
        (fun u hu w hw => hcompl_closed u hu w hw) (Or.inl hx) hy
    have hcompl_reach : ∀ x, (st.indexed x ∧ x ∉ st.stack) → ∀ y, ReachIn edges x y →
        st.indexed y ∧ y ∉ st.stack := by
      intro x hx y hy
      have h2 := reach_stays (T := fun _ => False) (C := fun a => st.indexed a ∧ a ∉ st.stack)
        (fun u hu => absurd hu not_false)
        (fun u hu w hw => hcompl_closed u hu w hw) (Or.inr hx) hy
      rcases h2 with h2 | h2
      · exact absurd h2 not_false
      · exact h2
    have hr2 : ∀ y, MutReach edges v y → y ∈ v :: tail := by
      intro y hy
      rcases hreach_within v (List.mem_cons_self _ _) y hy.1 with h | h
      · exact h
      · exfalso
        have h3 := hcompl_reach y h v hy.2
        exact h3.2 (hT_stack v (List.mem_cons_self _ _))
    have hr1 : ∀ u ∈ v :: tail, MutReach edges u v := by
      intro u hu
      rcases List.mem_cons.mp hu with rfl | hu2
      · exact mutReach_refl edges u
      · constructor
        · exact tail_reaches_v F.inv F.stack_eq F.tail_low u hu2
        · have hp := F.inv.stack_reach
          rw [F.stack_eq] at hp
          exact List.rel_of_pairwise_cons (List.pairwise_append.mp hp).2.1 hu2
    have hclass : ∀ x ∈ v :: tail, ∀ y, (y ∈ v :: tail ↔ MutReach edges x y) := by
      intro x hx y
      constructor
      · intro hy
        exact mutReach_trans (hr1 x hx) (mutReach_symm (hr1 y hy))
      · intro hy
        exact hr2 y (mutReach_trans (mutReach_symm (hr1 x hx)) hy)
    rw [closeRoot_eq F.stack_eq F.v_not_tail]
    set scc : List String := tail.reverse ++ [v] with hscc
    set st2 : TarjanSt := { st with
      stack := st0.stack
      on_stack := st.on_stack.filter (fun w => w ∉ scc)
      sccs := if 1 < scc.length then st.sccs ++ [scc] else st.sccs } with hst2
    have hmem_scc : ∀ x, x ∈ scc ↔ x ∈ v :: tail := fun x => mem_scc_iff
    have hscclen : scc.length = tail.length + 1 := by
      simp [hscc]
    have hsccs2 : st2.sccs = if 1 < scc.length then st.sccs ++ [scc] else st.sccs := rfl
    have hscc_sub : ∀ C, C ∈ st2.sccs → C ∈ st.sccs ∨ (C = scc ∧ 2 ≤ scc.length) := by
      intro C hC
      rw [hsccs2] at hC
      by_cases hb : 1 < scc.length
      · rw [if_pos hb] at hC
        rcases List.mem_append.mp hC with h | h
        · exact Or.inl h
        · exact Or.inr ⟨List.mem_singleton.mp h, hb⟩
      · rw [if_neg hb] at hC
        exact Or.inl hC
    have honstack2 : ∀ x, x ∈ st2.on_stack ↔ x ∈ st0.stack := by
      intro x
      show x ∈ st.on_stack.filter (fun w => w ∉ scc) ↔ x ∈ st0.stack
      rw [List.mem_filter]
      rw [decide_eq_true_eq]
      rw [F.inv.onstack_iff x, hmem_scc x]
      constructor
      · intro ⟨h1, h2⟩
        rw [F.stack_eq] at h1
        rcases List.mem_append.mp h1 with h | h
        · exact h
        · exact absurd h h2
      · intro h
        exact ⟨hbase_stack x h, fun hc => hdisj h hc⟩
    have hnot_base_of_T : ∀ x ∈ v :: tail, x ∉ st0.stack := by
      intro x hx hc
      exact hdisj hc hx
    have hstack_mem : ∀ x, x ∈ st.stack ↔ x ∈ st0.stack ∨ x ∈ v :: tail := by
      intro x
      rw [F.stack_eq, List.mem_append]
    refine ⟨?_, F.idx_pres, F.low_pres, F.v_idx, F.index_gt, ?_, F.idx_new_ge, ?_⟩
    · -- TarjanInv st2
      refine ⟨F.inv.keys_nodup, F.inv.dom_nodes, F.inv.low_cover, ?_, hbase_nodup, ?_,
        F.inv.idx_lt_index, F.inv.index_count, F.inv.idx_inj, ?_, ?_, ?_, ?_, ?_, ?_, ?_, ?_, ?_⟩
      · intro z hz
        exact F.inv.stack_dom z (hbase_stack z hz)
      · exact honstack2
      · exact (List.pairwise_append.mp hsorted).1
      · have hp := F.inv.stack_reach
        rw [F.stack_eq] at hp
        exact (List.pairwise_append.mp hp).1
      · intro z hz
        exact F.inv.low_le z (hbase_stack z hz)
      · intro u hu
        obtain ⟨z, hz, hzidx, hzreach⟩ := F.inv.low_witness u (hbase_stack u hu)
        refine ⟨z, ?_, hzidx, hzreach⟩
        rcases (hstack_mem z).mp hz with h | h
        · exact h
        · exfalso
          have h1 := hTidx_ge z h
          have h2 := hidx_lt_v u hu
          rw [hvidx] at h2
          have h3 := F.inv.low_le u (hbase_stack u hu)
          show False
          rw [hzidx] at h1
          omega
      · intro u hu hustack z hz
        by_cases hT : u ∈ v :: tail
        · rcases hesc_kill u hT z hz with h | h
          · exact ⟨F.inv.stack_dom z (hT_stack z h), hnot_base_of_T z h⟩
          · refine ⟨h.1, ?_⟩
            intro hc
            exact h.2 (hbase_stack z hc)
        · have hust : u ∉ st.stack := by
            intro hc
            rcases (hstack_mem u).mp hc with h | h
            · exact hustack h
            · exact hT h
          obtain ⟨h1, h2⟩ := F.inv.completed_closed u hu hust z hz
          refine ⟨h1, ?_⟩
          intro hc
          exact h2 (hbase_stack z hc)
      · intro C hC
        rcases hscc_sub C hC with h | ⟨rfl, hlen⟩
        · obtain ⟨h1, h2, h3⟩ := F.inv.sccs_elems C h
          refine ⟨h1, h2, ?_⟩
          intro x hx
          obtain ⟨h4, h5⟩ := h3 x hx
          refine ⟨h4, ?_⟩
          intro hc
          exact h5 (hbase_stack x hc)
        · refine ⟨?_, hlen, ?_⟩
          · rw [hscc]
            refine List.nodup_append.mpr ⟨List.nodup_reverse.mpr (List.nodup_cons.mp hTnodup).2,
              List.nodup_singleton v, ?_⟩
            intro a ha hb
            rw [List.mem_singleton.mp hb] at ha
            exact (List.nodup_cons.mp hTnodup).1 (List.mem_reverse.mp ha)
          · intro x hx
            have hx2 := (hmem_scc x).mp hx
            exact ⟨F.inv.stack_dom x (hT_stack x hx2), hnot_base_of_T x hx2⟩
      · intro C hC x hx y
        rcases hscc_sub C hC with h | ⟨rfl, hlen⟩
        · exact F.inv.sccs_classes C h x hx y
        · rw [hmem_scc] at hx ⊢
          exact hclass x hx y
      · intro u hu hustack
        by_cases hT : u ∈ v :: tail
        · by_cases hb : 1 < scc.length
          · refine Or.inl ⟨scc, ?_, (hmem_scc u).mpr hT⟩
            rw [hsccs2, if_pos hb]
            exact List.mem_append.mpr (Or.inr (List.mem_singleton.mpr rfl))
          · have htl : tail = [] := by
              rw [hscclen] at hb
              have : tail.length = 0 := by omega
              exact List.length_eq_zero.mp this
            refine Or.inr ?_
            intro y hy
            rw [htl] at hT
            have hu_v : u = v := List.mem_singleton.mp hT
            subst hu_v
            have h2 := hr2 y hy
            rw [htl] at h2
            exact List.mem_singleton.mp h2
        · have hust : u ∉ st.stack := by
            intro hc
            rcases (hstack_mem u).mp hc with h | h
            · exact hustack h
            · exact hT h
          rcases F.inv.completed_covered u hu hust with ⟨C, hC, hCu⟩ | h
          · refine Or.inl ⟨C, ?_, hCu⟩
            rw [hsccs2]
            by_cases hb : 1 < scc.length
            · rw [if_pos hb]
              exact List.mem_append.mpr (Or.inl hC)
            · rw [if_neg hb]
              exact hC
          · exact Or.inr h
      · rw [hsccs2]
        by_cases hb : 1 < scc.length
        · rw [if_pos hb, List.pairwise_append]
          refine ⟨F.inv.sccs_disjoint, List.pairwise_singleton _ _, ?_⟩
          intro C hC D hD x hx hxs
          rw [List.mem_singleton.mp hD] at hxs
          have hx2 := (hmem_scc x).mp hxs
          exact ((F.inv.sccs_elems C hC).2.2 x hx).2 (hT_stack x hx2)
        · rw [if_neg hb]
          exact F.inv.sccs_disjoint
    · obtain ⟨n1, h1⟩ := F.sccs_grew
      rw [hsccs2]
      by_cases hb : 1 < scc.length
      · rw [if_pos hb, h1]
        exact ⟨n1 ++ [scc], by rw [List.append_assoc]⟩
      · rw [if_neg hb, h1]
        exact ⟨n1, rfl⟩
    · refine Or.inl ⟨rfl, hvbase, ?_⟩
      show st.lowOf v = st.idxOf v
      exact hroot2
  · rw [if_neg hroot]
    have hlt : st.lowOf v < st.idxOf v := by
      have h1 := F.inv.low_le v F.v_mem_stack
      have h2 : ¬ (st.lowOf v = st.idxOf v) := hroot
      omega
    refine ⟨F.inv, F.idx_pres, F.low_pres, F.v_idx, F.index_gt, F.sccs_grew, F.idx_new_ge, ?_⟩
    refine Or.inr ⟨tail, F.stack_eq, F.tail_fresh, ?_, ?_⟩
    · intro u hu
      rcases List.mem_cons.mp hu with rfl | hu2
      · exact hlt
      · exact F.tail_low u hu2
    · exact hesc_all

lemma frame_fold {edges : List (String × String)} {fuel : ℕ} {v : String} {st0 : TarjanSt}
    (f : TarjanSt → String → TarjanSt)
    (hf : ∀ (st : TarjanSt) (w : String), f st w =
      if (st.indices.lookup w).isNone then
        { strongconnect (adjacency edges) fuel w st with
          lowlinks := (v,
            min (lookupD (strongconnect (adjacency edges) fuel w st).lowlinks v)
              (lookupD (strongconnect (adjacency edges) fuel w st).lowlinks w)) ::
            (strongconnect (adjacency edges) fuel w st).lowlinks }
      else if w ∈ st.on_stack then
        { st with lowlinks :=
            (v, min (lookupD st.lowlinks v) (lookupD st.indices w)) :: st.lowlinks }
      else st)
    (IH : ∀ (w : String) (st : TarjanSt), TarjanInv edges st → ¬ st.indexed w →
      w ∈ edgeNodes edges → (∀ u ∈ st.stack, ReachIn edges u w) →
      (edgeNodes edges).length + 1 ≤ fuel + st.index →
      SCPost edges w st (strongconnect (adjacency edges) fuel w st)) :
    ∀ (children : List String) (st : TarjanSt) (tail procd : List String),
      (∀ w ∈ children, EdgeIn edges v w) →
      FrameInv edges v st0 st tail procd →
      (edgeNodes edges).length + 1 ≤ fuel + st.index →
      ∃ tail2, FrameInv edges v st0 (children.foldl f st) tail2 (procd ++ children) ∧
        (edgeNodes edges).length + 1 ≤ fuel + (children.foldl f st).index := by
  intro children
  induction children with
  | nil =>
    intro st tail procd _ F hbound
    rw [List.foldl_nil, List.append_nil]
    exact ⟨tail, F, hbound⟩
  | cons w rest ihl =>
    intro st tail procd hchild F hbound
    rw [List.foldl_cons]
    have hedge : EdgeIn edges v w := hchild w (List.mem_cons_self _ _)
    have hrest : ∀ z ∈ rest, EdgeIn edges v z := fun z hz => hchild z (List.mem_cons_of_mem _ hz)
    cases hlook : st.indices.lookup w with
    | none =>
      have hwfresh : ¬ st.indexed w := by
        show ¬ (st.indices.lookup w).isSome
        rw [hlook]
        simp
      have hwreach : ∀ u ∈ st.stack, ReachIn edges u w := by
        intro u hu
        rw [F.stack_eq] at hu
        rcases List.mem_append.mp hu with h | h
        · have hp := F.inv.stack_reach
          rw [F.stack_eq] at hp
          have h2 := (List.pairwise_append.mp hp).2.2 u h v (List.mem_cons_self _ _)
          exact reachIn_trans h2 (reachIn_single hedge)
        · rcases List.mem_cons.mp h with rfl | h2
          · exact reachIn_single hedge
          · exact reachIn_trans (tail_reaches_v F.inv F.stack_eq F.tail_low u h2)
              (reachIn_single hedge)
      have P := IH w st F.inv hwfresh (edge_snd_mem hedge) hwreach hbound
      obtain ⟨tail2, F2⟩ := frame_step_rec F hwfresh hedge P
      have hfw : f st w =
          { strongconnect (adjacency edges) fuel w st with
            lowlinks := (v,
              min (lookupD (strongconnect (adjacency edges) fuel w st).lowlinks v)
                (lookupD (strongconnect (adjacency edges) fuel w st).lowlinks w)) ::
              (strongconnect (adjacency edges) fuel w st).lowlinks } := by
        rw [hf st w]
        rw [if_pos (by rw [hlook]; rfl)]
      rw [hfw]
      have hbound2 : (edgeNodes edges).length + 1 ≤ fuel +
          ({ strongconnect (adjacency edges) fuel w st with
            lowlinks := (v,
              min (lookupD (strongconnect (adjacency edges) fuel w st).lowlinks v)
                (lookupD (strongconnect (adjacency edges) fuel w st).lowlinks w)) ::
              (strongconnect (adjacency edges) fuel w st).lowlinks }).index := by
        have h1 := P.index_gt
        show (edgeNodes edges).length + 1 ≤ fuel + (strongconnect (adjacency edges) fuel w st).index
        omega
      obtain ⟨tail3, F3, hbound3⟩ := ihl _ tail2 (procd ++ [w]) hrest F2 hbound2
      refine ⟨tail3, ?_, hbound3⟩
      have hpp : procd ++ [w] ++ rest = procd ++ w :: rest := by simp
      rw [← hpp]
      exact F3
    | some n =>
      have hwidx : st.indexed w := by
        show (st.indices.lookup w).isSome
        rw [hlook]
        rfl
      by_cases hon : w ∈ st.on_stack
      · have F2 := frame_step_onstack F hon hedge
        have hfw : f st w = { st with lowlinks :=
            (v, min (lookupD st.lowlinks v) (lookupD st.indices w)) :: st.lowlinks } := by
          rw [hf st w, if_neg (by rw [hlook]; simp), if_pos hon]
        rw [hfw]
        obtain ⟨tail3, F3, hbound3⟩ := ihl _ tail (procd ++ [w]) hrest F2 (by
          show (edgeNodes edges).length + 1 ≤ fuel + st.index
          exact hbound)
        refine ⟨tail3, ?_, hbound3⟩
        have hpp : procd ++ [w] ++ rest = procd ++ w :: rest := by simp
        rw [← hpp]
        exact F3
      · have F2 := frame_step_done F hwidx hon
        have hfw : f st w = st := by
          rw [hf st w, if_neg (by rw [hlook]; simp), if_neg hon]
        rw [hfw]
        obtain ⟨tail3, F3, hbound3⟩ := ihl _ tail (procd ++ [w]) hrest F2 hbound
        refine ⟨tail3, ?_, hbound3⟩
        have hpp : procd ++ [w] ++ rest = procd ++ w :: rest := by simp
        rw [← hpp]
        exact F3

theorem strongconnect_spec (edges : List (String × String)) :
    ∀ (fuel : ℕ) (v : String) (st : TarjanSt),
      TarjanInv edges st → ¬ st.indexed v → v ∈ edgeNodes edges →
      (∀ u ∈ st.stack, ReachIn edges u v) →
      (edgeNodes edges).length + 1 ≤ fuel + st.index →
      SCPost edges v st (strongconnect (adjacency edges) fuel v st) := by
  intro fuel
  induction fuel with
  | zero =>
    intro v st inv hfresh hnode hreach hbound
    exfalso
    have h1 := inv.index_le_nodes
    omega
  | succ fuel ih =>
    intro v st inv hfresh hnode hreach hbound
    have F1 := push_frame inv hfresh hnode hreach
    have hchild : ∀ w ∈ adjacency edges v, EdgeIn edges v w :=
      fun w hw => adjacency_mem.mp hw
    have hbound1 : (edgeNodes edges).length + 1 ≤ fuel +
        ({ st with
          indices := (v, st.index) :: st.indices
          lowlinks := (v, st.index) :: st.lowlinks
          index := st.index + 1
          stack := st.stack ++ [v]
          on_stack := v :: st.on_stack } : TarjanSt).index := by
      show (edgeNodes edges).length + 1 ≤ fuel + (st.index + 1)
      omega
    obtain ⟨tail2, F2, hbound2⟩ := frame_fold
      (fun (st : TarjanSt) w =>
        if (st.indices.lookup w).isNone then
          let st' := strongconnect (adjacency edges) fuel w st
          { st' with
            lowlinks := (v, min (lookupD st'.lowlinks v) (lookupD st'.lowlinks w)) :: st'.lowlinks }
        else if w ∈ st.on_stack then
          { st with
            lowlinks := (v, min (lookupD st.lowlinks v) (lookupD st.indices w)) :: st.lowlinks }
        else st)
      (fun st w => rfl) ih (adjacency edges v) _ [] [] hchild F1 hbound1
    rw [List.nil_append] at F2
    exact frame_finish F2

lemma post_stack_empty {edges : List (String × String)} {x : String} {st st' : TarjanSt}
    (P : SCPost edges x st st') (hempty : st.stack = []) : st'.stack = [] := by
  rcases P.stack_cases with ⟨h, _, _⟩ | ⟨tail, hstk, hfreshT, hlowT, _⟩
  · rw [h, hempty]
  · exfalso
    have hxstk : x ∈ st'.stack := by
      rw [hstk]
      exact List.mem_append.mpr (Or.inr (List.mem_cons_self _ _))
    have h1 := hlowT x (List.mem_cons_self _ _)
    obtain ⟨z, hz, hzidx, _⟩ := P.inv.low_witness x hxstk
    have hzT : z ∈ x :: tail := by
      rw [hstk, hempty] at hz
      simpa using hz
    have hzge := P.idx_new_ge z (P.inv.stack_dom z hz) (hfreshT z hzT)
    have hxidx : st'.idxOf x = st.index := idxOf_eq_of_lookup P.v_idx
    rw [hzidx] at hzge
    rw [hxidx] at h1
    omega

lemma tarjanInv_init (edges : List (String × String)) :
    TarjanInv edges ⟨0, [], [], [], [], []⟩ := by
  have hnoidx : ∀ u, ¬ (TarjanSt.mk 0 [] [] [] [] []).indexed u := by
    intro u hu
    simp [TarjanSt.indexed, List.lookup] at hu
  refine ⟨List.nodup_nil, ?_, ?_, ?_, List.nodup_nil, ?_, ?_, rfl, ?_, List.Pairwise.nil,
    List.Pairwise.nil, ?_, ?_, ?_, ?_, ?_, ?_, List.Pairwise.nil⟩
  · intro v hv; exact absurd hv (hnoidx v)
  · intro v hv; exact absurd hv (hnoidx v)
  · intro v hv; exact absurd hv (List.not_mem_nil v)
  · intro v; exact Iff.rfl
  · intro v hv; exact absurd hv (hnoidx v)
  · intro u v hu _ _; exact absurd hu (hnoidx u)
  · intro v hv; exact absurd hv (List.not_mem_nil v)
  · intro v hv; exact absurd hv (List.not_mem_nil v)
  · intro u hu; exact absurd hu (hnoidx u)
  · intro C hC; exact absurd hC (List.not_mem_nil C)
  · intro C hC; exact absurd hC (List.not_mem_nil C)
  · intro u hu; exact absurd hu (hnoidx u)

lemma detect_fold {edges : List (String × String)}
    (f : TarjanSt → String → TarjanSt)
    (hf : ∀ (st : TarjanSt) (x : String), f st x =
      if (st.indices.lookup x).isNone then
        strongconnect (adjacency edges) ((edgeNodes edges).length + 1) x st
      else st) :
    ∀ (ns : List String) (st : TarjanSt),
      (∀ x ∈ ns, x ∈ edgeNodes edges) →
      TarjanInv edges st → st.stack = [] →
      TarjanInv edges (ns.foldl f st) ∧ (ns.foldl f st).stack = [] ∧
        (∀ x ∈ ns, (ns.foldl f st).indexed x) ∧
        (∀ u, st.indexed u → (ns.foldl f st).indexed u) := by
  intro ns
  induction ns with
  | nil =>
    intro st _ inv hempty
    rw [List.foldl_nil]
    exact ⟨inv, hempty, fun x hx => absurd hx (List.not_mem_nil x), fun u hu => hu⟩
  | cons x rest ih =>
    intro st hns inv hempty
    rw [List.foldl_cons]
    have hxnode : x ∈ edgeNodes edges := hns x (List.mem_cons_self _ _)
    have hrest : ∀ z ∈ rest, z ∈ edgeNodes edges := fun z hz => hns z (List.mem_cons_of_mem _ hz)
    cases hlook : st.indices.lookup x with
    | none =>
      have hxfresh : ¬ st.indexed x := by
        show ¬ (st.indices.lookup x).isSome
        rw [hlook]
        simp
      have P := strongconnect_spec edges ((edgeNodes edges).length + 1) x st inv hxfresh
        hxnode (by rw [hempty]; intro u hu; exact absurd hu (List.not_mem_nil u)) (by omega)
      have hfx : f st x = strongconnect (adjacency edges) ((edgeNodes edges).length + 1) x st := by
        rw [hf st x, if_pos (by rw [hlook]; rfl)]
      rw [hfx]
      obtain ⟨inv2, hempty2, hidx2, hmono2⟩ :=
        ih _ hrest P.inv (post_stack_empty P hempty)
      refine ⟨inv2, hempty2, ?_, ?_⟩
      · intro z hz
        rcases List.mem_cons.mp hz with rfl | hz2
        · exact hmono2 z (indexed_of_lookup P.v_idx)
        · exact hidx2 z hz2
      · intro u hu
        exact hmono2 u (P.indexed_mono u hu)
    | some n =>
      have hfx : f st x = st := by
        rw [hf st x, if_neg (by rw [hlook]; simp)]
      rw [hfx]
      obtain ⟨inv2, hempty2, hidx2, hmono2⟩ := ih _ hrest inv hempty
      refine ⟨inv2, hempty2, ?_, hmono2⟩
      intro z hz
      rcases List.mem_cons.mp hz with rfl | hz2
      · exact hmono2 z (indexed_of_lookup hlook)
      · exact hidx2 z hz2

lemma detectLoopsEdges_spec (edges : List (String × String)) :
    ∃ st : TarjanSt, detectLoopsEdges edges = st.sccs ∧ TarjanInv edges st ∧
      st.stack = [] ∧ ∀ x ∈ edgeNodes edges, st.indexed x := by
  obtain ⟨inv2, hempty2, hidx2, _⟩ := detect_fold
    (fun (st : TarjanSt) v =>
      if (st.indices.lookup v).isNone then
        strongconnect (adjacency edges) ((edgeNodes edges).length + 1) v st
      else st)
    (fun st x => rfl) (edgeNodes edges) ⟨0, [], [], [], [], []⟩
    (fun x hx => hx) (tarjanInv_init edges) rfl
  exact ⟨_, rfl, inv2, hempty2, hidx2⟩

/-- Claim C2: detect_loops returns exactly the maximal non-trivial strongly
connected components of the directed graph of the rails' (from, to) pairs:
every returned component is a duplicate-free set of at least two nodes that
is closed under, and exhausts, mutual reachability (so it is a maximal SCC);
every mutually reachable pair of distinct nodes appears together in some
returned component; components are pairwise disjoint; and a non-empty result
implies a directed cycle exists. -/
theorem claim_C2_detect_loops_sccs (rails : List Rail) :
    (∀ C ∈ detect_loops rails, C.Nodup ∧ 2 ≤ C.length ∧
      ∀ x ∈ C, ∀ y, (y ∈ C ↔ MutReach (railEdges rails) x y)) ∧
    (∀ u y, u ≠ y → MutReach (railEdges rails) u y →
      ∃ C ∈ detect_loops rails, u ∈ C ∧ y ∈ C) ∧
    (detect_loops rails).Pairwise (fun C D => ∀ x ∈ C, x ∉ D) ∧
    (detect_loops rails ≠ [] → ∃ x, Relation.TransGen (EdgeIn (railEdges rails)) x x) := by
  obtain ⟨st, hres, inv, hempty, hall⟩ := detectLoopsEdges_spec (railEdges rails)
  have hres2 : detect_loops rails = st.sccs := hres
  refine ⟨?_, ?_, ?_, ?_⟩
  · intro C hC
    rw [hres2] at hC
    obtain ⟨h1, h2, _⟩ := inv.sccs_elems C hC
    exact ⟨h1, h2, fun x hx y => inv.sccs_classes C hC x hx y⟩
  · intro u y hne hmut
    have hu_node : u ∈ edgeNodes (railEdges rails) := by
      rcases Relation.ReflTransGen.cases_head hmut.1 with heq | ⟨z, hz, _⟩
      · exact absurd heq hne
      · exact edge_fst_mem hz
    have hu_idx := hall u hu_node
    have hu_comp : u ∉ st.stack := by rw [hempty]; exact List.not_mem_nil u
    rcases inv.completed_covered u hu_idx hu_comp with ⟨C, hC, hCu⟩ | htriv
    · refine ⟨C, ?_, hCu, ?_⟩
      · rw [hres2]; exact hC
      · exact (inv.sccs_classes C hC u hCu y).mpr hmut
    · exact absurd (htriv y hmut) (Ne.symm hne)
  · rw [hres2]
    exact inv.sccs_disjoint
  · intro hne
    rw [hres2] at hne
    obtain ⟨C, hC⟩ := List.exists_mem_of_ne_nil _ hne
    obtain ⟨hnd, hlen, _⟩ := inv.sccs_elems C hC
    obtain ⟨a, b, rest2, hab⟩ : ∃ a b r2, C = a :: b :: r2 := by
      cases C with
      | nil => simp at hlen
      | cons a t =>
        cases t with
        | nil => simp at hlen
        | cons b r2 => exact ⟨a, b, r2, rfl⟩
      
    have haC : a ∈ C := by rw [hab]; exact List.mem_cons_self _ _
    have hbC : b ∈ C := by rw [hab]; exact List.mem_cons_of_mem _ (List.mem_cons_self _ _)
    have hne_ab : a ≠ b := by
      rw [hab] at hnd
      intro he
      exact (List.nodup_cons.mp hnd).1 (he ▸ List.mem_cons_self _ _)
    have hmut : MutReach (railEdges rails) a b :=
      (inv.sccs_classes C hC a haC b).mp hbC
    refine ⟨a, ?_⟩
    rcases (Relation.reflTransGen_iff_eq_or_transGen.mp hmut.1) with heq | htg
    · exact absurd heq.symm hne_ab
    · exact Relation.TransGen.trans_left htg hmut.2

end Spindle
